import Mathlib

/-!
# firehose_exporter: name normalisation and the value-metrics collector

A shallow embedding of `utils/normalize_name.go` and of
`collectors/value_metrics_collector.go`.

Go strings are modelled by the sequence of their runes (code points, Go's
`rune = int32`, here `Nat`); the model therefore covers the Go strings that
are valid UTF-8.  The library functions the source calls (`strings.*`,
`regexp`, `unicode.*`, `camelcase.Split`, `prometheus.BuildFQName`) are
embedded from their Go implementation next to the code that calls them.

The aggregation store (package `metrics`) and the nozzle (package
`firehosenozzle`) are not among the sources; their parts below are modelled
from the specification and are marked so.
-/

namespace Firehose

/-! ## Strings -/

/-- A Go string, as the sequence of its runes; a rune (Go's `rune = int32`) is
its code point. -/
abbrev GoString := List Nat

/-- The Go string written by a string literal. -/
def str (s : String) : GoString := s.data.map Char.toNat

/-! ## Package `unicode` (Go standard library) -/

/-- The ranges of Go's `unicode` tables above `MaxLatin1` (U+00FF).  Go answers
`IsUpper`, `IsLower`, `IsDigit`, `IsSpace` for a rune up to `MaxLatin1` from
the 256-entry `properties` array and looks larger runes up in range tables;
those range tables are this record. -/
structure UnicodeTables where
  /-- Membership in the range table `Upper`, for runes above U+00FF. -/
  upper : Nat → Bool
  /-- Membership in the range table `Lower`, for runes above U+00FF. -/
  lower : Nat → Bool
  /-- Membership in the range table `Digit`, for runes above U+00FF. -/
  digit : Nat → Bool
  /-- Membership in the range table `White_Space`, for runes above U+00FF. -/
  space : Nat → Bool
  /-- Lower-case mapping of `CaseRanges`, for runes above U+00FF. -/
  toLower : Nat → Nat

/-- Tables with no entry above U+00FF.  Text within Latin-1 never consults the
range tables, so any choice of them gives the same results on it. -/
def latin1Tables : UnicodeTables :=
  { upper := fun _ => false, lower := fun _ => false, digit := fun _ => false,
    space := fun _ => false, toLower := fun r => r }

/-- Go's `unicode.MaxLatin1`. -/
def MaxLatin1 : Nat := 0xFF

/-- Go's `unicode.MaxASCII`. -/
def MaxASCII : Nat := 0x7F

/-- Whether `lo ≤ r ≤ hi`. -/
def inRange (lo hi r : Nat) : Bool := Nat.ble lo r && Nat.ble r hi

/-- Go's `unicode.IsUpper`: in Latin-1 the entries of `properties` with
category Lu are `A`-`Z`, U+00C0-U+00D6 and U+00D8-U+00DE. -/
def IsUpper (U : UnicodeTables) (r : Nat) : Bool :=
  if Nat.ble r MaxLatin1 then
    inRange 0x41 0x5A r || inRange 0xC0 0xD6 r || inRange 0xD8 0xDE r
  else U.upper r

/-- Go's `unicode.IsLower`: in Latin-1 the entries of `properties` with
category Ll are `a`-`z`, U+00B5, U+00DF-U+00F6 and U+00F8-U+00FF. -/
def IsLower (U : UnicodeTables) (r : Nat) : Bool :=
  if Nat.ble r MaxLatin1 then
    inRange 0x61 0x7A r || r == 0xB5 || inRange 0xDF 0xF6 r || inRange 0xF8 0xFF r
  else U.lower r

/-- Go's `unicode.IsDigit`: in Latin-1 exactly `0`-`9`. -/
def IsDigit (U : UnicodeTables) (r : Nat) : Bool :=
  if Nat.ble r MaxLatin1 then inRange 0x30 0x39 r else U.digit r

/-- Go's `unicode.IsSpace`: in Latin-1 the runes `\t`, `\n`, `\v`, `\f`, `\r`,
space, U+0085 and U+00A0. -/
def IsSpace (U : UnicodeTables) (r : Nat) : Bool :=
  if Nat.ble r MaxLatin1 then
    inRange 0x09 0x0D r || r == 0x20 || r == 0x85 || r == 0xA0
  else U.space r

/-- Go's `unicode.ToLower`: `A`-`Z` move by `'a' - 'A'`; the Latin-1 entries of
`CaseRanges` with a lower-case delta are U+00C0-U+00D6 and U+00D8-U+00DE
(delta 32); every other rune up to U+00FF is its own lower case. -/
def ToLower (U : UnicodeTables) (r : Nat) : Nat :=
  if Nat.ble r MaxASCII then
    (if inRange 0x41 0x5A r then r + 32 else r)
  else if Nat.ble r MaxLatin1 then
    (if inRange 0xC0 0xD6 r || inRange 0xD8 0xDE r then r + 32 else r)
  else U.toLower r

/-! ## Package `strings` (Go standard library) -/

/-- Drop the leading runes that satisfy `p`. -/
def trimLeftFunc (p : Nat → Bool) : GoString → GoString
  | [] => []
  | r :: rs => if p r then trimLeftFunc p rs else r :: rs

/-- Drop the trailing runes that satisfy `p`. -/
def trimRightFunc (p : Nat → Bool) (s : GoString) : GoString :=
  (trimLeftFunc p s.reverse).reverse

/-- Go's `strings.Trim(s, "_")`: leading and trailing underscores removed. -/
def TrimUnderscore (s : GoString) : GoString :=
  trimLeftFunc (fun r => r == 0x5F) (trimRightFunc (fun r => r == 0x5F) s)

/-- Go's `strings.TrimSpace`: leading and trailing white space removed. -/
def TrimSpace (U : UnicodeTables) (s : GoString) : GoString :=
  trimLeftFunc (IsSpace U) (trimRightFunc (IsSpace U) s)

/-- Go's `strings.ToLower`: `unicode.ToLower` on every rune. -/
def stringsToLower (U : UnicodeTables) (s : GoString) : GoString :=
  s.map (ToLower U)

/-- Go's `strings.Join(words, "_")`. -/
def JoinUnderscore : List GoString → GoString
  | [] => []
  | [w] => w
  | w :: ws => w ++ 0x5F :: JoinUnderscore ws

/-! ## Package `camelcase` (github.com/fatih/camelcase) -/

/-- The class `Split` assigns to a rune: 1 lower case, 2 upper case, 3 digit,
4 anything else (the `switch` tests them in this order). -/
def runeClass (U : UnicodeTables) (r : Nat) : Nat :=
  if IsLower U r then 1
  else if IsUpper U r then 2
  else if IsDigit U r then 3
  else 4

/-- The statement `runes[len(runes)-1] = append(runes[len(runes)-1], r)`. -/
def appendToLast : List (List Nat) → Nat → List (List Nat)
  | [], _ => []
  | [w], r => [w ++ [r]]
  | w :: ws, r => w :: appendToLast ws r

/-- One iteration of the first loop of `Split`, on the state
`(runes, lastClass)`. -/
def splitStep (U : UnicodeTables) (st : List (List Nat) × Nat) (r : Nat) :
    List (List Nat) × Nat :=
  let cls := runeClass U r
  if cls = st.2 then (appendToLast st.1 r, cls) else (st.1 ++ [[r]], cls)

/-- The first loop of `Split`: fields of runes of one class. -/
def splitFields (U : UnicodeTables) (src : GoString) : List (List Nat) :=
  (src.foldl (splitStep U) ([], 0)).1

/-- The second loop of `Split`, `for i := 0; i < len(runes)-1; i++`, from
index `i` on: `cur` is `runes[i]` as the earlier iterations left it and the list
is `runes[i+1:]`.  When `runes[i]` starts with an upper-case rune and
`runes[i+1]` with a lower-case one, the last rune of `runes[i]` moves to the
front of `runes[i+1]`. -/
def fixFrom (U : UnicodeTables) (cur : List Nat) : List (List Nat) → List (List Nat)
  | [] => [cur]
  | w2 :: rest =>
    if IsUpper U (cur.headD 0) && IsLower U (w2.headD 0) then
      cur.dropLast :: fixFrom U (cur.getLastD 0 :: w2) rest
    else
      cur :: fixFrom U w2 rest

/-- The second loop of `Split` on all the fields. -/
def fixUpperLower (U : UnicodeTables) : List (List Nat) → List (List Nat)
  | [] => []
  | w :: rest => fixFrom U w rest

/-- Go's `camelcase.Split` on a valid UTF-8 string: the fields, the upper/lower
adjustment, and the non-empty fields as the entries. -/
def Split (U : UnicodeTables) (src : GoString) : List GoString :=
  (fixUpperLower U (splitFields U src)).filter (fun s => decide (0 < s.length))

/-! ## `utils/normalize_name.go` -/

/-- The character class `[0-9A-Za-z]`. -/
def isAlnumASCII (r : Nat) : Bool :=
  inRange 0x30 0x39 r || inRange 0x41 0x5A r || inRange 0x61 0x7A r

/-- The call `safeNameRE.ReplaceAllLiteralString(s, "_")` with
`safeNameRE = [^0-9A-Za-z]*$`.  The leftmost match starts where the longest
run of runes outside `[0-9A-Za-z]` that reaches the end of `s` starts (at the
end itself when that run is empty); it is replaced by `_`, and the empty match
that follows at the end of the text touches that match and is not replaced. -/
def safeNameREReplace (s : GoString) : GoString :=
  trimRightFunc (fun r => !isAlnumASCII r) s ++ [0x5F]

/-- The body of the loop of `NormalizeName` for one word: `lowerWord`. -/
def lowerWord (U : UnicodeTables) (word : GoString) : GoString :=
  let safeWord := TrimUnderscore (safeNameREReplace (TrimUnderscore word))
  TrimSpace U (stringsToLower U safeWord)

/-- The function `NormalizeName`. -/
def NormalizeName (U : UnicodeTables) (name : GoString) : GoString :=
  let words := Split U name
  let normalizedName := words.foldl
    (fun acc word =>
      let lw := lowerWord U word
      if lw ≠ [] then acc ++ [lw] else acc) []
  JoinUnderscore normalizedName

/-- Go's `strings.HasPrefix`. -/
def HasPrefix (s pre : GoString) : Bool := pre.isPrefixOf s

/-- The function `NormalizeNameDesc`. -/
def NormalizeNameDesc (desc : GoString) : GoString :=
  if HasPrefix desc (str "/p.") then str "/p-" ++ desc.drop 3 else desc

/-- The function `NormalizeOriginDesc`: `strings.Replace(desc, ".", "-", -1)`. -/
def NormalizeOriginDesc (desc : GoString) : GoString :=
  desc.map (fun r => if r == 0x2E then 0x2D else r)

/-- The character class `[a-fA-F0-9]`. -/
def hexClass (r : Nat) : Bool :=
  inRange 0x61 0x66 r || inRange 0x41 0x46 r || inRange 0x30 0x39 r

/-- The character class `[8|9|aA|bB]`: its members are the runes written
between the brackets, the vertical bar among them. -/
def variantClass (r : Nat) : Bool :=
  r == 0x38 || r == 0x7C || r == 0x39 || r == 0x61 || r == 0x41 || r == 0x62 || r == 0x42

/-- The regular expression `uuidRegex` between `^` and `$`, one class per
rune it consumes. -/
def uuidRegex : List (Nat → Bool) :=
  List.replicate 8 hexClass ++ [fun r => r == 0x2D] ++
  List.replicate 4 hexClass ++ [fun r => r == 0x2D] ++
  [fun r => r == 0x34] ++ List.replicate 3 hexClass ++ [fun r => r == 0x2D] ++
  [variantClass] ++ List.replicate 3 hexClass ++ [fun r => r == 0x2D] ++
  List.replicate 12 hexClass

/-- Whether the whole text matches a sequence of one-rune classes (`^` and `$`
without the multi-line flag anchor at the two ends of the text). -/
def matchClasses : List (Nat → Bool) → GoString → Bool
  | [], [] => true
  | p :: ps, r :: rs => p r && matchClasses ps rs
  | _, _ => false

/-- The function `IsValidUuid`. -/
def IsValidUuid (uuid : GoString) : Bool := matchClasses uuidRegex uuid

/-! ## Package `prometheus` (github.com/prometheus/client_golang) -/

/-- Go's `prometheus.BuildFQName`. -/
def BuildFQName (namespace_ subsystem name : GoString) : GoString :=
  if name = [] then []
  else if namespace_ ≠ [] ∧ subsystem ≠ [] then
    JoinUnderscore [namespace_, subsystem, name]
  else if namespace_ ≠ [] then JoinUnderscore [namespace_, name]
  else if subsystem ≠ [] then JoinUnderscore [subsystem, name]
  else name

/-- The arguments of a call of `prometheus.NewDesc`. -/
structure Desc where
  fqName : GoString
  help : GoString
  variableLabels : List GoString
  constLabels : List (GoString × GoString)
deriving DecidableEq

/-! ## `collectors/value_metrics_collector.go` -/

/-- Modelled from the spec: the type `metrics.ValueMetric` of the entries that
`GetValueMetrics` returns; package `metrics` is not among the sources.  The
fields are the ones `Collect` reads.  `Value` is the float64 reading, kept as
its 64-bit pattern: `Collect` only passes it on.  `Tags` is the Go map as the
sequence of its (key, value) pairs in the order the `range` statement visits
them; in a Go map the keys are pairwise distinct. -/
structure ValueMetric where
  Origin : GoString
  Name : GoString
  Value : Nat
  Unit : GoString
  Deployment : GoString
  Job : GoString
  Index : GoString
  IP : GoString
  Tags : List (GoString × GoString)
deriving DecidableEq

/-- Modelled from the spec: the constant `value_metrics_subsystem`, declared in
a file of package `collectors` that is not among the sources; the test builds
the expected names with `"value_metric"`. -/
def value_metrics_subsystem : GoString := str "value_metric"

/-- The fields of `ValueMetricsCollector` that `Collect` reads besides the
store. -/
structure ValueMetricsCollector where
  namespace_ : GoString
  environment : GoString
deriving DecidableEq

/-- The variable `metricName` of `Collect`. -/
def metricName (U : UnicodeTables) (valueMetric : ValueMetric) : GoString :=
  let metricName := NormalizeName U valueMetric.Origin ++ str "_" ++ NormalizeName U valueMetric.Name
  if IsValidUuid valueMetric.Origin then
    str "custom_" ++ NormalizeName U valueMetric.Name
  else metricName

/-- The initial value of `constLabels`. -/
def constLabels0 : List GoString :=
  [str "origin", str "bosh_deployment", str "bosh_job_name", str "bosh_job_id",
   str "bosh_job_ip", str "unit"]

/-- The initial value of `labelValues`. -/
def labelValues0 (valueMetric : ValueMetric) : List GoString :=
  [valueMetric.Origin, valueMetric.Deployment, valueMetric.Job, valueMetric.Index,
   valueMetric.IP, valueMetric.Unit]

/-- One iteration of `for k, v := range valueMetric.Tags` on the state
`(constLabels, labelValues)`. -/
def tagStep (U : UnicodeTables) (valueMetric : ValueMetric)
    (st : List GoString × List GoString) (kv : GoString × GoString) :
    List GoString × List GoString :=
  if kv.1 = str "unit" ∧ (kv.2 ≠ valueMetric.Unit ∧ valueMetric.Unit = []) then
    (st.1, st.2.set 5 kv.2)
  else
    (st.1 ++ [NormalizeName U kv.1], st.2 ++ [kv.2])

/-- The lists `(constLabels, labelValues)` of `Collect` after the loop over the
tags. -/
def collectLabels (U : UnicodeTables) (valueMetric : ValueMetric) :
    List GoString × List GoString :=
  valueMetric.Tags.foldl (tagStep U valueMetric) (constLabels0, labelValues0 valueMetric)

/-- The descriptor `Collect` passes to `prometheus.NewConstMetric`. -/
def valueMetricDesc (U : UnicodeTables) (c : ValueMetricsCollector)
    (valueMetric : ValueMetric) : Desc :=
  { fqName := BuildFQName c.namespace_ value_metrics_subsystem (metricName U valueMetric)
    help := str "Cloud Foundry Firehose '" ++ NormalizeNameDesc valueMetric.Name ++
      str "' value metric from '" ++ NormalizeOriginDesc valueMetric.Origin ++ str "'."
    variableLabels := (collectLabels U valueMetric).1
    constLabels := [(str "environment", c.environment)] }

/-- The method `ValueMetricsCollector.Collect` on the snapshot that
`c.metricsStore.GetValueMetrics()` returned.  `NewConstMetric` is
`prometheus.NewConstMetric` at value type `GaugeValue`, `none` standing for a
returned error; `ch` is the sequence of metrics sent on the channel so far, and
the result is that sequence when `Collect` returns. -/
def Collect {M : Type} (U : UnicodeTables)
    (NewConstMetric : Desc → Nat → List GoString → Option M)
    (c : ValueMetricsCollector) : List ValueMetric → List M → List M
  | [], ch => ch
  | valueMetric :: rest, ch =>
    match NewConstMetric (valueMetricDesc U c valueMetric) valueMetric.Value
        (collectLabels U valueMetric).2 with
    | none => Collect U NewConstMetric c rest ch
    | some vm => Collect U NewConstMetric c rest (ch ++ [vm])

/-! ## Functions used to state the results -/

/-- Whether the loop over the tags absorbs a tag into the fixed `unit` label
instead of adding a label for it: the condition guarding `continue`. -/
def absorbed (valueMetric : ValueMetric) (kv : GoString × GoString) : Bool :=
  decide (kv.1 = str "unit" ∧ (kv.2 ≠ valueMetric.Unit ∧ valueMetric.Unit = []))

/-- The tags for which the loop adds a label, in the order of the loop. -/
def keptTags (valueMetric : ValueMetric) : List (GoString × GoString) :=
  valueMetric.Tags.filter (fun kv => !absorbed valueMetric kv)

/-- The value of the fixed `unit` label after the loop: the payload unit,
overwritten by each absorbed tag in turn. -/
def unitLabelValue (valueMetric : ValueMetric) : GoString :=
  valueMetric.Tags.foldl (fun u kv => if absorbed valueMetric kv then kv.2 else u)
    valueMetric.Unit

/-- The characters a Prometheus metric name built by `NormalizeName` is meant
to consist of: `a`-`z`, `0`-`9` and `_`. -/
def isLowerAlnumUnderscore (r : Nat) : Bool :=
  inRange 0x61 0x7A r || inRange 0x30 0x39 r || r == 0x5F

/-- Every rune is ASCII. -/
def IsASCII (s : GoString) : Prop := ∀ r ∈ s, r ≤ MaxASCII

/-- Every rune is within Latin-1. -/
def IsLatin1 (s : GoString) : Prop := ∀ r ∈ s, r ≤ MaxLatin1

instance (s : GoString) : Decidable (IsASCII s) := by unfold IsASCII; infer_instance
instance (s : GoString) : Decidable (IsLatin1 s) := by unfold IsLatin1; infer_instance

/-- Every rune of every field satisfies `P`. -/
def AllRunes (P : Nat → Prop) (fields : List (List Nat)) : Prop :=
  ∀ w ∈ fields, ∀ r ∈ w, P r

/-- The shape of a field of `Split`: all its runes are letters, or all its runes
have one class. -/
def WordShape (U : UnicodeTables) (w : List Nat) : Prop :=
  (∀ r ∈ w, runeClass U r = 1 ∨ runeClass U r = 2) ∨ (∃ c, ∀ r ∈ w, runeClass U r = c)

/-- The claim about `IsValidUuid` in its own words: 36 characters, `-` at
indexes 8, 13, 18 and 23, a hexadecimal digit everywhere else, `4` at index 14
and one of `8`, `9`, `a`, `A`, `b`, `B` at index 19. -/
def specCanonicalUuidV4 (s : GoString) : Bool :=
  decide (s.length = 36) &&
  (List.range 36).all (fun i =>
    if i = 8 ∨ i = 13 ∨ i = 18 ∨ i = 23 then s.getD i 0 == 0x2D else hexClass (s.getD i 0)) &&
  s.getD 14 0 == 0x34 &&
  [0x38, 0x39, 0x61, 0x41, 0x62, 0x42].contains (s.getD 19 0)

/-! ## The values of the tests -/

/-- The collector of `value_metrics_collector_test.go`. -/
def testCollector : ValueMetricsCollector :=
  { namespace_ := str "test_exporter", environment := str "test_environment" }

/-- The first envelope of `value_metrics_collector_test.go` as a store entry
(the value 2000 as a float64). -/
def testValueMetric1 : ValueMetric :=
  { Origin := str "fake.origin", Name := str "FakeValueMetric1", Value := 0x409F400000000000,
    Unit := str "kb", Deployment := str "fake-deployment-name", Job := str "fake-job-name",
    Index := str "0", IP := str "1.2.3.4", Tags := [(str "tag1", str "fakeTag1")] }

/-- The second envelope of `value_metrics_collector_test.go` as a store entry
(the value 15 as a float64). -/
def testValueMetric2 : ValueMetric :=
  { Origin := str "p.fake.origin", Name := str "/p.fake/ValueMetric2", Value := 0x402E000000000000,
    Unit := str "count", Deployment := str "fake-deployment-name", Job := str "fake-job-name",
    Index := str "0", IP := str "1.2.3.4", Tags := [(str "tag-2", str "fakeTag2")] }

/-- An entry with a payload unit and a tag `unit`. -/
def unitPayloadAndTag : ValueMetric :=
  { testValueMetric1 with Tags := [(str "unit", str "mb")] }

/-- An entry with an empty payload unit and a tag `unit` among its tags. -/
def unitTagOnly : ValueMetric :=
  { testValueMetric1 with
    Unit := [], Tags := [(str "tag1", str "fakeTag1"), (str "unit", str "ms"), (str "zone", str "z1")] }

/-- An entry whose origin is a version-4 UUID. -/
def uuidOriginMetric : ValueMetric :=
  { testValueMetric1 with Origin := str "6ba7b810-9dad-41d1-80b4-00c04fd430c8" }

/-- An entry of the end-to-end scenario: origin `p.fake.origin`, name
`/p.fake/CounterEvent2`. -/
def scenarioMetric : ValueMetric :=
  { testValueMetric2 with Name := str "/p.fake/CounterEvent2" }

/-- A label name Prometheus accepts: `[a-zA-Z_][a-zA-Z0-9_]*`, not starting
with the reserved `__`. -/
def isValidLabelName (l : GoString) : Bool :=
  match l with
  | [] => false
  | c :: rest =>
    (inRange 0x41 0x5A c || inRange 0x61 0x7A c || c == 0x5F) &&
    rest.all (fun r => isAlnumASCII r || r == 0x5F) &&
    !(HasPrefix l (str "__"))

/-- A constructor in the place of `prometheus.NewConstMetric` that fails when
a label name of the descriptor, constant or variable, is no valid label name or
occurs twice among the constant and variable label names (two of the errors
of `prometheus.NewDesc`), and otherwise returns its arguments. -/
def rejectDuplicateLabels (desc : Desc) (value : Nat) (labelValues : List GoString) :
    Option (Desc × Nat × List GoString) :=
  if (desc.constLabels.map Prod.fst ++ desc.variableLabels).Nodup ∧
      (desc.constLabels.map Prod.fst ++ desc.variableLabels).all isValidLabelName = true then
    some (desc, value, labelValues)
  else none

/-- The class of `uuidRegex` that consumes the rune at index `i`. -/
def uuidClassAt (i : Nat) : Nat → Bool :=
  if i = 8 ∨ i = 13 ∨ i = 18 ∨ i = 23 then fun r => r == 0x2D
  else if i = 14 then fun r => r == 0x34
  else if i = 19 then variantClass
  else hexClass

/-- A version-1 UUID. -/
def uuidVersion1 : GoString := str "6ba7b810-9dad-11d1-80b4-00c04fd430c8"

/-- A version-4 UUID written with upper-case and lower-case digits. -/
def uuidMixedCase : GoString := str "6BA7b810-9DAD-41d1-B0b4-00C04FD430c8"

/-- The value of the variable `normalizedName` of `NormalizeName` after its
loop: the non-empty `lowerWord`s of the words, in order. -/
def normalizedTokens (U : UnicodeTables) (name : GoString) : List GoString :=
  ((Split U name).map (lowerWord U)).filter (fun w => decide (w ≠ []))

/-- An ASCII letter, `A`-`Z` or `a`-`z`. -/
def isLetterASCII (r : Nat) : Bool := inRange 0x41 0x5A r || inRange 0x61 0x7A r

/-- An ASCII digit, `0`-`9`. -/
def isDigitASCII (r : Nat) : Bool := inRange 0x30 0x39 r

/-- Two neighbouring characters are not a letter next to a digit. -/
def LetterDigitApart (a b : Nat) : Prop :=
  ¬ (isLetterASCII a = true ∧ isDigitASCII b = true) ∧
  ¬ (isDigitASCII a = true ∧ isLetterASCII b = true)

/-- Two neighbouring characters are not both underscores. -/
def NoDoubleUnderscore (a b : Nat) : Prop := ¬ (a = 0x5F ∧ b = 0x5F)

/-! ## Package `metrics`: the aggregation store -/

/-- Modelled from the spec: the event kinds the store distinguishes (package
`metrics` and the envelope schema are not among the sources): counter, value,
and every other kind. -/
inductive EventKind where
  | counter
  | value
  | other
deriving DecidableEq

/-- Modelled from the spec: the one payload of an envelope, matching its
event kind: a counter payload (name, delta, total), a value payload (name,
value as the 64-bit pattern of the float64, unit), or a payload of a kind the
store does not consume. -/
inductive Payload where
  | counter (name : GoString) (delta total : Nat)
  | value (name : GoString) (value : Nat) (unit : GoString)
  | other
deriving DecidableEq

/-- Modelled from the spec: an envelope of the event stream: origin,
timestamp, deployment, job, index, IP, tags (keys unique) and one payload. -/
structure Envelope where
  Origin : GoString
  Timestamp : Nat
  Deployment : GoString
  Job : GoString
  Index : GoString
  IP : GoString
  Tags : List (GoString × GoString)
  payload : Payload
deriving DecidableEq

/-- The event kind of an envelope, that of its payload. -/
def Envelope.kind (e : Envelope) : EventKind :=
  match e.payload with
  | .counter _ _ _ => .counter
  | .value _ _ _ => .value
  | .other => .other

/-- The metric name of an envelope, that of its payload. -/
def Envelope.name (e : Envelope) : GoString :=
  match e.payload with
  | .counter name _ _ => name
  | .value name _ _ => name
  | .other => []

/-- Modelled from the spec: the type `metrics.CounterEvent` of the entries
`GetCounterMetrics` returns: the last-seen delta and total with the labels. -/
structure CounterEvent where
  Origin : GoString
  Name : GoString
  Delta : Nat
  Total : Nat
  Deployment : GoString
  Job : GoString
  Index : GoString
  IP : GoString
  Tags : List (GoString × GoString)
deriving DecidableEq

/-- The order of two strings, rune by rune. -/
def strLe : GoString → GoString → Bool
  | [], _ => true
  | _ :: _, [] => false
  | a :: s, b :: t => if Nat.blt a b then true else if Nat.blt b a then false else strLe s t

/-- The order of two tags: by key, and by value for one key. -/
def tagLe (a b : GoString × GoString) : Bool :=
  if a.1 = b.1 then strLe a.2 b.2 else strLe a.1 b.1

/-- Insert a tag into a sorted list of tags. -/
def insertTag (kv : GoString × GoString) :
    List (GoString × GoString) → List (GoString × GoString)
  | [] => [kv]
  | x :: rest => if tagLe kv x then kv :: x :: rest else x :: insertTag kv rest

/-- The sorted tag set: the tags in the order of their keys (and of their
values, should a key occur twice), whatever the order they arrive in. -/
def sortTags (tags : List (GoString × GoString)) : List (GoString × GoString) :=
  tags.foldr insertTag []

/-- Modelled from the spec: the composite key of an aggregated entry: (kind,
origin, metric name, deployment, job, job index, sorted tag set). -/
structure CompositeKey where
  kind : EventKind
  origin : GoString
  name : GoString
  deployment : GoString
  job : GoString
  index : GoString
  tags : List (GoString × GoString)
deriving DecidableEq

/-- The composite key of an envelope. -/
def envelopeKey (e : Envelope) : CompositeKey :=
  { kind := e.kind, origin := e.Origin, name := e.name, deployment := e.Deployment,
    job := e.Job, index := e.Index, tags := sortTags e.Tags }

/-- The composite key of a value entry. -/
def valueKey (vm : ValueMetric) : CompositeKey :=
  { kind := .value, origin := vm.Origin, name := vm.Name, deployment := vm.Deployment,
    job := vm.Job, index := vm.Index, tags := sortTags vm.Tags }

/-- The composite key of a counter entry. -/
def counterKey (ce : CounterEvent) : CompositeKey :=
  { kind := .counter, origin := ce.Origin, name := ce.Name, deployment := ce.Deployment,
    job := ce.Job, index := ce.Index, tags := sortTags ce.Tags }

/-- Modelled from the spec: a value entry of the store with its last-update
timestamp. -/
structure StoredValue where
  entry : ValueMetric
  lastUpdate : Nat
deriving DecidableEq

/-- Modelled from the spec: a counter entry of the store with its last-update
timestamp. -/
structure StoredCounter where
  entry : CounterEvent
  lastUpdate : Nat
deriving DecidableEq

/-- Modelled from the spec: the internal diagnostics of the store: the count of
envelopes received and the slow-consumer alert. -/
structure InternalMetrics where
  TotalEnvelopesReceived : Nat
  SlowConsumerAlert : Bool
deriving DecidableEq

/-- Modelled from the spec: the type `metrics.Store`: the expiration duration
(zero for entries that never expire), the two allow-lists of the filters (an
empty list allows all), the aggregated entries of each kind and the
diagnostics. -/
structure Store where
  metricsExpiration : Nat
  deploymentFilter : List GoString
  eventFilter : List EventKind
  counterEvents : List StoredCounter
  valueMetrics : List StoredValue
  internalMetrics : InternalMetrics
deriving DecidableEq

/-- Modelled from the spec: `metrics.NewStore`: no entry, nothing received, no
alert.  (The cleanup interval only schedules the sweep, which is `CleanupSweep`
here.) -/
def NewStore (metricsExpiration : Nat) (deploymentFilter : List GoString)
    (eventFilter : List EventKind) : Store :=
  { metricsExpiration := metricsExpiration, deploymentFilter := deploymentFilter,
    eventFilter := eventFilter, counterEvents := [], valueMetrics := [],
    internalMetrics := { TotalEnvelopesReceived := 0, SlowConsumerAlert := false } }

/-- Modelled from the spec: whether an entry last updated at `lastUpdate` has
expired at the time `now`: its age exceeds the expiration duration; with an
expiration duration of zero no entry expires. -/
def isExpired (metricsExpiration now lastUpdate : Nat) : Bool :=
  metricsExpiration != 0 && decide (metricsExpiration < now - lastUpdate)

/-- Modelled from the spec: the expiration sweep at the time `now`: every
expired entry is removed. -/
def CleanupSweep (s : Store) (now : Nat) : Store :=
  { s with
    counterEvents := s.counterEvents.filter
      (fun x => !isExpired s.metricsExpiration now x.lastUpdate),
    valueMetrics := s.valueMetrics.filter
      (fun x => !isExpired s.metricsExpiration now x.lastUpdate) }

/-- Modelled from the spec: the deployment filter, `(deployment) -> bool`, an
empty allow-list allowing all. -/
def deploymentEnabled (s : Store) (deployment : GoString) : Bool :=
  s.deploymentFilter.isEmpty || s.deploymentFilter.contains deployment

/-- Modelled from the spec: the event-kind filter, `(event-kind) -> bool`, an
empty allow-list allowing all. -/
def eventEnabled (s : Store) (kind : EventKind) : Bool :=
  s.eventFilter.isEmpty || s.eventFilter.contains kind

/-- The merge of one entry into the entries of a kind: the entry with the key
`k` is updated in place, and without such an entry a fresh one is added. -/
def upsertBy {E K : Type} [DecidableEq K] (keyOf : E → K) (k : K) (fresh : E)
    (update : E → E) : List E → List E
  | [] => [fresh]
  | e :: rest =>
    if keyOf e = k then update e :: rest else e :: upsertBy keyOf k fresh update rest

/-- The entry created on the first counter envelope of a key. -/
def freshCounter (now : Nat) (e : Envelope) (name : GoString) (delta total : Nat) :
    StoredCounter :=
  { entry := { Origin := e.Origin, Name := name, Delta := delta, Total := total,
               Deployment := e.Deployment, Job := e.Job, Index := e.Index, IP := e.IP,
               Tags := e.Tags },
    lastUpdate := now }

/-- The merge of a counter payload into the entry of its key: total, delta and
timestamp are overwritten. -/
def mergeCounter (now : Nat) (delta total : Nat) (x : StoredCounter) : StoredCounter :=
  { entry := { x.entry with Delta := delta, Total := total }, lastUpdate := now }

/-- The entry created on the first value envelope of a key. -/
def freshValue (now : Nat) (e : Envelope) (name : GoString) (value : Nat) (unit : GoString) :
    StoredValue :=
  { entry := { Origin := e.Origin, Name := name, Value := value, Unit := unit,
               Deployment := e.Deployment, Job := e.Job, Index := e.Index, IP := e.IP,
               Tags := e.Tags },
    lastUpdate := now }

/-- The merge of a value payload into the entry of its key: value, unit and
timestamp are overwritten. -/
def mergeValue (now : Nat) (value : Nat) (unit : GoString) (x : StoredValue) : StoredValue :=
  { entry := { x.entry with Value := value, Unit := unit }, lastUpdate := now }

/-- The store with one more envelope counted. -/
def countEnvelope (s : Store) : Store :=
  { s with internalMetrics :=
      { TotalEnvelopesReceived := s.internalMetrics.TotalEnvelopesReceived + 1,
        SlowConsumerAlert := s.internalMetrics.SlowConsumerAlert } }

/-- Modelled from the spec: `AddMetric(envelope)` at the time `now`: the
envelope is counted; when a filter rejects it, it is dropped; otherwise a
counter payload overwrites the last-seen total and delta of the entry with its
composite key, a value payload the last-seen value and unit, and the
last-update timestamp is set; an entry is created on the first envelope of its
key. -/
def AddMetric (s : Store) (now : Nat) (e : Envelope) : Store :=
  let s1 := countEnvelope s
  if !deploymentEnabled s e.Deployment then s1
  else if !eventEnabled s e.kind then s1
  else
    match e.payload with
    | .counter name delta total =>
      let counterEvents := upsertBy (fun x => counterKey x.entry) (envelopeKey e)
        (freshCounter now e name delta total) (mergeCounter now delta total) s1.counterEvents
      { s1 with counterEvents := counterEvents }
    | .value name value unit =>
      let valueMetrics := upsertBy (fun x => valueKey x.entry) (envelopeKey e)
        (freshValue now e name value unit) (mergeValue now value unit) s1.valueMetrics
      { s1 with valueMetrics := valueMetrics }
    | .other => s1

/-- Modelled from the spec: an operation on the entries of the store: a call
of `AddMetric` at a time, or a tick of the expiration sweep at a time. -/
inductive StoreOp where
  | add (now : Nat) (e : Envelope)
  | sweep (now : Nat)
deriving DecidableEq

/-- One operation on the store. -/
def applyOp (s : Store) : StoreOp → Store
  | .add now e => AddMetric s now e
  | .sweep now => CleanupSweep s now

/-- A sequence of operations on the store, in their order. -/
def runOps (s : Store) (ops : List StoreOp) : Store := ops.foldl applyOp s

/-- The store after a sequence of operations on a new store. -/
def storeAfter (metricsExpiration : Nat) (deploymentFilter : List GoString)
    (eventFilter : List EventKind) (ops : List StoreOp) : Store :=
  runOps (NewStore metricsExpiration deploymentFilter eventFilter) ops

/-- The `AddMetric` calls of a sequence of operations, each with its time. -/
def addsOf : List StoreOp → List (Nat × Envelope)
  | [] => []
  | .add now e :: rest => (now, e) :: addsOf rest
  | .sweep _ :: rest => addsOf rest

/-- The times of the sweeps of a sequence of operations. -/
def sweepsOf : List StoreOp → List Nat
  | [] => []
  | .add _ _ :: rest => sweepsOf rest
  | .sweep now :: rest => now :: sweepsOf rest

/-- Modelled from the spec: `GetCounterMetrics()`: the current counter entries. -/
def GetCounterMetrics (s : Store) : List CounterEvent := s.counterEvents.map (fun x => x.entry)

/-- Modelled from the spec: `GetValueMetrics()`: the current value entries. -/
def GetValueMetrics (s : Store) : List ValueMetric := s.valueMetrics.map (fun x => x.entry)

/-- Modelled from the spec: `GetInternalMetrics()`. -/
def GetInternalMetrics (s : Store) : InternalMetrics := s.internalMetrics

/-- Modelled from the spec: `FlushCounterEvents()`: clears all counter entries. -/
def FlushCounterEvents (s : Store) : Store := { s with counterEvents := [] }

/-- Modelled from the spec: `FlushValueMetrics()`: clears all value entries. -/
def FlushValueMetrics (s : Store) : Store := { s with valueMetrics := [] }

/-- Modelled from the spec: `CounterEventsCollector.Collect` on the snapshot
`GetCounterMetrics` returned (the collector is not among the sources): every
counter entry yields two series, `_total` and `_delta`; `totalMetric` and
`deltaMetric` construct them, `none` standing for a failed construction. -/
def CounterCollect {M : Type} (totalMetric deltaMetric : CounterEvent → Option M) :
    List CounterEvent → List M → List M
  | [], ch => ch
  | counterEvent :: rest, ch =>
    CounterCollect totalMetric deltaMetric rest
      (ch ++ (totalMetric counterEvent).toList ++ (deltaMetric counterEvent).toList)

/-- One operation on the entries of a kind: an operation with a key merges
into the entry of that key, an operation without a key leaves the entries as
they are. -/
def applyUpsert {E K Op : Type} [DecidableEq K] (keyOf : E → K) (opKey : Op → Option K)
    (fresh : Op → E) (update : Op → E → E) (op : Op) (l : List E) : List E :=
  match opKey op with
  | none => l
  | some k => upsertBy keyOf k (fresh op) (update op) l

/-- One operation of the store on the entries of a kind: an add merges under
its key, a sweep removes the expired entries. -/
def stepEntries {E K : Type} [DecidableEq K] (keyOf : E → K) (stamp : E → Nat)
    (opKey : Nat × Envelope → Option K) (fresh : Nat × Envelope → E)
    (update : Nat × Envelope → E → E) (expired : Nat → Nat → Bool) (l : List E) :
    StoreOp → List E
  | .add now e => applyUpsert keyOf opKey fresh update (now, e) l
  | .sweep now => l.filter (fun x => !expired now (stamp x))

/-- The add `a` is the last add of the operations that merges under the key
`k`, and no sweep after it finds it expired. -/
def lastLiveOp {K : Type} (opKey : Nat × Envelope → Option K) (expired : Nat → Nat → Bool)
    (ops : List StoreOp) (a : Nat × Envelope) (k : K) : Prop :=
  ∃ pre post, ops = pre ++ StoreOp.add a.1 a.2 :: post ∧ opKey a = some k ∧
    (∀ t e, StoreOp.add t e ∈ post → opKey (t, e) ≠ some k) ∧
    (∀ now, StoreOp.sweep now ∈ post → expired now a.1 = false)

/-- The key under which an add merges into the value entries, if it does. -/
def valueOpKey (a : Nat × Envelope) : Option CompositeKey :=
  match a.2.payload with
  | .value _ _ _ => some (envelopeKey a.2)
  | _ => none

/-- The key under which an add merges into the counter entries, if it does. -/
def counterOpKey (a : Nat × Envelope) : Option CompositeKey :=
  match a.2.payload with
  | .counter _ _ _ => some (envelopeKey a.2)
  | _ => none

/-- The value and unit of a value payload. -/
def payloadValueUnit (e : Envelope) : Nat × GoString :=
  match e.payload with
  | .value _ value unit => (value, unit)
  | _ => (0, [])

/-- The delta and total of a counter payload. -/
def payloadDeltaTotal (e : Envelope) : Nat × Nat :=
  match e.payload with
  | .counter _ delta total => (delta, total)
  | _ => (0, 0)

/-- The value entry an add creates. -/
def valueFreshOf (a : Nat × Envelope) : StoredValue :=
  freshValue a.1 a.2 a.2.name (payloadValueUnit a.2).1 (payloadValueUnit a.2).2

/-- The update of a value entry by an add. -/
def valueUpdateOf (a : Nat × Envelope) : StoredValue → StoredValue :=
  mergeValue a.1 (payloadValueUnit a.2).1 (payloadValueUnit a.2).2

/-- The counter entry an add creates. -/
def counterFreshOf (a : Nat × Envelope) : StoredCounter :=
  freshCounter a.1 a.2 a.2.name (payloadDeltaTotal a.2).1 (payloadDeltaTotal a.2).2

/-- The update of a counter entry by an add. -/
def counterUpdateOf (a : Nat × Envelope) : StoredCounter → StoredCounter :=
  mergeCounter a.1 (payloadDeltaTotal a.2).1 (payloadDeltaTotal a.2).2

/-- Both filters of the store accept the envelope. -/
def accepted (s : Store) (e : Envelope) : Prop :=
  deploymentEnabled s e.Deployment = true ∧ eventEnabled s e.kind = true

instance (s : Store) (e : Envelope) : Decidable (accepted s e) := by
  unfold accepted; infer_instance

/-- The first value envelope of `value_metrics_collector_test.go`. -/
def testEnvelope1 : Envelope :=
  { Origin := str "fake.origin", Timestamp := 1000, Deployment := str "fake-deployment-name",
    Job := str "fake-job-name", Index := str "0", IP := str "1.2.3.4",
    Tags := [(str "tag1", str "fakeTag1")],
    payload := .value (str "FakeValueMetric1") 0x409F400000000000 (str "kb") }

/-- An envelope with the key of `testEnvelope1` and another value and unit. -/
def testEnvelope1Later : Envelope :=
  { testEnvelope1 with
    Timestamp := 2000, payload := .value (str "FakeValueMetric1") 0x402E000000000000 (str "mb") }

/-- The first counter envelope of `counter_events_collector_test.go`. -/
def testCounterEnvelope1 : Envelope :=
  { testEnvelope1 with payload := .counter (str "FakeCounterEvent1") 5 1000 }

/-- A value envelope with two tags. -/
def testEnvelopeTwoTags : Envelope :=
  { testEnvelope1 with Tags := [(str "tag1", str "fakeTag1"), (str "zone", str "z1")] }

/-- An envelope with the fields of `testEnvelopeTwoTags`, the same tags in
the other order, and another value and unit. -/
def testEnvelopeTwoTagsLater : Envelope :=
  { testEnvelope1Later with Tags := [(str "zone", str "z1"), (str "tag1", str "fakeTag1")] }

/-- The operations of the scenario, with an expiration duration of 10: a
value envelope with two tags, a counter envelope, a value envelope with the
same tag set in another order and another value, a value envelope with another
tag set, and a sweep at the time 13, when only the counter entry is older than
the expiration duration. -/
def testOps : List StoreOp :=
  [.add 1 testEnvelopeTwoTags, .add 2 testCounterEnvelope1, .add 3 testEnvelopeTwoTagsLater,
   .add 4 testEnvelope1, .sweep 13]

/-- Modelled from the spec: what identifies an aggregated entry besides its
kind: origin, metric name, deployment, job, job index and tag set. -/
structure Series where
  origin : GoString
  name : GoString
  deployment : GoString
  job : GoString
  index : GoString
  tags : List (GoString × GoString)
deriving DecidableEq

/-- Two series are the same: same origin, metric name, deployment, job and
index, and the same tags, in any order. -/
def sameSeries (a b : Series) : Prop :=
  a.origin = b.origin ∧ a.name = b.name ∧ a.deployment = b.deployment ∧ a.job = b.job ∧
  a.index = b.index ∧ a.tags.Perm b.tags

/-- The series of an envelope. -/
def envelopeSeries (e : Envelope) : Series :=
  { origin := e.Origin, name := e.name, deployment := e.Deployment, job := e.Job,
    index := e.Index, tags := e.Tags }

/-- The series of a value entry. -/
def valueSeries (vm : ValueMetric) : Series :=
  { origin := vm.Origin, name := vm.Name, deployment := vm.Deployment, job := vm.Job,
    index := vm.Index, tags := vm.Tags }

/-- The series of a counter entry. -/
def counterSeries (ce : CounterEvent) : Series :=
  { origin := ce.Origin, name := ce.Name, deployment := ce.Deployment, job := ce.Job,
    index := ce.Index, tags := ce.Tags }

/-- The add of the envelope `e` at the time `t` is the last add of the
operations for its kind and series, and no sweep after it finds it expired:
its age at the sweep does not exceed the expiration duration of the store. -/
def lastLiveAdd (metricsExpiration : Nat) (ops : List StoreOp) (t : Nat) (e : Envelope) :
    Prop :=
  ∃ pre post, ops = pre ++ StoreOp.add t e :: post ∧
    (∀ t2 e2, StoreOp.add t2 e2 ∈ post →
      ¬ (e2.kind = e.kind ∧ sameSeries (envelopeSeries e2) (envelopeSeries e))) ∧
    (∀ now, StoreOp.sweep now ∈ post → isExpired metricsExpiration now t = false)

/-! ## Package `firehosenozzle`: backoff and the slow-consumer alert -/

/-- Modelled from the spec: the retry delays of the nozzle's configuration (the
nozzle is not among the sources): the minimum and the maximum retry delay. -/
structure RetryConfig where
  minRetryDelay : Nat
  maxRetryDelay : Nat
deriving DecidableEq

/-- Modelled from the spec: the backoff fields of the nozzle's connection
state: the retry attempt counter and the current backoff delay, the delay
before the next reconnection. -/
structure BackoffState where
  retryAttempt : Nat
  backoffDelay : Nat
deriving DecidableEq

/-- Modelled from the spec: what a connection attempt ends in: a failure (a
failed connect, or a disconnect), or a successful streaming period. -/
inductive ConnectionOutcome where
  | failure
  | streamed
deriving DecidableEq

/-- The backoff state of a nozzle that starts: no attempt, the minimum delay. -/
def initialBackoff (cfg : RetryConfig) : BackoffState :=
  { retryAttempt := 0, backoffDelay := cfg.minRetryDelay }

/-- Modelled from the spec: the backoff state after an outcome: a failure
increments the attempt counter and doubles the delay, capped at the maximum; a
successful streaming period resets the counter to zero and the delay to the
minimum. -/
def nextBackoff (cfg : RetryConfig) (st : BackoffState) : ConnectionOutcome → BackoffState
  | .failure =>
    { retryAttempt := st.retryAttempt + 1,
      backoffDelay := min (2 * st.backoffDelay) cfg.maxRetryDelay }
  | .streamed => initialBackoff cfg

/-- The backoff state after a sequence of outcomes. -/
def runBackoff (cfg : RetryConfig) (st : BackoffState) (outcomes : List ConnectionOutcome) :
    BackoffState :=
  outcomes.foldl (nextBackoff cfg) st

/-- The delays the nozzle waits over a sequence of outcomes, one per failure:
the current backoff delay at the time of the failure. -/
def backoffDelays (cfg : RetryConfig) : BackoffState → List ConnectionOutcome → List Nat
  | _, [] => []
  | st, .failure :: rest => st.backoffDelay :: backoffDelays cfg (nextBackoff cfg st .failure) rest
  | st, .streamed :: rest => backoffDelays cfg (nextBackoff cfg st .streamed) rest

/-- A retry configuration: 1 s to 60 s, in milliseconds. -/
def testRetryConfig : RetryConfig := { minRetryDelay := 1000, maxRetryDelay := 60000 }

/-- The closure code `websocket.ClosePolicyViolation`. -/
def ClosePolicyViolation : Nat := 1008

/-- The closure code `websocket.CloseInvalidFramePayloadData`. -/
def CloseInvalidFramePayloadData : Nat := 1007

/-- The name of the upstream dropped-message counter. -/
def droppedMessagesName : GoString := str "TruncatingBuffer.DroppedMessages"

/-- Modelled from the spec: what the nozzle's read loop meets: an envelope
(at a time), a closure of the connection by the remote with a closure code, an
idle timeout, or a failed connect. -/
inductive NozzleEvent where
  | envelope (now : Nat) (e : Envelope)
  | closed (code : Nat)
  | idleTimeout
  | connectFailed
deriving DecidableEq

/-- Modelled from the spec: the store raising the slow-consumer alert. -/
def AlertSlowConsumerError (s : Store) : Store :=
  { s with internalMetrics :=
      { TotalEnvelopesReceived := s.internalMetrics.TotalEnvelopesReceived,
        SlowConsumerAlert := true } }

/-- Whether an envelope is a counter envelope named as the upstream
dropped-message counter. -/
def isDroppedMessages (e : Envelope) : Bool :=
  match e.payload with
  | .counter name _ _ => decide (name = droppedMessagesName)
  | _ => false

/-- Whether an event is one of the two backpressure signals. -/
def isBackpressureSignal : NozzleEvent → Bool
  | .envelope _ e => isDroppedMessages e
  | .closed code => decide (code = ClosePolicyViolation)
  | .idleTimeout => false
  | .connectFailed => false

/-- Modelled from the spec: what the nozzle does to the store on an event: an
envelope is forwarded with `AddMetric` and, when it is the upstream
dropped-message counter, raises the alert; a closure with the policy-violation
code raises the alert; no other closure or error touches the store. -/
def handleEvent (s : Store) : NozzleEvent → Store
  | .envelope now e =>
    if isDroppedMessages e then AlertSlowConsumerError (AddMetric s now e) else AddMetric s now e
  | .closed code => if code = ClosePolicyViolation then AlertSlowConsumerError s else s
  | .idleTimeout => s
  | .connectFailed => s

/-- The envelope of `firehose_nozzle_test.go` that reports dropped messages. -/
def slowConsumerError : Envelope :=
  { Origin := str "doppler", Timestamp := 1000, Deployment := str "deployment-name",
    Job := str "doppler", Index := [], IP := [], Tags := [],
    payload := .counter (str "TruncatingBuffer.DroppedMessages") 1 1 }

/-- An entry with one tag, whose key is `origin`. -/
def originTagMetric : ValueMetric :=
  { testValueMetric1 with Tags := [(str "origin", str "elsewhere")] }

/-- An entry with an empty payload unit and three tags, among them `unit`, and
the same tags in another order. -/
def unitTagOnlyReordered : List (GoString × GoString) :=
  [(str "unit", str "ms"), (str "zone", str "z1"), (str "tag1", str "fakeTag1")]

/-- The lower case of an ASCII character: `A`-`Z` move to `a`-`z`. -/
def asciiLower (r : Nat) : Nat := if inRange 0x41 0x5A r then r + 32 else r

/-- The fields of `Split` on a join of tokens: the tokens with an underscore
field between them. -/
def joinRuns : List GoString → List (List Nat)
  | [] => []
  | [w] => [w]
  | w :: ws => w :: [0x5F] :: joinRuns ws

/-- A Go string as `NormalizeName` reads it: `valid` is `utf8.ValidString` of
its bytes, and `runes` are the runes Go decodes from them, each byte of an
invalid sequence decoding to U+FFFD (`utf8.RuneError`). -/
structure DecodedString where
  valid : Bool
  runes : GoString
deriving DecidableEq

/-- Go's `camelcase.Split` on any Go string: a string that is not valid UTF-8
is returned unsplit, as the one entry. -/
def SplitDecoded (U : UnicodeTables) (src : DecodedString) : List GoString :=
  if src.valid then Split U src.runes else [src.runes]

/-- The function `NormalizeName` on any Go string, valid UTF-8 or not.
`strings.Trim`, the regular expression and `strings.TrimSpace` read a string
that is not valid UTF-8 rune by rune, an invalid byte as U+FFFD, and
`strings.ToLower` writes U+FFFD for each invalid byte. -/
def NormalizeNameDecoded (U : UnicodeTables) (name : DecodedString) : GoString :=
  let words := SplitDecoded U name
  let normalizedName := words.foldl
    (fun acc word =>
      let lw := lowerWord U word
      if lw ≠ [] then acc ++ [lw] else acc) []
  JoinUnderscore normalizedName

/-! ## Lemmas: trimming -/

theorem trimLeftFunc_of_all_false (p : Nat → Bool) (s : GoString)
    (h : ∀ r ∈ s, p r = false) : trimLeftFunc p s = s := by
  cases s with
  | nil => rfl
  | cons a t => simp [trimLeftFunc, h a (List.mem_cons_self a t)]

theorem trimLeftFunc_of_all_true (p : Nat → Bool) (s : GoString)
    (h : ∀ r ∈ s, p r = true) : trimLeftFunc p s = [] := by
  induction s with
  | nil => rfl
  | cons a t ih =>
    have ha := h a (List.mem_cons_self a t)
    simp only [trimLeftFunc, ha, if_true]
    exact ih (fun r hr => h r (List.mem_cons_of_mem a hr))

theorem trimLeftFunc_suffix (p : Nat → Bool) (s : GoString) :
    trimLeftFunc p s <:+ s := by
  induction s with
  | nil => exact List.suffix_refl _
  | cons a t ih =>
    unfold trimLeftFunc
    split
    · exact ih.trans (List.suffix_cons a t)
    · exact List.suffix_refl _

theorem mem_of_mem_trimLeftFunc {p : Nat → Bool} {s : GoString} {r : Nat}
    (h : r ∈ trimLeftFunc p s) : r ∈ s :=
  (trimLeftFunc_suffix p s).subset h

theorem mem_of_mem_trimRightFunc {p : Nat → Bool} {s : GoString} {r : Nat}
    (h : r ∈ trimRightFunc p s) : r ∈ s := by
  unfold trimRightFunc at h
  exact List.mem_reverse.mp (mem_of_mem_trimLeftFunc (List.mem_reverse.mp h))

theorem trimRightFunc_of_all_false (p : Nat → Bool) (s : GoString)
    (h : ∀ r ∈ s, p r = false) : trimRightFunc p s = s := by
  unfold trimRightFunc
  rw [trimLeftFunc_of_all_false p s.reverse (fun r hr => h r (List.mem_reverse.mp hr))]
  exact List.reverse_reverse s

theorem trimRightFunc_of_all_true (p : Nat → Bool) (s : GoString)
    (h : ∀ r ∈ s, p r = true) : trimRightFunc p s = [] := by
  unfold trimRightFunc
  rw [trimLeftFunc_of_all_true p s.reverse (fun r hr => h r (List.mem_reverse.mp hr))]
  rfl

theorem trimRightFunc_concat_true (p : Nat → Bool) (s : GoString) (x : Nat)
    (hx : p x = true) : trimRightFunc p (s ++ [x]) = trimRightFunc p s := by
  unfold trimRightFunc
  simp [trimLeftFunc, hx]

theorem trimLeftFunc_congr {p q : Nat → Bool} (s : GoString)
    (h : ∀ r ∈ s, p r = q r) : trimLeftFunc p s = trimLeftFunc q s := by
  induction s with
  | nil => rfl
  | cons a t ih =>
    simp only [trimLeftFunc, h a (List.mem_cons_self a t)]
    rw [ih (fun r hr => h r (List.mem_cons_of_mem a hr))]

theorem trimRightFunc_congr {p q : Nat → Bool} (s : GoString)
    (h : ∀ r ∈ s, p r = q r) : trimRightFunc p s = trimRightFunc q s := by
  unfold trimRightFunc
  rw [trimLeftFunc_congr s.reverse (fun r hr => h r (List.mem_reverse.mp hr))]

theorem mem_of_mem_TrimUnderscore {s : GoString} {r : Nat}
    (h : r ∈ TrimUnderscore s) : r ∈ s :=
  mem_of_mem_trimRightFunc (mem_of_mem_trimLeftFunc h)

theorem mem_JoinUnderscore {ws : List GoString} {r : Nat}
    (h : r ∈ JoinUnderscore ws) : r = 0x5F ∨ ∃ w ∈ ws, r ∈ w := by
  induction ws with
  | nil => simp [JoinUnderscore] at h
  | cons w t ih =>
    cases t with
    | nil => exact Or.inr ⟨w, List.mem_cons_self _ _, by simpa [JoinUnderscore] using h⟩
    | cons w2 t2 =>
      simp only [JoinUnderscore, List.mem_append, List.mem_cons] at h
      rcases h with h | h | h
      · exact Or.inr ⟨w, List.mem_cons_self _ _, h⟩
      · exact Or.inl h
      · rcases ih (by simpa [JoinUnderscore] using h) with h1 | ⟨w3, hw3, hr⟩
        · exact Or.inl h1
        · exact Or.inr ⟨w3, List.mem_cons_of_mem _ hw3, hr⟩

/-! ## Lemmas: the Unicode classes on Latin-1 and ASCII -/

theorem IsUpper_latin1 (U V : UnicodeTables) {r : Nat} (h : r ≤ MaxLatin1) :
    IsUpper U r = IsUpper V r := by
  unfold IsUpper; rw [Nat.ble_eq_true_of_le h]; rfl

theorem IsLower_latin1 (U V : UnicodeTables) {r : Nat} (h : r ≤ MaxLatin1) :
    IsLower U r = IsLower V r := by
  unfold IsLower; rw [Nat.ble_eq_true_of_le h]; rfl

theorem IsDigit_latin1 (U V : UnicodeTables) {r : Nat} (h : r ≤ MaxLatin1) :
    IsDigit U r = IsDigit V r := by
  unfold IsDigit; rw [Nat.ble_eq_true_of_le h]; rfl

theorem IsSpace_latin1 (U V : UnicodeTables) {r : Nat} (h : r ≤ MaxLatin1) :
    IsSpace U r = IsSpace V r := by
  unfold IsSpace; rw [Nat.ble_eq_true_of_le h]; rfl

theorem ToLower_latin1 (U V : UnicodeTables) {r : Nat} (h : r ≤ MaxLatin1) :
    ToLower U r = ToLower V r := by
  unfold ToLower; rw [Nat.ble_eq_true_of_le h]; rfl

theorem ToLower_le_latin1 (U : UnicodeTables) {r : Nat} (h : r ≤ MaxLatin1) :
    ToLower U r ≤ MaxLatin1 := by
  unfold ToLower
  rw [Nat.ble_eq_true_of_le h]
  simp only [MaxLatin1, MaxASCII, inRange, Bool.and_eq_true, Bool.or_eq_true, Nat.ble_eq] at *
  split_ifs <;> omega

theorem runeClass_latin1 (U V : UnicodeTables) {r : Nat} (h : r ≤ MaxLatin1) :
    runeClass U r = runeClass V r := by
  unfold runeClass
  rw [IsLower_latin1 U V h, IsUpper_latin1 U V h, IsDigit_latin1 U V h]

theorem IsUpper_zero (U : UnicodeTables) : IsUpper U 0 = false := by
  simp [IsUpper, MaxLatin1, inRange]

theorem IsLower_zero (U : UnicodeTables) : IsLower U 0 = false := by
  simp [IsLower, MaxLatin1, inRange]

/-! ## Lemmas: the fields of `Split` -/

theorem appendToLast_concat (init : List (List Nat)) (w : List Nat) (r : Nat) :
    appendToLast (init ++ [w]) r = init ++ [w ++ [r]] := by
  induction init with
  | nil => rfl
  | cons a t ih =>
    cases t with
    | nil => rfl
    | cons b t2 =>
      simp only [List.cons_append] at ih ⊢
      show a :: appendToLast (b :: (t2 ++ [w])) r = _
      rw [ih]

theorem foldl_splitStep_inv (U : UnicodeTables) (I : List (List Nat) × Nat → Prop)
    (src : GoString) (P : Nat → Prop) (hP : ∀ r ∈ src, P r)
    (hstep : ∀ st r, I st → P r → I (splitStep U st r))
    (st : List (List Nat) × Nat) (h0 : I st) : I (src.foldl (splitStep U) st) := by
  induction src generalizing st with
  | nil => exact h0
  | cons a t ih =>
    simp only [List.foldl_cons]
    exact ih (fun r hr => hP r (List.mem_cons_of_mem a hr)) _
      (hstep st a h0 (hP a (List.mem_cons_self a t)))

theorem splitFields_allRunes (U : UnicodeTables) (P : Nat → Prop) (src : GoString)
    (hP : ∀ r ∈ src, P r) : AllRunes P (splitFields U src) := by
  unfold splitFields
  refine foldl_splitStep_inv U (fun st => AllRunes P st.1) src P hP ?_ _ ?_
  · intro st r hst hr
    unfold splitStep
    simp only
    split
    · rcases List.eq_nil_or_concat st.1 with h | ⟨init, w, h⟩
      · rw [h]; intro w hw; simp [appendToLast] at hw
      · rw [List.concat_eq_append] at h
        rw [h, appendToLast_concat]
        intro w2 hw2 x hx
        rw [List.mem_append, List.mem_singleton] at hw2
        rcases hw2 with hw2 | hw2
        · exact hst w2 (by rw [h]; simp [hw2]) x hx
        · rw [hw2, List.mem_append, List.mem_singleton] at hx
          rcases hx with hx | hx
          · exact hst w (by rw [h]; simp) x hx
          · exact hx ▸ hr
    · intro w2 hw2 x hx
      rw [List.mem_append, List.mem_singleton] at hw2
      rcases hw2 with hw2 | hw2
      · exact hst w2 hw2 x hx
      · rw [hw2, List.mem_singleton] at hx
        exact hx ▸ hr
  · intro w hw; simp at hw

theorem splitFields_uniform (U : UnicodeTables) (src : GoString) :
    ∀ w ∈ splitFields U src, ∃ c, ∀ r ∈ w, runeClass U r = c := by
  unfold splitFields
  have key := foldl_splitStep_inv U
    (fun st => (∀ w ∈ st.1, ∃ c, ∀ r ∈ w, runeClass U r = c) ∧
      (∀ init w, st.1 = init ++ [w] → ∀ r ∈ w, runeClass U r = st.2))
    src (fun _ => True) (fun _ _ => trivial) ?_ ([], 0) ?_
  · exact key.1
  · intro st r hst _
    obtain ⟨h1, h2⟩ := hst
    unfold splitStep
    simp only
    split
    · rename_i hc
      rcases List.eq_nil_or_concat st.1 with h | ⟨init, w, h⟩
      · rw [h]
        refine ⟨fun w hw => by simp [appendToLast] at hw, fun init w hw => ?_⟩
        simp [appendToLast] at hw
      · rw [List.concat_eq_append] at h
        have hw := h2 init w h
        rw [h, appendToLast_concat]
        have hlast : ∀ x ∈ w ++ [r], runeClass U x = runeClass U r := by
          intro x hx
          rw [List.mem_append, List.mem_singleton] at hx
          rcases hx with hx | hx
          · rw [hw x hx, hc]
          · rw [hx]
        refine ⟨fun w2 hw2 => ?_, fun init2 w2 he => ?_⟩
        · rw [List.mem_append, List.mem_singleton] at hw2
          rcases hw2 with hw2 | hw2
          · exact h1 w2 (by rw [h]; simp [hw2])
          · exact ⟨runeClass U r, hw2 ▸ hlast⟩
        · have e := List.singleton_inj.mp (List.append_inj_right' he rfl)
          exact e ▸ hlast
    · refine ⟨fun w2 hw2 => ?_, fun init2 w2 he => ?_⟩
      · rw [List.mem_append, List.mem_singleton] at hw2
        rcases hw2 with hw2 | hw2
        · exact h1 w2 hw2
        · exact ⟨runeClass U r, fun x hx => by rw [hw2, List.mem_singleton] at hx; rw [hx]⟩
      · have e := List.singleton_inj.mp (List.append_inj_right' he rfl)
        intro x hx
        rw [← e, List.mem_singleton] at hx
        rw [hx]
  · exact ⟨fun w hw => by simp at hw, fun init w hw => by simp at hw⟩

theorem ne_nil_of_IsUpper_headD (U : UnicodeTables) {w : List Nat}
    (h : IsUpper U (w.headD 0) = true) : w ≠ [] := by
  intro e; rw [e] at h; simp [IsUpper_zero] at h

theorem ne_nil_of_IsLower_headD (U : UnicodeTables) {w : List Nat}
    (h : IsLower U (w.headD 0) = true) : w ≠ [] := by
  intro e; rw [e] at h; simp [IsLower_zero] at h

theorem getLastD_mem {w : List Nat} (h : w ≠ []) : w.getLastD 0 ∈ w := by
  rw [List.getLastD_eq_getLast?, List.getLast?_eq_getLast w h]
  exact List.getLast_mem h

theorem headD_mem {w : List Nat} (h : w ≠ []) : w.headD 0 ∈ w := by
  cases w with
  | nil => exact absurd rfl h
  | cons a t => simp

theorem fixFrom_allRunes (U : UnicodeTables) (P : Nat → Prop) (rest : List (List Nat)) :
    ∀ cur : List Nat, (∀ r ∈ cur, P r) → AllRunes P rest → AllRunes P (fixFrom U cur rest) := by
  induction rest with
  | nil =>
    intro cur hc _ w hw
    simp only [fixFrom, List.mem_singleton] at hw
    exact hw ▸ hc
  | cons w2 rest ih =>
    intro cur hc hrest
    have hw2 : ∀ r ∈ w2, P r := hrest w2 (List.mem_cons_self _ _)
    have hrest2 : AllRunes P rest := fun w hw => hrest w (List.mem_cons_of_mem _ hw)
    unfold fixFrom
    split
    · rename_i hcond
      rw [Bool.and_eq_true] at hcond
      have hne := ne_nil_of_IsUpper_headD U hcond.1
      intro w hw
      rw [List.mem_cons] at hw
      rcases hw with hw | hw
      · intro r hr; rw [hw] at hr; exact hc r (List.mem_of_mem_dropLast hr)
      · refine ih (cur.getLastD 0 :: w2) ?_ hrest2 w hw
        intro r hr
        rw [List.mem_cons] at hr
        rcases hr with hr | hr
        · rw [hr]; exact hc _ (getLastD_mem hne)
        · exact hw2 r hr
    · intro w hw
      rw [List.mem_cons] at hw
      rcases hw with hw | hw
      · exact hw ▸ hc
      · exact ih w2 hw2 hrest2 w hw

theorem Split_allRunes (U : UnicodeTables) (P : Nat → Prop) (src : GoString)
    (hP : ∀ r ∈ src, P r) : AllRunes P (Split U src) := by
  have h := splitFields_allRunes U P src hP
  intro w hw
  unfold Split at hw
  have hw2 := (List.mem_filter.mp hw).1
  cases hf : splitFields U src with
  | nil => rw [hf] at hw2; simp [fixUpperLower] at hw2
  | cons a t =>
    rw [hf] at hw2 h
    exact fixFrom_allRunes U P t a (h a (List.mem_cons_self _ _))
      (fun w hw => h w (List.mem_cons_of_mem _ hw)) w hw2

theorem runeClass_of_IsLower (U : UnicodeTables) {r : Nat} (h : IsLower U r = true) :
    runeClass U r = 1 := by
  simp [runeClass, h]

theorem runeClass_of_IsUpper (U : UnicodeTables) {r : Nat} (h : IsUpper U r = true) :
    runeClass U r = 1 ∨ runeClass U r = 2 := by
  unfold runeClass
  by_cases hl : IsLower U r = true
  · simp [hl]
  · simp [hl, h]

theorem WordShape_letters_of_head (U : UnicodeTables) {w : List Nat} (hw : WordShape U w)
    (hne : w ≠ []) (hh : runeClass U (w.headD 0) = 1 ∨ runeClass U (w.headD 0) = 2) :
    ∀ r ∈ w, runeClass U r = 1 ∨ runeClass U r = 2 := by
  rcases hw with hw | ⟨c, hc⟩
  · exact hw
  · intro r hr
    rw [hc r hr, ← hc _ (headD_mem hne)]
    exact hh

theorem fixFrom_wordShape (U : UnicodeTables) (rest : List (List Nat)) :
    ∀ cur : List Nat, WordShape U cur → (∀ w ∈ rest, WordShape U w) →
      ∀ w ∈ fixFrom U cur rest, WordShape U w := by
  induction rest with
  | nil =>
    intro cur hc _ w hw
    simp only [fixFrom, List.mem_singleton] at hw
    exact hw ▸ hc
  | cons w2 rest ih =>
    intro cur hc hrest
    have hw2 : WordShape U w2 := hrest w2 (List.mem_cons_self _ _)
    have hrest2 : ∀ w ∈ rest, WordShape U w := fun w hw => hrest w (List.mem_cons_of_mem _ hw)
    unfold fixFrom
    split
    · rename_i hcond
      rw [Bool.and_eq_true] at hcond
      have hne := ne_nil_of_IsUpper_headD U hcond.1
      have hne2 := ne_nil_of_IsLower_headD U hcond.2
      have hcl := WordShape_letters_of_head U hc hne (runeClass_of_IsUpper U hcond.1)
      have hw2l := WordShape_letters_of_head U hw2 hne2 (Or.inl (runeClass_of_IsLower U hcond.2))
      intro w hw
      rw [List.mem_cons] at hw
      rcases hw with hw | hw
      · exact Or.inl (fun r hr => hcl r (List.mem_of_mem_dropLast (hw ▸ hr)))
      · refine ih (cur.getLastD 0 :: w2) (Or.inl ?_) hrest2 w hw
        intro r hr
        rw [List.mem_cons] at hr
        rcases hr with hr | hr
        · rw [hr]; exact hcl _ (getLastD_mem hne)
        · exact hw2l r hr
    · intro w hw
      rw [List.mem_cons] at hw
      rcases hw with hw | hw
      · exact hw ▸ hc
      · exact ih w2 hw2 hrest2 w hw

theorem Split_wordShape (U : UnicodeTables) (src : GoString) :
    ∀ w ∈ Split U src, WordShape U w := by
  have h : ∀ w ∈ splitFields U src, WordShape U w :=
    fun w hw => Or.inr (splitFields_uniform U src w hw)
  intro w hw
  unfold Split at hw
  have hw2 := (List.mem_filter.mp hw).1
  cases hf : splitFields U src with
  | nil => rw [hf] at hw2; simp [fixUpperLower] at hw2
  | cons a t =>
    rw [hf] at hw2 h
    exact fixFrom_wordShape U t a (h a (List.mem_cons_self _ _))
      (fun w hw => h w (List.mem_cons_of_mem _ hw)) w hw2

/-! ## Lemmas: Latin-1 text does not consult the range tables -/

theorem splitFields_latin1 (U V : UnicodeTables) (src : GoString) (h : IsLatin1 src) :
    splitFields U src = splitFields V src := by
  unfold splitFields
  congr 1
  apply List.foldl_ext
  intro st r hr
  unfold splitStep
  rw [runeClass_latin1 U V (h r hr)]

theorem fixFrom_latin1 (U V : UnicodeTables) (rest : List (List Nat)) :
    ∀ cur : List Nat, IsLatin1 cur → AllRunes (fun r => r ≤ MaxLatin1) rest →
      fixFrom U cur rest = fixFrom V cur rest := by
  induction rest with
  | nil => intro cur _ _; rfl
  | cons w2 rest ih =>
    intro cur hc hrest
    have hw2 : IsLatin1 w2 := hrest w2 (List.mem_cons_self _ _)
    have hrest2 : AllRunes (fun r => r ≤ MaxLatin1) rest :=
      fun w hw => hrest w (List.mem_cons_of_mem _ hw)
    have hhead : ∀ w : List Nat, IsLatin1 w → w.headD 0 ≤ MaxLatin1 := by
      intro w hw
      cases w with
      | nil => simp [MaxLatin1]
      | cons a t => exact hw a (List.mem_cons_self _ _)
    have hlast : cur.getLastD 0 ≤ MaxLatin1 := by
      by_cases hne : cur = []
      · rw [hne]; simp [MaxLatin1]
      · exact hc _ (getLastD_mem hne)
    unfold fixFrom
    rw [IsUpper_latin1 U V (hhead cur hc), IsLower_latin1 U V (hhead w2 hw2),
      ih w2 hw2 hrest2, ih (cur.getLastD 0 :: w2) ?_ hrest2]
    intro r hr
    rw [List.mem_cons] at hr
    rcases hr with hr | hr
    · rw [hr]; exact hlast
    · exact hw2 r hr

theorem Split_latin1 (U V : UnicodeTables) (src : GoString) (h : IsLatin1 src) :
    Split U src = Split V src := by
  have hf := splitFields_allRunes V (fun r => r ≤ MaxLatin1) src h
  unfold Split
  rw [splitFields_latin1 U V src h]
  cases hs : splitFields V src with
  | nil => rfl
  | cons a t =>
    rw [hs] at hf
    simp only [fixUpperLower]
    rw [fixFrom_latin1 U V t a (hf a (List.mem_cons_self _ _))
      (fun w hw => hf w (List.mem_cons_of_mem _ hw))]

theorem lowerWord_latin1 (U V : UnicodeTables) (word : GoString) (h : IsLatin1 word) :
    lowerWord U word = lowerWord V word := by
  unfold lowerWord
  simp only
  generalize hsafe : TrimUnderscore (safeNameREReplace (TrimUnderscore word)) = safeWord
  have hs : IsLatin1 safeWord := by
    intro r hr
    rw [← hsafe] at hr
    have hr2 := mem_of_mem_TrimUnderscore hr
    unfold safeNameREReplace at hr2
    rw [List.mem_append, List.mem_singleton] at hr2
    rcases hr2 with hr2 | hr2
    · exact h r (mem_of_mem_TrimUnderscore (mem_of_mem_trimRightFunc hr2))
    · rw [hr2]; simp [MaxLatin1]
  have hmap : stringsToLower U safeWord = stringsToLower V safeWord := by
    unfold stringsToLower
    exact List.map_congr_left (fun r hr => ToLower_latin1 U V (hs r hr))
  have hl : IsLatin1 (stringsToLower V safeWord) := by
    intro r hr
    unfold stringsToLower at hr
    obtain ⟨x, hx, hxr⟩ := List.mem_map.mp hr
    exact hxr ▸ ToLower_le_latin1 V (hs x hx)
  rw [hmap]
  unfold TrimSpace
  rw [trimRightFunc_congr (stringsToLower V safeWord) (fun r hr => IsSpace_latin1 U V (hl r hr))]
  exact trimLeftFunc_congr _ (fun r hr => IsSpace_latin1 U V (hl r (mem_of_mem_trimRightFunc hr)))

theorem foldl_normalizedName (f : GoString → GoString) (words : List GoString) :
    ∀ acc : List GoString,
      words.foldl (fun acc word => if f word ≠ [] then acc ++ [f word] else acc) acc
        = acc ++ (words.map f).filter (fun w => decide (w ≠ [])) := by
  induction words with
  | nil => intro acc; simp
  | cons a t ih =>
    intro acc
    simp only [List.foldl_cons, List.map_cons]
    rw [ih]
    by_cases h : f a = []
    · simp [h]
    · simp [h, List.filter_cons]

theorem NormalizeName_eq (U : UnicodeTables) (name : GoString) :
    NormalizeName U name
      = JoinUnderscore (((Split U name).map (lowerWord U)).filter (fun w => decide (w ≠ []))) := by
  unfold NormalizeName
  simp only
  rw [foldl_normalizedName (lowerWord U) (Split U name) []]
  rfl

theorem NormalizeName_latin1 (U V : UnicodeTables) (name : GoString) (h : IsLatin1 name) :
    NormalizeName U name = NormalizeName V name := by
  have hw := Split_allRunes V (fun r => r ≤ MaxLatin1) name h
  rw [NormalizeName_eq, NormalizeName_eq, Split_latin1 U V name h,
    List.map_congr_left (fun word hword => lowerWord_latin1 U V word (hw word hword))]

/-! ## Lemmas: words of ASCII letters and digits -/

theorem isAlnumASCII_of_class (U : UnicodeTables) {r : Nat} (h : r ≤ MaxASCII)
    (hc : runeClass U r ≠ 4) : isAlnumASCII r = true := by
  have h255 : r ≤ MaxLatin1 := Nat.le_trans h (by decide)
  unfold runeClass IsLower IsUpper IsDigit at hc
  rw [Nat.ble_eq_true_of_le h255] at hc
  simp only [MaxASCII, isAlnumASCII, inRange, Bool.and_eq_true, Bool.or_eq_true, Nat.ble_eq,
    beq_iff_eq, if_true] at *
  split_ifs at hc <;> omega

theorem not_isAlnumASCII_of_class (U : UnicodeTables) {r : Nat} (hc : runeClass U r = 4) :
    isAlnumASCII r = false := by
  by_cases h255 : r ≤ MaxLatin1
  · unfold runeClass IsLower IsUpper IsDigit at hc
    rw [Nat.ble_eq_true_of_le h255] at hc
    rw [Bool.eq_false_iff]
    simp only [isAlnumASCII, inRange, Bool.and_eq_true, Bool.or_eq_true, Nat.ble_eq,
      beq_iff_eq, if_true, ne_eq] at *
    split_ifs at hc <;> omega
  · rw [Bool.eq_false_iff]
    simp only [MaxLatin1, isAlnumASCII, inRange, Bool.and_eq_true, Bool.or_eq_true, Nat.ble_eq,
      ne_eq] at *
    omega

theorem not_IsSpace_ToLower_of_alnum (U : UnicodeTables) {r : Nat}
    (h : isAlnumASCII r = true) : IsSpace U (ToLower U r) = false := by
  rw [Bool.eq_false_iff]
  simp only [isAlnumASCII, IsSpace, ToLower, MaxASCII, MaxLatin1, inRange, Bool.and_eq_true,
    Bool.or_eq_true, Nat.ble_eq, beq_iff_eq, ne_eq] at *
  split_ifs <;>
    (try simp only [Bool.or_eq_true, Bool.and_eq_true, Nat.ble_eq, beq_iff_eq]) <;> omega

theorem isLowerAlnum_ToLower_of_alnum (U : UnicodeTables) {r : Nat}
    (h : isAlnumASCII r = true) : isLowerAlnumUnderscore (ToLower U r) = true := by
  simp only [isAlnumASCII, isLowerAlnumUnderscore, ToLower, MaxASCII, MaxLatin1, inRange,
    Bool.and_eq_true, Bool.or_eq_true, Nat.ble_eq, beq_iff_eq] at *
  split_ifs <;> omega

theorem lowerWord_of_alnum (U : UnicodeTables) (w : GoString)
    (h : ∀ r ∈ w, isAlnumASCII r = true) : lowerWord U w = w.map (ToLower U) := by
  have hu : ∀ r ∈ w, (fun r : Nat => r == 0x5F) r = false := by
    intro r hr
    have := h r hr
    simp only [isAlnumASCII, inRange, Bool.and_eq_true, Bool.or_eq_true, Nat.ble_eq] at this
    simp only [beq_eq_false_iff_ne, ne_eq]
    omega
  have hn : ∀ r ∈ w, (fun r : Nat => !isAlnumASCII r) r = false := by
    intro r hr; simp [h r hr]
  have h1 : TrimUnderscore w = w := by
    unfold TrimUnderscore
    rw [trimRightFunc_of_all_false _ w hu, trimLeftFunc_of_all_false _ w hu]
  have h2 : safeNameREReplace w = w ++ [0x5F] := by
    unfold safeNameREReplace
    rw [trimRightFunc_of_all_false _ w hn]
  have h3 : TrimUnderscore (w ++ [0x5F]) = w := by
    unfold TrimUnderscore
    rw [trimRightFunc_concat_true _ w 0x5F (by decide), trimRightFunc_of_all_false _ w hu,
      trimLeftFunc_of_all_false _ w hu]
  have hs : ∀ r ∈ w.map (ToLower U), IsSpace U r = false := by
    intro r hr
    obtain ⟨x, hx, hxr⟩ := List.mem_map.mp hr
    exact hxr ▸ not_IsSpace_ToLower_of_alnum U (h x hx)
  unfold lowerWord
  simp only
  rw [h1, h2, h3]
  unfold stringsToLower TrimSpace
  rw [trimRightFunc_of_all_false _ _ hs, trimLeftFunc_of_all_false _ _ hs]

theorem lowerWord_of_not_alnum (U : UnicodeTables) (w : GoString)
    (h : ∀ r ∈ w, isAlnumASCII r = false) : lowerWord U w = [] := by
  have h1 : trimRightFunc (fun r => !isAlnumASCII r) (TrimUnderscore w) = [] := by
    apply trimRightFunc_of_all_true
    intro r hr
    simp [h r (mem_of_mem_TrimUnderscore hr)]
  unfold lowerWord
  simp only
  unfold safeNameREReplace
  rw [h1]
  rfl

theorem Split_word_cases (U : UnicodeTables) (src : GoString)
    (h : ∀ r ∈ src, runeClass U r ≠ 4 → r ≤ MaxASCII) :
    ∀ w ∈ Split U src, (∀ r ∈ w, isAlnumASCII r = true) ∨ (∀ r ∈ w, isAlnumASCII r = false) := by
  intro w hw
  have hr := Split_allRunes U (fun r => runeClass U r ≠ 4 → r ≤ MaxASCII) src h w hw
  rcases Split_wordShape U src w hw with hl | ⟨c, hc⟩
  · left
    intro r hrw
    have hne : runeClass U r ≠ 4 := by rcases hl r hrw with e | e <;> rw [e] <;> decide
    exact isAlnumASCII_of_class U (hr r hrw hne) hne
  · by_cases h4 : c = 4
    · right
      intro r hrw
      exact not_isAlnumASCII_of_class U (h4 ▸ hc r hrw)
    · left
      intro r hrw
      have hne : runeClass U r ≠ 4 := by rw [hc r hrw]; exact h4
      exact isAlnumASCII_of_class U (hr r hrw hne) hne

theorem NormalizeName_runes (U : UnicodeTables) (name : GoString)
    (h : ∀ r ∈ name, runeClass U r ≠ 4 → r ≤ MaxASCII) :
    ∀ r ∈ NormalizeName U name, isLowerAlnumUnderscore r = true := by
  intro r hr
  rw [NormalizeName_eq] at hr
  rcases mem_JoinUnderscore hr with h1 | ⟨w, hw, hrw⟩
  · rw [h1]; decide
  · obtain ⟨word, hword, he⟩ := List.mem_map.mp (List.mem_filter.mp hw).1
    rcases Split_word_cases U name h word hword with ha | hn
    · rw [← he, lowerWord_of_alnum U word ha] at hrw
      obtain ⟨x, hx, hxr⟩ := List.mem_map.mp hrw
      exact hxr ▸ isLowerAlnum_ToLower_of_alnum U (ha x hx)
    · rw [← he, lowerWord_of_not_alnum U word hn] at hrw
      simp at hrw

/-! ## Lemmas: the loop over the tags -/

theorem tagStep_absorbed (U : UnicodeTables) (vm : ValueMetric)
    (names : List GoString) (a b c d e u : GoString) (extra : List GoString)
    (kv : GoString × GoString) (h : absorbed vm kv = true) :
    tagStep U vm (names, a :: b :: c :: d :: e :: u :: extra) kv
      = (names, a :: b :: c :: d :: e :: kv.2 :: extra) := by
  unfold absorbed at h
  unfold tagStep
  rw [if_pos (of_decide_eq_true h)]
  rfl

theorem tagStep_kept (U : UnicodeTables) (vm : ValueMetric)
    (st : List GoString × List GoString) (kv : GoString × GoString)
    (h : absorbed vm kv = false) :
    tagStep U vm st kv = (st.1 ++ [NormalizeName U kv.1], st.2 ++ [kv.2]) := by
  unfold absorbed at h
  unfold tagStep
  rw [if_neg (of_decide_eq_false h)]

theorem foldl_tagStep (U : UnicodeTables) (vm : ValueMetric) (a b c d e : GoString)
    (tags : List (GoString × GoString)) :
    ∀ (names : List GoString) (u : GoString) (extra : List GoString),
      tags.foldl (tagStep U vm) (names, a :: b :: c :: d :: e :: u :: extra)
        = (names ++ (tags.filter (fun kv => !absorbed vm kv)).map (fun kv => NormalizeName U kv.1),
           a :: b :: c :: d :: e ::
             tags.foldl (fun u kv => if absorbed vm kv then kv.2 else u) u ::
             (extra ++ (tags.filter (fun kv => !absorbed vm kv)).map Prod.snd)) := by
  induction tags with
  | nil => intro names u extra; simp
  | cons kv t ih =>
    intro names u extra
    simp only [List.foldl_cons]
    cases h : absorbed vm kv with
    | true =>
      rw [tagStep_absorbed U vm names a b c d e u extra kv h, ih]
      simp [List.filter_cons, h]
    | false =>
      rw [tagStep_kept U vm _ kv h]
      have hcons : (a :: b :: c :: d :: e :: u :: extra) ++ [kv.2]
          = a :: b :: c :: d :: e :: u :: (extra ++ [kv.2]) := rfl
      simp only [hcons]
      rw [ih]
      simp [List.filter_cons, h]

theorem collectLabels_eq (U : UnicodeTables) (vm : ValueMetric) :
    collectLabels U vm
      = (constLabels0 ++ (keptTags vm).map (fun kv => NormalizeName U kv.1),
         [vm.Origin, vm.Deployment, vm.Job, vm.Index, vm.IP, unitLabelValue vm]
           ++ (keptTags vm).map Prod.snd) := by
  unfold collectLabels labelValues0 keptTags unitLabelValue
  rw [foldl_tagStep]
  rfl

theorem foldl_absorbed_eq (p : GoString × GoString → Bool) (v : GoString)
    (tags : List (GoString × GoString)) (hall : ∀ kv ∈ tags, p kv = true → kv.2 = v) :
    ∀ u : GoString, (u = v ∨ ∃ kv ∈ tags, p kv = true) →
      tags.foldl (fun u kv => if p kv then kv.2 else u) u = v := by
  induction tags with
  | nil =>
    intro u h
    rcases h with h | ⟨kv, hkv, _⟩
    · exact h
    · simp at hkv
  | cons kv t ih =>
    intro u h
    simp only [List.foldl_cons]
    apply ih (fun kv2 h2 => hall kv2 (List.mem_cons_of_mem _ h2))
    by_cases hp : p kv = true
    · left; rw [if_pos hp]; exact hall kv (List.mem_cons_self _ _) hp
    · rw [if_neg hp]
      rcases h with h | ⟨kv2, hkv2, hp2⟩
      · exact Or.inl h
      · rw [List.mem_cons] at hkv2
        rcases hkv2 with e | hmem
        · exact absurd (e ▸ hp2) hp
        · exact Or.inr ⟨kv2, hmem, hp2⟩

theorem foldl_absorbed_none (p : GoString × GoString → Bool)
    (tags : List (GoString × GoString)) (hall : ∀ kv ∈ tags, p kv = false) (u : GoString) :
    tags.foldl (fun u kv => if p kv then kv.2 else u) u = u := by
  induction tags with
  | nil => rfl
  | cons kv t ih =>
    simp only [List.foldl_cons]
    rw [hall kv (List.mem_cons_self _ _)]
    simpa using ih (fun kv2 h2 => hall kv2 (List.mem_cons_of_mem _ h2))

theorem absorbed_false_of_unit_ne (vm : ValueMetric) (h : vm.Unit ≠ [])
    (kv : GoString × GoString) : absorbed vm kv = false := by
  unfold absorbed
  exact decide_eq_false (fun hc => h hc.2.2)

theorem value_eq_of_nodup_keys {tags : List (GoString × GoString)}
    (hnd : (tags.map Prod.fst).Nodup) {k v w : GoString}
    (hv : (k, v) ∈ tags) (hw : (k, w) ∈ tags) : w = v := by
  induction tags with
  | nil => simp at hv
  | cons kv t ih =>
    rw [List.map_cons, List.nodup_cons] at hnd
    rw [List.mem_cons] at hv hw
    rcases hv with hv | hv <;> rcases hw with hw | hw
    · rw [← hv] at hw; exact (Prod.mk.inj hw).2
    · exact absurd (List.mem_map.mpr ⟨(k, w), hw, by rw [← hv]⟩) hnd.1
    · exact absurd (List.mem_map.mpr ⟨(k, v), hv, by rw [← hw]⟩) hnd.1
    · exact ih hnd.2 hv hw

theorem length_filter_key_ne {tags : List (GoString × GoString)} {k : GoString}
    (hnd : (tags.map Prod.fst).Nodup) (hmem : k ∈ tags.map Prod.fst) :
    (tags.filter (fun kv => decide (kv.1 ≠ k))).length + 1 = tags.length := by
  induction tags with
  | nil => simp at hmem
  | cons kv t ih =>
    rw [List.map_cons, List.nodup_cons] at hnd
    by_cases hk : kv.1 = k
    · have hall : ∀ x ∈ t, decide (x.1 ≠ k) = true := by
        intro x hx
        apply decide_eq_true
        intro e
        exact hnd.1 (List.mem_map.mpr ⟨x, hx, by rw [e, hk]⟩)
      rw [List.filter_cons, if_neg (by simp [hk]), List.filter_eq_self.mpr hall]
      rfl
    · rw [List.map_cons, List.mem_cons] at hmem
      have hm : k ∈ t.map Prod.fst := by
        rcases hmem with e | hm
        · exact absurd e.symm hk
        · exact hm
      rw [List.filter_cons, if_pos (by simp [hk]), List.length_cons, ih hnd.2 hm, List.length_cons]

theorem NormalizeName_unit (U : UnicodeTables) : NormalizeName U (str "unit") = str "unit" := by
  rw [NormalizeName_latin1 U latin1Tables _ (by decide)]
  decide

/-! ## Lemmas: the loop over the snapshot -/

theorem Collect_eq {M : Type} (U : UnicodeTables)
    (NewConstMetric : Desc → Nat → List GoString → Option M) (c : ValueMetricsCollector)
    (snapshot : List ValueMetric) :
    ∀ ch : List M, Collect U NewConstMetric c snapshot ch
      = ch ++ snapshot.filterMap (fun vm =>
          NewConstMetric (valueMetricDesc U c vm) vm.Value (collectLabels U vm).2) := by
  induction snapshot with
  | nil => intro ch; simp [Collect]
  | cons vm rest ih =>
    intro ch
    unfold Collect
    cases h : NewConstMetric (valueMetricDesc U c vm) vm.Value (collectLabels U vm).2 with
    | none => simp only [ih]; rw [List.filterMap_cons, h]
    | some m => simp only [ih]; rw [List.filterMap_cons, h]; simp

theorem BuildFQName_suffix (ns subsystem name : GoString) :
    name <:+ BuildFQName ns subsystem name := by
  unfold BuildFQName
  split_ifs with h1 h2 h3 h4
  · rw [h1]
  · exact ⟨ns ++ 0x5F :: (subsystem ++ [0x5F]), by simp [JoinUnderscore]⟩
  · exact ⟨ns ++ [0x5F], by simp [JoinUnderscore]⟩
  · exact ⟨subsystem ++ [0x5F], by simp [JoinUnderscore]⟩
  · exact List.suffix_refl _

theorem NormalizeNameDecoded_valid (U : UnicodeTables) (name : DecodedString)
    (h : name.valid = true) : NormalizeNameDecoded U name = NormalizeName U name.runes := by
  unfold NormalizeNameDecoded SplitDecoded NormalizeName
  rw [if_pos h]

/-! ## The label lists: the `unit` tag -/

/-- C1 (counterexample): for the entry with payload unit `kb` and tag
`unit` = `mb`, the label-name list built by `Collect` contains `unit` twice, with
the values `kb` and `mb`; the tag is not discarded. -/
theorem collectLabels_unit_twice_counterexample :
    unitPayloadAndTag.Unit ≠ [] ∧ (str "unit", str "mb") ∈ unitPayloadAndTag.Tags ∧
    (collectLabels latin1Tables unitPayloadAndTag).1
      = [str "origin", str "bosh_deployment", str "bosh_job_name", str "bosh_job_id",
         str "bosh_job_ip", str "unit", str "unit"] ∧
    (collectLabels latin1Tables unitPayloadAndTag).2
      = [str "fake.origin", str "fake-deployment-name", str "fake-job-name", str "0",
         str "1.2.3.4", str "kb", str "mb"] ∧
    ¬ (collectLabels latin1Tables unitPayloadAndTag).1.count (str "unit") = 1 := by
  decide

/-- C1 (amended): for every value metric whose payload unit is non-empty and
whose tags contain the key `unit`, the fixed `unit` label (position 5) keeps the
payload unit as its value, and no tag is discarded: every tag, the `unit` tag
included, adds a label after the six fixed ones, so that the label-name list
contains the name `unit` at least twice. -/
theorem collectLabels_unit_tag_with_payload_unit (U : UnicodeTables) (vm : ValueMetric)
    (hunit : vm.Unit ≠ []) (v : GoString) (htag : (str "unit", v) ∈ vm.Tags) :
    (collectLabels U vm).1 = constLabels0 ++ vm.Tags.map (fun kv => NormalizeName U kv.1) ∧
    (collectLabels U vm).2 = labelValues0 vm ++ vm.Tags.map Prod.snd ∧
    (collectLabels U vm).2[5]? = some vm.Unit ∧
    2 ≤ (collectLabels U vm).1.count (str "unit") := by
  have hk : keptTags vm = vm.Tags := by
    unfold keptTags
    exact List.filter_eq_self.mpr (fun kv _ => by rw [absorbed_false_of_unit_ne vm hunit kv]; rfl)
  have hu : unitLabelValue vm = vm.Unit :=
    foldl_absorbed_none (absorbed vm) vm.Tags
      (fun kv _ => absorbed_false_of_unit_ne vm hunit kv) vm.Unit
  have hmem : str "unit" ∈ vm.Tags.map (fun kv => NormalizeName U kv.1) :=
    List.mem_map.mpr ⟨(str "unit", v), htag, NormalizeName_unit U⟩
  rw [collectLabels_eq, hk, hu]
  refine ⟨rfl, rfl, by simp, ?_⟩
  have h1 : constLabels0.count (str "unit") = 1 := by decide
  have h2 := List.one_le_count_iff.mpr hmem
  simp only [List.count_append, h1]
  omega

/-- C1 (witness): the amended statement at the entry with payload unit `kb`
and tag `unit` = `mb`. -/
theorem collectLabels_unit_tag_with_payload_unit_witness :
    unitPayloadAndTag.Unit ≠ [] ∧ (str "unit", str "mb") ∈ unitPayloadAndTag.Tags ∧
    (collectLabels latin1Tables unitPayloadAndTag).2[5]? = some unitPayloadAndTag.Unit ∧
    2 ≤ (collectLabels latin1Tables unitPayloadAndTag).1.count (str "unit") :=
  ⟨by decide, by decide,
   (collectLabels_unit_tag_with_payload_unit latin1Tables unitPayloadAndTag (by decide)
      (str "mb") (by decide)).2.2⟩

/-- C2: for every value metric whose payload unit is empty and whose tags (with
pairwise distinct keys) contain the key `unit` with a non-empty value `v`, the
value of the fixed `unit` label (position 5) is `v`, not the empty string; that
tag adds no label of its own, the labels after the six fixed ones being those of
the tags with another key; and both lists have `6 + (number of tags - 1)`
entries. -/
theorem collectLabels_unit_tag_with_empty_payload_unit (U : UnicodeTables) (vm : ValueMetric)
    (hunit : vm.Unit = []) (hkeys : (vm.Tags.map Prod.fst).Nodup)
    (v : GoString) (htag : (str "unit", v) ∈ vm.Tags) (hv : v ≠ []) :
    (collectLabels U vm).2[5]? = some v ∧
    (collectLabels U vm).2[5]? ≠ some [] ∧
    (collectLabels U vm).1 = constLabels0 ++
      (vm.Tags.filter (fun kv => decide (kv.1 ≠ str "unit"))).map (fun kv => NormalizeName U kv.1) ∧
    (collectLabels U vm).2.drop 6 =
      (vm.Tags.filter (fun kv => decide (kv.1 ≠ str "unit"))).map Prod.snd ∧
    (collectLabels U vm).1.length = 6 + (vm.Tags.length - 1) ∧
    (collectLabels U vm).2.length = 6 + (vm.Tags.length - 1) := by
  have habs : ∀ kv ∈ vm.Tags, absorbed vm kv = decide (kv.1 = str "unit") := by
    intro kv hkv
    unfold absorbed
    by_cases hk : kv.1 = str "unit"
    · have hkv2 : (str "unit", kv.2) ∈ vm.Tags := by rw [← hk]; exact hkv
      have e := value_eq_of_nodup_keys hkeys htag hkv2
      simp [hk, hunit, e, hv]
    · simp [hk]
  have hk : keptTags vm = vm.Tags.filter (fun kv => decide (kv.1 ≠ str "unit")) := by
    unfold keptTags
    apply List.filter_congr
    intro kv hkv
    rw [habs kv hkv]
    by_cases hk : kv.1 = str "unit" <;> simp [hk]
  have hu : unitLabelValue vm = v := by
    unfold unitLabelValue
    apply foldl_absorbed_eq (absorbed vm) v vm.Tags
    · intro kv hkv hp
      rw [habs kv hkv] at hp
      have hk : kv.1 = str "unit" := of_decide_eq_true hp
      have hkv2 : (str "unit", kv.2) ∈ vm.Tags := by rw [← hk]; exact hkv
      exact value_eq_of_nodup_keys hkeys htag hkv2
    · exact Or.inr ⟨(str "unit", v), htag, by rw [habs _ htag]; simp⟩
  have hlen : (vm.Tags.filter (fun kv => decide (kv.1 ≠ str "unit"))).length + 1
      = vm.Tags.length :=
    length_filter_key_ne hkeys (List.mem_map.mpr ⟨(str "unit", v), htag, rfl⟩)
  rw [collectLabels_eq, hk, hu]
  have h6 : constLabels0.length = 6 := rfl
  refine ⟨by simp, ?_, rfl, rfl, ?_, ?_⟩
  · intro h
    exact hv (Option.some.inj (by simpa using h))
  · simp only [List.length_append, List.length_map, h6]; omega
  · simp only [List.length_append, List.length_map, List.length_cons, List.length_nil]; omega

/-- C2 (witness): the entry with an empty payload unit and the tags `tag1`,
`unit` = `ms` and `zone`. -/
theorem collectLabels_unit_tag_with_empty_payload_unit_witness :
    unitTagOnly.Unit = [] ∧ (unitTagOnly.Tags.map Prod.fst).Nodup ∧
    (str "unit", str "ms") ∈ unitTagOnly.Tags ∧ str "ms" ≠ [] ∧
    (collectLabels latin1Tables unitTagOnly).2[5]? = some (str "ms") ∧
    (collectLabels latin1Tables unitTagOnly).1.length = 6 + (unitTagOnly.Tags.length - 1) :=
  have h := collectLabels_unit_tag_with_empty_payload_unit latin1Tables unitTagOnly
    (by decide) (by decide) (str "ms") (by decide) (by decide)
  ⟨by decide, by decide, by decide, by decide, h.1, h.2.2.2.2.1⟩

/-! ## The metric name -/

/-- C3: for every value metric whose origin `IsValidUuid` rejects, the metric
name built by `Collect` is `NormalizeName(origin) ++ "_" ++ NormalizeName(name)`,
qualified by the namespace and the subsystem `value_metric`; for a non-empty
namespace the qualified name is
`<namespace>_value_metric_<NormalizeName(origin)>_<NormalizeName(name)>`. -/
theorem metricName_of_non_uuid_origin (U : UnicodeTables) (c : ValueMetricsCollector)
    (vm : ValueMetric) (h : IsValidUuid vm.Origin = false) :
    metricName U vm = NormalizeName U vm.Origin ++ str "_" ++ NormalizeName U vm.Name ∧
    (valueMetricDesc U c vm).fqName
      = BuildFQName c.namespace_ (str "value_metric")
          (NormalizeName U vm.Origin ++ str "_" ++ NormalizeName U vm.Name) ∧
    (c.namespace_ ≠ [] →
      (valueMetricDesc U c vm).fqName
        = c.namespace_ ++ str "_value_metric_" ++ NormalizeName U vm.Origin ++ str "_"
            ++ NormalizeName U vm.Name) := by
  have hm : metricName U vm
      = NormalizeName U vm.Origin ++ str "_" ++ NormalizeName U vm.Name := by
    unfold metricName
    simp [h]
  refine ⟨hm, ?_, ?_⟩
  · unfold valueMetricDesc
    simp only [hm]
    rfl
  · intro hns
    have h1 : str "_" = [0x5F] := by decide
    have h2 : str "_value_metric_" = 0x5F :: (value_metrics_subsystem ++ [0x5F]) := by decide
    have h3 : value_metrics_subsystem ≠ [] := by decide
    unfold valueMetricDesc
    simp only [hm]
    unfold BuildFQName
    rw [if_neg (by rw [h1]; simp), if_pos ⟨hns, h3⟩, h1, h2]
    simp [JoinUnderscore]

/-- C3 (witness): namespace `test_exporter`, origin `fake.origin`, name
`FakeValueMetric1` give
`test_exporter_value_metric_fake_origin_fake_value_metric_1`. -/
theorem metricName_of_non_uuid_origin_witness :
    IsValidUuid testValueMetric1.Origin = false ∧ testCollector.namespace_ ≠ [] ∧
    (valueMetricDesc latin1Tables testCollector testValueMetric1).fqName
      = str "test_exporter_value_metric_fake_origin_fake_value_metric_1" :=
  ⟨by decide, by decide,
   ((metricName_of_non_uuid_origin latin1Tables testCollector testValueMetric1
      (by decide)).2.2 (by decide)).trans (by decide)⟩

/-- C4: for every value metric whose origin `IsValidUuid` accepts, the metric
name built by `Collect` is `"custom_" ++ NormalizeName(name)`: the name does not
depend on the origin, while the first label is `origin` and its value is the
origin string unchanged. -/
theorem metricName_of_uuid_origin (U : UnicodeTables) (c : ValueMetricsCollector)
    (vm : ValueMetric) (h : IsValidUuid vm.Origin = true) :
    metricName U vm = str "custom_" ++ NormalizeName U vm.Name ∧
    (valueMetricDesc U c vm).fqName
      = BuildFQName c.namespace_ (str "value_metric") (str "custom_" ++ NormalizeName U vm.Name) ∧
    (∀ vm2 : ValueMetric, IsValidUuid vm2.Origin = true → vm2.Name = vm.Name →
      metricName U vm2 = metricName U vm) ∧
    (collectLabels U vm).1.head? = some (str "origin") ∧
    (collectLabels U vm).2.head? = some vm.Origin := by
  have hm : ∀ x : ValueMetric, IsValidUuid x.Origin = true →
      metricName U x = str "custom_" ++ NormalizeName U x.Name := by
    intro x hx
    unfold metricName
    simp [hx]
  refine ⟨hm vm h, ?_, ?_, ?_, ?_⟩
  · unfold valueMetricDesc
    simp only [hm vm h]
    rfl
  · intro vm2 h2 hn
    rw [hm vm h, hm vm2 h2, hn]
  · rw [collectLabels_eq]; rfl
  · rw [collectLabels_eq]; rfl

/-- C4 (witness): the entry of the test with the origin
`6ba7b810-9dad-41d1-80b4-00c04fd430c8` gets the metric name
`custom_fake_value_metric_1` and keeps the origin as the value of its first
label. -/
theorem metricName_of_uuid_origin_witness :
    IsValidUuid uuidOriginMetric.Origin = true ∧
    metricName latin1Tables uuidOriginMetric = str "custom_fake_value_metric_1" ∧
    (collectLabels latin1Tables uuidOriginMetric).2.head?
      = some (str "6ba7b810-9dad-41d1-80b4-00c04fd430c8") :=
  have h := metricName_of_uuid_origin latin1Tables testCollector uuidOriginMetric (by decide)
  ⟨by decide, h.1.trans (by decide), h.2.2.2.2⟩

/-! ## `IsValidUuid` -/

/-- C5 (failing input): `IsValidUuid` accepts
`00000000-0000-4000-|000-000000000000`, whose character at index 19 is a
vertical bar, which is none of `8`, `9`, `a`, `A`, `b`, `B` and no hexadecimal
digit: the string is not a canonical version-4 UUID. -/
theorem IsValidUuid_accepts_vertical_bar :
    IsValidUuid (str "00000000-0000-4000-|000-000000000000") = true ∧
    specCanonicalUuidV4 (str "00000000-0000-4000-|000-000000000000") = false ∧
    (str "00000000-0000-4000-|000-000000000000").getD 19 0 = 0x7C := by
  decide

/-! ## `NormalizeName` -/

/-- C6 (counterexample): whatever the tables above Latin-1, `NormalizeName`
returns the two-rune text U+00DF `a` (a lower-case sharp s, then `a`) unchanged;
U+00DF is no ASCII letter, digit or underscore.  And on the two bytes FF, `A`,
which are not valid UTF-8 and decode to U+FFFD, `A`, the result is U+FFFD, `a`,
although the only letter of that string is ASCII. -/
theorem NormalizeName_non_ascii_counterexample :
    (∀ U : UnicodeTables, NormalizeName U [0xDF, 0x61] = [0xDF, 0x61]) ∧
    isLowerAlnumUnderscore 0xDF = false ∧
    ¬ (∀ (U : UnicodeTables) (name : GoString),
        ∀ r ∈ NormalizeName U name, isLowerAlnumUnderscore r = true) ∧
    NormalizeNameDecoded latin1Tables { valid := false, runes := [0xFFFD, 0x41] }
      = [0xFFFD, 0x61] ∧
    (∀ r ∈ [0xFFFD, 0x41], runeClass latin1Tables r ≠ 4 → r ≤ MaxASCII) ∧
    isLowerAlnumUnderscore 0xFFFD = false := by
  have h : ∀ U : UnicodeTables, NormalizeName U [0xDF, 0x61] = [0xDF, 0x61] := by
    intro U
    rw [NormalizeName_latin1 U latin1Tables _ (by decide)]
    decide
  refine ⟨h, by decide, ?_, by decide, by decide, by decide⟩
  intro hall
  have h1 := hall latin1Tables [0xDF, 0x61] 0xDF (by rw [h]; simp)
  exact absurd h1 (by decide)

/-- C6 (amended): for every input string that is valid UTF-8 and whose letters
and digits (the runes `Split` classes as lower case, upper case or digit) are
all ASCII, in particular for every ASCII string, every character of the result
of `NormalizeName` is a lower-case ASCII letter `a`-`z`, an ASCII digit
`0`-`9`, or an underscore. -/
theorem NormalizeName_lowercase_alnum_underscore (U : UnicodeTables) (name : DecodedString)
    (hvalid : name.valid = true)
    (h : ∀ r ∈ name.runes, runeClass U r ≠ 4 → r ≤ MaxASCII) :
    NormalizeNameDecoded U name = NormalizeName U name.runes ∧
    ∀ r ∈ NormalizeNameDecoded U name, isLowerAlnumUnderscore r = true := by
  have he := NormalizeNameDecoded_valid U name hvalid
  refine ⟨he, ?_⟩
  rw [he]
  exact NormalizeName_runes U name.runes h

/-- C6 (witness): the text `Fake€Origin.1 x`, valid UTF-8, whose only
non-ASCII rune is the euro sign. -/
theorem NormalizeName_lowercase_alnum_underscore_witness :
    (∀ r ∈ str "Fake€Origin.1 x", runeClass latin1Tables r ≠ 4 → r ≤ MaxASCII) ∧
    NormalizeNameDecoded latin1Tables { valid := true, runes := str "Fake€Origin.1 x" }
      = str "fake_origin_1_x" ∧
    ∀ r ∈ NormalizeNameDecoded latin1Tables { valid := true, runes := str "Fake€Origin.1 x" },
      isLowerAlnumUnderscore r = true :=
  ⟨by decide, by decide,
   (NormalizeName_lowercase_alnum_underscore latin1Tables
      { valid := true, runes := str "Fake€Origin.1 x" } rfl (by decide)).2⟩

/-- C7: for a value metric with origin `p.fake.origin` and name
`/p.fake/CounterEvent2`, `NormalizeName` gives `p_fake_origin` and
`p_fake_counter_event_2`, and the metric name built by `Collect` ends with
`p_fake_origin_p_fake_counter_event_2`; likewise `/p.fake/ValueMetric2` gives
`p_fake_value_metric_2`, `fake.origin` gives `fake_origin` and
`FakeCounterEvent1` gives `fake_counter_event_1`. -/
theorem NormalizeName_scenario (U : UnicodeTables) (c : ValueMetricsCollector)
    (vm : ValueMetric) (horigin : vm.Origin = str "p.fake.origin")
    (hname : vm.Name = str "/p.fake/CounterEvent2") :
    NormalizeName U vm.Origin = str "p_fake_origin" ∧
    NormalizeName U vm.Name = str "p_fake_counter_event_2" ∧
    metricName U vm = str "p_fake_origin_p_fake_counter_event_2" ∧
    str "p_fake_origin_p_fake_counter_event_2" <:+ (valueMetricDesc U c vm).fqName ∧
    NormalizeName U (str "/p.fake/ValueMetric2") = str "p_fake_value_metric_2" ∧
    NormalizeName U (str "fake.origin") = str "fake_origin" ∧
    NormalizeName U (str "FakeCounterEvent1") = str "fake_counter_event_1" := by
  have ho : NormalizeName U (str "p.fake.origin") = str "p_fake_origin" := by
    rw [NormalizeName_latin1 U latin1Tables _ (by decide)]; decide
  have hn : NormalizeName U (str "/p.fake/CounterEvent2") = str "p_fake_counter_event_2" := by
    rw [NormalizeName_latin1 U latin1Tables _ (by decide)]; decide
  have hm : metricName U vm = str "p_fake_origin_p_fake_counter_event_2" := by
    unfold metricName
    rw [horigin, hname, ho, hn, if_neg (by decide)]
    decide
  refine ⟨by rw [horigin, ho], by rw [hname, hn], hm, ?_, ?_, ?_, ?_⟩
  · unfold valueMetricDesc
    simp only [hm]
    exact BuildFQName_suffix _ _ _
  · rw [NormalizeName_latin1 U latin1Tables _ (by decide)]; decide
  · rw [NormalizeName_latin1 U latin1Tables _ (by decide)]; decide
  · rw [NormalizeName_latin1 U latin1Tables _ (by decide)]; decide

/-- C7 (witness): the entry of the scenario under the collector of the test;
its qualified name is
`test_exporter_value_metric_p_fake_origin_p_fake_counter_event_2`. -/
theorem NormalizeName_scenario_witness :
    scenarioMetric.Origin = str "p.fake.origin" ∧
    scenarioMetric.Name = str "/p.fake/CounterEvent2" ∧
    (valueMetricDesc latin1Tables testCollector scenarioMetric).fqName
      = str "test_exporter_value_metric_p_fake_origin_p_fake_counter_event_2" ∧
    str "p_fake_origin_p_fake_counter_event_2"
      <:+ (valueMetricDesc latin1Tables testCollector scenarioMetric).fqName :=
  ⟨by decide, by decide, by decide,
   (NormalizeName_scenario latin1Tables testCollector scenarioMetric
      (by decide) (by decide)).2.2.2.1⟩

/-! ## The label lists: fixed labels and tags -/

/-- C8: for every value metric, the label-name list built by `Collect` starts
with `origin`, `bosh_deployment`, `bosh_job_name`, `bosh_job_id`, `bosh_job_ip`,
`unit` in that order, and the first five label values are the origin, the
deployment, the job, the index and the IP of the entry; when no tag has the key
`unit`, the sixth value is the payload unit. -/
theorem collectLabels_fixed_labels (U : UnicodeTables) (vm : ValueMetric) :
    (collectLabels U vm).1.take 6
      = [str "origin", str "bosh_deployment", str "bosh_job_name", str "bosh_job_id",
         str "bosh_job_ip", str "unit"] ∧
    (collectLabels U vm).2.take 5 = [vm.Origin, vm.Deployment, vm.Job, vm.Index, vm.IP] ∧
    ((∀ kv ∈ vm.Tags, kv.1 ≠ str "unit") → (collectLabels U vm).2[5]? = some vm.Unit) := by
  rw [collectLabels_eq]
  refine ⟨?_, by simp, ?_⟩
  · exact List.take_left' rfl
  · intro hno
    have hu : unitLabelValue vm = vm.Unit :=
      foldl_absorbed_none (absorbed vm) vm.Tags
        (fun kv hkv => by
          unfold absorbed
          exact decide_eq_false (fun hc => hno kv hkv hc.1)) vm.Unit
    rw [hu]
    simp

/-- C8 (witness): the first entry of the test, whose only tag is `tag1`, has
the six fixed labels with the values of its fields, the unit `kb` among them. -/
theorem collectLabels_fixed_labels_witness :
    (∀ kv ∈ testValueMetric1.Tags, kv.1 ≠ str "unit") ∧
    (collectLabels latin1Tables testValueMetric1).2.take 5
      = [str "fake.origin", str "fake-deployment-name", str "fake-job-name", str "0",
         str "1.2.3.4"] ∧
    (collectLabels latin1Tables testValueMetric1).2[5]? = some (str "kb") :=
  have h := collectLabels_fixed_labels latin1Tables testValueMetric1
  ⟨by decide, h.2.1, h.2.2 (by decide)⟩

/-- C9: for every value metric, the labels after the six fixed ones are exactly
one per tag that is not absorbed into the unit label, in the order of the loop:
the name is `NormalizeName` of the tag key and the value, at the same position
of the value list, is the tag value unchanged; the two lists have equal length.
The tag `tag1` gives the label `tag_1` and the tag `tag-2` the label `tag_2`. -/
theorem collectLabels_tag_labels (U : UnicodeTables) (vm : ValueMetric) :
    (collectLabels U vm).1.drop 6
      = (vm.Tags.filter (fun kv => !absorbed vm kv)).map (fun kv => NormalizeName U kv.1) ∧
    (collectLabels U vm).2.drop 6
      = (vm.Tags.filter (fun kv => !absorbed vm kv)).map Prod.snd ∧
    ((collectLabels U vm).1.drop 6).zip ((collectLabels U vm).2.drop 6)
      = (vm.Tags.filter (fun kv => !absorbed vm kv)).map
          (fun kv => (NormalizeName U kv.1, kv.2)) ∧
    (collectLabels U vm).1.length = (collectLabels U vm).2.length ∧
    NormalizeName U (str "tag1") = str "tag_1" ∧
    NormalizeName U (str "tag-2") = str "tag_2" ∧
    (collectLabels U testValueMetric1).1.zip (collectLabels U testValueMetric1).2
      = [(str "origin", str "fake.origin"), (str "bosh_deployment", str "fake-deployment-name"),
         (str "bosh_job_name", str "fake-job-name"), (str "bosh_job_id", str "0"),
         (str "bosh_job_ip", str "1.2.3.4"), (str "unit", str "kb"),
         (str "tag_1", str "fakeTag1")] := by
  have h1 : NormalizeName U (str "tag1") = str "tag_1" := by
    rw [NormalizeName_latin1 U latin1Tables _ (by decide)]; decide
  have h2 : NormalizeName U (str "tag-2") = str "tag_2" := by
    rw [NormalizeName_latin1 U latin1Tables _ (by decide)]; decide
  have hd1 : (collectLabels U vm).1.drop 6
      = (keptTags vm).map (fun kv => NormalizeName U kv.1) := by
    rw [collectLabels_eq]; exact List.drop_left' rfl
  have hd2 : (collectLabels U vm).2.drop 6 = (keptTags vm).map Prod.snd := by
    rw [collectLabels_eq]; exact List.drop_left' rfl
  refine ⟨hd1, hd2, ?_, ?_, h1, h2, ?_⟩
  · rw [hd1, hd2, List.zip_map']
    rfl
  · rw [collectLabels_eq]
    simp [constLabels0]
  · have hk : keptTags testValueMetric1 = [(str "tag1", str "fakeTag1")] := by decide
    have hu : unitLabelValue testValueMetric1 = str "kb" := by decide
    rw [collectLabels_eq, hk, hu]
    simp only [List.map_cons, List.map_nil, h1]
    rfl

/-! ## The loop over the snapshot -/

/-- C10: for every snapshot, `Collect` sends exactly the metrics of the entries
whose construction succeeds, one each and in snapshot order; an entry whose
construction fails is skipped and leaves the metrics of the entries before and
after it as they are; for an empty snapshot nothing is sent. -/
theorem Collect_emits_successful_entries {M : Type} (U : UnicodeTables)
    (NewConstMetric : Desc → Nat → List GoString → Option M) (c : ValueMetricsCollector) :
    (∀ snapshot : List ValueMetric,
      Collect U NewConstMetric c snapshot []
        = snapshot.filterMap (fun vm =>
            NewConstMetric (valueMetricDesc U c vm) vm.Value (collectLabels U vm).2)) ∧
    (∀ (before after : List ValueMetric) (vm : ValueMetric),
      NewConstMetric (valueMetricDesc U c vm) vm.Value (collectLabels U vm).2 = none →
      Collect U NewConstMetric c (before ++ vm :: after) []
        = Collect U NewConstMetric c before [] ++ Collect U NewConstMetric c after []) ∧
    (∀ (before after : List ValueMetric) (vm : ValueMetric) (m : M),
      NewConstMetric (valueMetricDesc U c vm) vm.Value (collectLabels U vm).2 = some m →
      Collect U NewConstMetric c (before ++ vm :: after) []
        = Collect U NewConstMetric c before [] ++ m :: Collect U NewConstMetric c after []) ∧
    Collect U NewConstMetric c [] [] = [] := by
  refine ⟨fun snapshot => by rw [Collect_eq]; rfl, ?_, ?_, rfl⟩
  · intro before after vm h
    simp only [Collect_eq, List.nil_append, List.filterMap_append, List.filterMap_cons, h]
  · intro before after vm m h
    simp only [Collect_eq, List.nil_append, List.filterMap_append, List.filterMap_cons, h]

/-- C10 (witness): with a constructor that fails on duplicate label names, the
snapshot of the first test entry, the entry with payload unit and tag `unit`,
and the second test entry sends the metrics of the first and of the third
entry, in that order. -/
theorem Collect_emits_successful_entries_witness :
    rejectDuplicateLabels (valueMetricDesc latin1Tables testCollector unitPayloadAndTag)
      unitPayloadAndTag.Value (collectLabels latin1Tables unitPayloadAndTag).2 = none ∧
    Collect latin1Tables rejectDuplicateLabels testCollector
        ([testValueMetric1] ++ unitPayloadAndTag :: [testValueMetric2]) []
      = Collect latin1Tables rejectDuplicateLabels testCollector [testValueMetric1] []
        ++ Collect latin1Tables rejectDuplicateLabels testCollector [testValueMetric2] [] ∧
    (Collect latin1Tables rejectDuplicateLabels testCollector
        ([testValueMetric1] ++ unitPayloadAndTag :: [testValueMetric2]) []).map
        (fun m => m.1.fqName)
      = [str "test_exporter_value_metric_fake_origin_fake_value_metric_1",
         str "test_exporter_value_metric_p_fake_origin_p_fake_value_metric_2"] :=
  ⟨by decide,
   (Collect_emits_successful_entries latin1Tables rejectDuplicateLabels testCollector).2.1
      [testValueMetric1] [testValueMetric2] unitPayloadAndTag (by decide),
   by decide⟩

/-! ## `NormalizeNameDesc` and `NormalizeOriginDesc` -/

/-- C11: `NormalizeNameDesc(s)` is `"/p-"` followed by `s` without its first
three characters when `s` begins with `"/p."`, and `s` itself otherwise; the
result has the length of `s` and agrees with `s` at every index other than 2, so
later dots stay; `/p.fake/ValueMetric2` becomes `/p-fake/ValueMetric2` and
`FakeValueMetric1` is unchanged. -/
theorem NormalizeNameDesc_spec (s : GoString) :
    (str "/p." <+: s → NormalizeNameDesc s = str "/p-" ++ s.drop 3) ∧
    (¬ str "/p." <+: s → NormalizeNameDesc s = s) ∧
    (NormalizeNameDesc s).length = s.length ∧
    (∀ i : Nat, i ≠ 2 → (NormalizeNameDesc s)[i]? = s[i]?) ∧
    NormalizeNameDesc (str "/p.fake/ValueMetric2") = str "/p-fake/ValueMetric2" ∧
    NormalizeNameDesc (str "FakeValueMetric1") = str "FakeValueMetric1" := by
  have hp : HasPrefix s (str "/p.") = true ↔ str "/p." <+: s := by
    unfold HasPrefix
    exact List.isPrefixOf_iff_prefix
  have h3 : str "/p." = [0x2F, 0x70, 0x2E] := by decide
  have h4 : str "/p-" = [0x2F, 0x70, 0x2D] := by decide
  have hyes : str "/p." <+: s → NormalizeNameDesc s = str "/p-" ++ s.drop 3 := by
    intro h
    unfold NormalizeNameDesc
    rw [if_pos (hp.mpr h)]
  have hno : ¬ str "/p." <+: s → NormalizeNameDesc s = s := by
    intro h
    unfold NormalizeNameDesc
    rw [if_neg (fun hc => h (hp.mp hc))]
  refine ⟨hyes, hno, ?_, ?_, by decide, by decide⟩
  · by_cases h : str "/p." <+: s
    · rw [hyes h]
      obtain ⟨t, ht⟩ := h
      rw [← ht, h3, h4]
      simp
    · rw [hno h]
  · intro i hi
    by_cases h : str "/p." <+: s
    · rw [hyes h]
      obtain ⟨t, ht⟩ := h
      rw [← ht, h3, h4]
      match i with
      | 0 => rfl
      | 1 => rfl
      | 2 => exact absurd rfl hi
      | n + 3 => simp
    · rw [hno h]

/-- C12: `NormalizeOriginDesc(s)` has the length of `s`, has `-` at every
position where `s` has `.` and the character of `s` everywhere else, and
contains no `.`; `p.fake.origin` becomes `p-fake-origin`. -/
theorem NormalizeOriginDesc_spec (s : GoString) :
    (NormalizeOriginDesc s).length = s.length ∧
    (∀ i : Nat, s[i]? = some 0x2E → (NormalizeOriginDesc s)[i]? = some 0x2D) ∧
    (∀ (i : Nat) (r : Nat), s[i]? = some r → r ≠ 0x2E → (NormalizeOriginDesc s)[i]? = some r) ∧
    0x2E ∉ NormalizeOriginDesc s ∧
    NormalizeOriginDesc (str "p.fake.origin") = str "p-fake-origin" ∧
    NormalizeOriginDesc (str "fake.origin") = str "fake-origin" := by
  unfold NormalizeOriginDesc
  refine ⟨by simp, ?_, ?_, ?_, by decide, by decide⟩
  · intro i h
    simp [List.getElem?_map, h]
  · intro i r h hr
    simp [List.getElem?_map, h, hr]
  · intro hmem
    obtain ⟨x, _, hx⟩ := List.mem_map.mp hmem
    by_cases h : x = 0x2E
    · simp [h] at hx
    · simp [h] at hx

/-! ## `IsValidUuid`: the accepted strings -/

theorem matchClasses_iff (ps : List (Nat → Bool)) :
    ∀ s : GoString, matchClasses ps s = true ↔
      s.length = ps.length ∧
        ∀ i < ps.length, (ps.getD i (fun _ => false)) (s.getD i 0) = true := by
  induction ps with
  | nil =>
    intro s
    cases s with
    | nil => simp [matchClasses]
    | cons a t => simp [matchClasses]
  | cons p ps ih =>
    intro s
    cases s with
    | nil => simp [matchClasses]
    | cons a t =>
      simp only [matchClasses, Bool.and_eq_true, ih t, List.length_cons]
      constructor
      · rintro ⟨hp, hlen, hall⟩
        refine ⟨by rw [hlen], fun i hi => ?_⟩
        cases i with
        | zero => simpa using hp
        | succ n => simpa using hall n (by omega)
      · rintro ⟨hlen, hall⟩
        refine ⟨by simpa using hall 0 (by omega), by omega, fun i hi => ?_⟩
        simpa using hall (i + 1) (by omega)

theorem uuidRegex_getD (i : Nat) (hi : i < 36) :
    uuidRegex.getD i (fun _ => false) = uuidClassAt i := by
  interval_cases i <;> rfl

theorem IsValidUuid_iff (s : GoString) :
    IsValidUuid s = true ↔ s.length = 36 ∧ ∀ i < 36, uuidClassAt i (s.getD i 0) = true := by
  unfold IsValidUuid
  rw [matchClasses_iff]
  have hlen : uuidRegex.length = 36 := by decide
  rw [hlen]
  constructor
  · rintro ⟨h1, h2⟩
    exact ⟨h1, fun i hi => by rw [← uuidRegex_getD i hi]; exact h2 i hi⟩
  · rintro ⟨h1, h2⟩
    exact ⟨h1, fun i hi => by rw [uuidRegex_getD i hi]; exact h2 i hi⟩

/-- C19: every 36-character string with `-` at indexes 8, 13, 18 and 23, `4`
at index 14, one of `8`, `9`, `a`, `A`, `b`, `B` at index 19 and a hexadecimal
digit of either case at every other position is accepted by `IsValidUuid`. -/
theorem IsValidUuid_accepts_canonical (s : GoString) (hlen : s.length = 36)
    (hdash : s.getD 8 0 = 0x2D ∧ s.getD 13 0 = 0x2D ∧ s.getD 18 0 = 0x2D ∧ s.getD 23 0 = 0x2D)
    (hversion : s.getD 14 0 = 0x34)
    (hvariant : s.getD 19 0 ∈ [0x38, 0x39, 0x61, 0x41, 0x62, 0x42])
    (hhex : ∀ i < 36, ¬ (i = 8 ∨ i = 13 ∨ i = 18 ∨ i = 23) → i ≠ 14 → i ≠ 19 →
      (inRange 0x30 0x39 (s.getD i 0) || inRange 0x61 0x66 (s.getD i 0)
        || inRange 0x41 0x46 (s.getD i 0)) = true) :
    IsValidUuid s = true := by
  rw [IsValidUuid_iff]
  refine ⟨hlen, fun i hi => ?_⟩
  unfold uuidClassAt
  by_cases h1 : i = 8 ∨ i = 13 ∨ i = 18 ∨ i = 23
  · rw [if_pos h1]
    show (s.getD i 0 == 0x2D) = true
    rcases h1 with h | h | h | h <;> rw [h]
    · rw [hdash.1]; rfl
    · rw [hdash.2.1]; rfl
    · rw [hdash.2.2.1]; rfl
    · rw [hdash.2.2.2]; rfl
  · rw [if_neg h1]
    by_cases h2 : i = 14
    · rw [if_pos h2, h2]
      show (s.getD 14 0 == 0x34) = true
      rw [hversion]; rfl
    · rw [if_neg h2]
      by_cases h3 : i = 19
      · rw [if_pos h3, h3]
        unfold variantClass
        simp only [List.mem_cons, List.mem_singleton, List.not_mem_nil, or_false] at hvariant
        rcases hvariant with h | h | h | h | h | h <;> rw [h] <;> decide
      · rw [if_neg h3]
        have := hhex i hi h1 h2 h3
        unfold hexClass
        simp only [Bool.or_eq_true] at this ⊢
        tauto

/-- C19 (witness): a version-4 UUID written in both cases is accepted. -/
theorem IsValidUuid_accepts_canonical_witness :
    uuidMixedCase = str "6BA7b810-9DAD-41d1-B0b4-00C04FD430c8" ∧
    IsValidUuid uuidMixedCase = true :=
  ⟨rfl, IsValidUuid_accepts_canonical uuidMixedCase (by decide) (by decide) (by decide)
    (by decide) (by decide)⟩

/-- C20: every string `IsValidUuid` accepts has exactly 36 characters, `-` at
indexes 8, 13, 18 and 23 and `4` at index 14; so an accepted string with extra
characters before or after it (a trailing newline for one) is rejected, and so
is a UUID of another version. -/
theorem IsValidUuid_shape (s : GoString) (h : IsValidUuid s = true) :
    s.length = 36 ∧
    s.getD 8 0 = 0x2D ∧ s.getD 13 0 = 0x2D ∧ s.getD 18 0 = 0x2D ∧ s.getD 23 0 = 0x2D ∧
    s.getD 14 0 = 0x34 ∧
    (∀ t : GoString, t ≠ [] → IsValidUuid (s ++ t) = false ∧ IsValidUuid (t ++ s) = false) ∧
    IsValidUuid (s ++ str "\n") = false ∧
    IsValidUuid uuidVersion1 = false := by
  have hs := (IsValidUuid_iff s).mp h
  have hextra : ∀ u : GoString, u.length ≠ 36 → IsValidUuid u = false := by
    intro u hu
    rw [Bool.eq_false_iff]
    intro hc
    exact hu ((IsValidUuid_iff u).mp hc).1
  have hpos : ∀ t : GoString, t ≠ [] → 0 < t.length := fun t ht => List.length_pos.mpr ht
  refine ⟨hs.1, ?_, ?_, ?_, ?_, ?_, ?_, ?_, by decide⟩
  · simpa [uuidClassAt] using hs.2 8 (by decide)
  · simpa [uuidClassAt] using hs.2 13 (by decide)
  · simpa [uuidClassAt] using hs.2 18 (by decide)
  · simpa [uuidClassAt] using hs.2 23 (by decide)
  · simpa [uuidClassAt] using hs.2 14 (by decide)
  · intro t ht
    have := hpos t ht
    exact ⟨hextra _ (by rw [List.length_append]; omega),
      hextra _ (by rw [List.length_append]; omega)⟩
  · exact hextra _ (by rw [List.length_append, hs.1]; decide)

/-- C20 (witness): the version-4 UUID `6ba7b810-9dad-41d1-80b4-00c04fd430c8` is
accepted and has the shape; with a newline after it, it is rejected. -/
theorem IsValidUuid_shape_witness :
    IsValidUuid (str "6ba7b810-9dad-41d1-80b4-00c04fd430c8") = true ∧
    (str "6ba7b810-9dad-41d1-80b4-00c04fd430c8").length = 36 ∧
    IsValidUuid (str "6ba7b810-9dad-41d1-80b4-00c04fd430c8" ++ str "\n") = false :=
  have h := IsValidUuid_shape (str "6ba7b810-9dad-41d1-80b4-00c04fd430c8") (by decide)
  ⟨by decide, h.1, h.2.2.2.2.2.2.2.1⟩

/-! ## Lemmas: the joined tokens -/

theorem NormalizeName_eq_tokens (U : UnicodeTables) (name : GoString) :
    NormalizeName U name = JoinUnderscore (normalizedTokens U name) :=
  NormalizeName_eq U name

theorem JoinUnderscore_cons_cons (w w2 : GoString) (ws : List GoString) :
    JoinUnderscore (w :: w2 :: ws) = w ++ 0x5F :: JoinUnderscore (w2 :: ws) := rfl

theorem head?_JoinUnderscore (w : GoString) (ws : List GoString) (h : w ≠ []) :
    (JoinUnderscore (w :: ws)).head? = w.head? := by
  cases ws with
  | nil => rfl
  | cons w2 t => rw [JoinUnderscore_cons_cons, List.head?_append_of_ne_nil _ h]

theorem JoinUnderscore_ne_nil (w : GoString) (ws : List GoString) (h : w ≠ []) :
    JoinUnderscore (w :: ws) ≠ [] := by
  intro e
  have h1 := head?_JoinUnderscore w ws h
  rw [e] at h1
  cases w with
  | nil => exact h rfl
  | cons a t => simp at h1

theorem mem_head?_JoinUnderscore (ts : List GoString) (hne : ∀ t ∈ ts, t ≠ []) :
    ∀ x ∈ (JoinUnderscore ts).head?, ∃ t ∈ ts, x ∈ t := by
  intro x hx
  cases ts with
  | nil => simp [JoinUnderscore] at hx
  | cons w ws =>
    rw [head?_JoinUnderscore w ws (hne w (List.mem_cons_self _ _))] at hx
    exact ⟨w, List.mem_cons_self _ _, List.mem_of_mem_head? hx⟩

theorem mem_getLast?_JoinUnderscore (ts : List GoString) (hne : ∀ t ∈ ts, t ≠ []) :
    ∀ x ∈ (JoinUnderscore ts).getLast?, ∃ t ∈ ts, x ∈ t := by
  induction ts with
  | nil => intro x hx; simp [JoinUnderscore] at hx
  | cons w ws ih =>
    intro x hx
    cases ws with
    | nil => exact ⟨w, List.mem_cons_self _ _, List.mem_of_mem_getLast? hx⟩
    | cons w2 t =>
      have hne2 : ∀ u ∈ w2 :: t, u ≠ [] := fun u hu => hne u (List.mem_cons_of_mem _ hu)
      have hj := JoinUnderscore_ne_nil w2 t (hne2 w2 (List.mem_cons_self _ _))
      rw [JoinUnderscore_cons_cons, List.getLast?_append_cons] at hx
      obtain ⟨a, l, hal⟩ := List.exists_cons_of_ne_nil hj
      rw [hal, List.getLast?_cons_cons, ← hal] at hx
      obtain ⟨u, hu, hxu⟩ := ih hne2 x hx
      exact ⟨u, List.mem_cons_of_mem _ hu, hxu⟩

theorem JoinUnderscore_chain' (R : Nat → Nat → Prop) (ts : List GoString)
    (hne : ∀ t ∈ ts, t ≠ []) (hc : ∀ t ∈ ts, List.Chain' R t)
    (hu : ∀ t ∈ ts, ∀ x ∈ t, R x 0x5F ∧ R 0x5F x) : List.Chain' R (JoinUnderscore ts) := by
  induction ts with
  | nil => exact List.chain'_nil
  | cons w ws ih =>
    cases ws with
    | nil => exact hc w (List.mem_cons_self _ _)
    | cons w2 t =>
      have hne2 : ∀ u ∈ w2 :: t, u ≠ [] := fun u hu => hne u (List.mem_cons_of_mem _ hu)
      have ih2 := ih hne2 (fun u hu => hc u (List.mem_cons_of_mem _ hu))
        (fun u hmem => hu u (List.mem_cons_of_mem _ hmem))
      rw [JoinUnderscore_cons_cons]
      refine List.Chain'.append (hc w (List.mem_cons_self _ _)) ?_ ?_
      · rw [List.chain'_cons']
        refine ⟨fun y hy => ?_, ih2⟩
        rw [head?_JoinUnderscore w2 t (hne2 w2 (List.mem_cons_self _ _))] at hy
        exact (hu w2 (List.mem_cons_of_mem _ (List.mem_cons_self _ _)) y
          (List.mem_of_mem_head? hy)).2
      · intro x hx y hy
        have hy2 : y = 0x5F := by simpa using hy.symm
        rw [hy2]
        exact (hu w (List.mem_cons_self _ _) x (List.mem_of_mem_getLast? hx)).1

theorem chain'_of_forall_mem (R : Nat → Nat → Prop) (t : GoString)
    (h : ∀ a ∈ t, ∀ b ∈ t, R a b) : List.Chain' R t := by
  induction t with
  | nil => exact List.chain'_nil
  | cons a l ih =>
    rw [List.chain'_cons']
    refine ⟨fun y hy => h a (List.mem_cons_self _ _) y
      (List.mem_cons_of_mem _ (List.mem_of_mem_head? hy)), ?_⟩
    exact ih (fun x hx y hy => h x (List.mem_cons_of_mem _ hx) y (List.mem_cons_of_mem _ hy))

theorem mem_normalizedTokens {U : UnicodeTables} {name t : GoString}
    (h : t ∈ normalizedTokens U name) : t ≠ [] ∧ ∃ w ∈ Split U name, lowerWord U w = t := by
  unfold normalizedTokens at h
  obtain ⟨h1, h2⟩ := List.mem_filter.mp h
  exact ⟨of_decide_eq_true h2, List.mem_map.mp h1⟩

/-! ## Lemmas: ASCII letters and digits in the words -/

theorem runeClass_ascii (U : UnicodeTables) {r : Nat} (h : r ≤ MaxASCII) :
    (runeClass U r = 1 → inRange 0x61 0x7A r = true) ∧
    (runeClass U r = 2 → inRange 0x41 0x5A r = true) ∧
    (runeClass U r = 3 → inRange 0x30 0x39 r = true) := by
  have h255 : r ≤ MaxLatin1 := Nat.le_trans h (by decide)
  unfold runeClass IsLower IsUpper IsDigit
  rw [Nat.ble_eq_true_of_le h255]
  simp only [MaxASCII, inRange, Bool.and_eq_true, Bool.or_eq_true, Nat.ble_eq,
    beq_iff_eq, if_true] at *
  refine ⟨?_, ?_, ?_⟩ <;> intro hc <;> split_ifs at hc <;> omega

theorem ToLower_of_letter (U : UnicodeTables) {r : Nat} (h : isLetterASCII r = true) :
    inRange 0x61 0x7A (ToLower U r) = true := by
  simp only [isLetterASCII, ToLower, MaxASCII, MaxLatin1, inRange, Bool.and_eq_true,
    Bool.or_eq_true, Nat.ble_eq] at *
  split_ifs <;> omega

theorem ToLower_of_digit (U : UnicodeTables) {r : Nat} (h : isDigitASCII r = true) :
    ToLower U r = r := by
  simp only [isDigitASCII, ToLower, MaxASCII, MaxLatin1, inRange, Bool.and_eq_true,
    Bool.or_eq_true, Nat.ble_eq] at *
  split_ifs <;> omega

theorem isAlnumASCII_of_letter {r : Nat} (h : isLetterASCII r = true) :
    isAlnumASCII r = true := by
  simp only [isLetterASCII, isAlnumASCII, inRange, Bool.and_eq_true, Bool.or_eq_true,
    Nat.ble_eq] at *
  omega

theorem isAlnumASCII_of_digit {r : Nat} (h : isDigitASCII r = true) :
    isAlnumASCII r = true := by
  simp only [isDigitASCII, isAlnumASCII, inRange, Bool.and_eq_true, Bool.or_eq_true,
    Nat.ble_eq] at *
  omega

theorem Split_word_kinds (U : UnicodeTables) (src : GoString) (h : IsASCII src) :
    ∀ w ∈ Split U src,
      (∀ r ∈ w, isLetterASCII r = true) ∨ (∀ r ∈ w, isDigitASCII r = true) ∨
      (∀ r ∈ w, isAlnumASCII r = false) := by
  intro w hw
  have hr := Split_allRunes U (fun r => r ≤ MaxASCII) src h w hw
  have hletter : ∀ r ∈ w, runeClass U r = 1 ∨ runeClass U r = 2 → isLetterASCII r = true := by
    intro r hrw hc
    unfold isLetterASCII
    rcases hc with e | e
    · rw [(runeClass_ascii U (hr r hrw)).1 e]; simp
    · rw [(runeClass_ascii U (hr r hrw)).2.1 e]; simp
  rcases Split_wordShape U src w hw with hl | ⟨c, hc⟩
  · exact Or.inl (fun r hrw => hletter r hrw (hl r hrw))
  · by_cases h12 : c = 1 ∨ c = 2
    · exact Or.inl (fun r hrw => hletter r hrw (by rw [hc r hrw]; exact h12))
    · by_cases h3 : c = 3
      · right; left
        intro r hrw
        exact (runeClass_ascii U (hr r hrw)).2.2 (by rw [hc r hrw]; exact h3)
      · right; right
        intro r hrw
        apply not_isAlnumASCII_of_class U
        have hc4 : runeClass U r = 1 ∨ runeClass U r = 2 ∨ runeClass U r = 3 ∨
            runeClass U r = 4 := by
          unfold runeClass
          split_ifs <;> simp
        rw [hc r hrw] at hc4 ⊢
        omega

theorem normalizedTokens_kinds (U : UnicodeTables) (name : GoString) (h : IsASCII name) :
    ∀ t ∈ normalizedTokens U name,
      t ≠ [] ∧ ((∀ r ∈ t, inRange 0x61 0x7A r = true) ∨ (∀ r ∈ t, isDigitASCII r = true)) := by
  intro t ht
  obtain ⟨hne, w, hw, hlw⟩ := mem_normalizedTokens ht
  refine ⟨hne, ?_⟩
  rcases Split_word_kinds U name h w hw with hl | hd | hn
  · left
    intro r hr
    rw [← hlw, lowerWord_of_alnum U w (fun x hx => isAlnumASCII_of_letter (hl x hx))] at hr
    obtain ⟨x, hx, hxr⟩ := List.mem_map.mp hr
    exact hxr ▸ ToLower_of_letter U (hl x hx)
  · right
    intro r hr
    rw [← hlw, lowerWord_of_alnum U w (fun x hx => isAlnumASCII_of_digit (hd x hx))] at hr
    obtain ⟨x, hx, hxr⟩ := List.mem_map.mp hr
    rw [← hxr, ToLower_of_digit U (hd x hx)]
    exact hd x hx
  · rw [lowerWord_of_not_alnum U w hn] at hlw
    exact absurd hlw.symm hne

theorem NormalizeName_apart (U : UnicodeTables) (name : GoString) (h : IsASCII name) :
    List.Chain' LetterDigitApart (NormalizeName U name) := by
  rw [NormalizeName_eq_tokens]
  have hk := normalizedTokens_kinds U name h
  have hund : ∀ x : Nat, LetterDigitApart x 0x5F ∧ LetterDigitApart 0x5F x := by
    intro x
    have h1 : isLetterASCII 0x5F = false := by decide
    have h2 : isDigitASCII 0x5F = false := by decide
    unfold LetterDigitApart
    simp [h1, h2]
  have hdisj : ∀ x : Nat, ¬ (inRange 0x61 0x7A x = true ∧ isDigitASCII x = true) := by
    intro x
    simp only [isDigitASCII, inRange, Bool.and_eq_true, Nat.ble_eq]
    omega
  have hdisj2 : ∀ x : Nat, ¬ (isLetterASCII x = true ∧ isDigitASCII x = true) := by
    intro x
    simp only [isLetterASCII, isDigitASCII, inRange, Bool.and_eq_true, Bool.or_eq_true,
      Nat.ble_eq]
    omega
  have hlow : ∀ x : Nat, inRange 0x61 0x7A x = true → isLetterASCII x = true := by
    intro x hx
    unfold isLetterASCII
    rw [hx]; simp
  apply JoinUnderscore_chain' LetterDigitApart _ (fun t ht => (hk t ht).1)
  · intro t ht
    apply chain'_of_forall_mem
    intro a ha b hb
    rcases (hk t ht).2 with hl | hd
    · exact ⟨fun hc => hdisj2 b ⟨hlow b (hl b hb), hc.2⟩,
        fun hc => hdisj2 a ⟨hlow a (hl a ha), hc.1⟩⟩
    · exact ⟨fun hc => hdisj2 a ⟨hc.1, hd a ha⟩, fun hc => hdisj2 b ⟨hc.2, hd b hb⟩⟩
  · intro t _ x _
    exact hund x

/-! ## `NormalizeName`: letters, digits and underscores -/

/-- C13: for every ASCII input string, the result of `NormalizeName` is the
join by underscores of non-empty tokens each consisting only of letters or only
of digits, and in the result a letter is never next to a digit; `tag1` becomes
`tag_1` and `FakeValueMetric1` becomes `fake_value_metric_1`. -/
theorem NormalizeName_letter_digit_boundary (U : UnicodeTables) (name : GoString)
    (h : IsASCII name) :
    NormalizeName U name = JoinUnderscore (normalizedTokens U name) ∧
    (∀ t ∈ normalizedTokens U name,
      t ≠ [] ∧ ((∀ r ∈ t, isLetterASCII r = true) ∨ (∀ r ∈ t, isDigitASCII r = true))) ∧
    List.Chain' LetterDigitApart (NormalizeName U name) ∧
    NormalizeName U (str "tag1") = str "tag_1" ∧
    NormalizeName U (str "FakeValueMetric1") = str "fake_value_metric_1" := by
  refine ⟨NormalizeName_eq_tokens U name, ?_, NormalizeName_apart U name h, ?_, ?_⟩
  · intro t ht
    obtain ⟨hne, hk⟩ := normalizedTokens_kinds U name h t ht
    refine ⟨hne, ?_⟩
    rcases hk with hl | hd
    · left
      intro r hr
      unfold isLetterASCII
      rw [hl r hr]; simp
    · exact Or.inr hd
  · rw [NormalizeName_latin1 U latin1Tables _ (by decide)]; decide
  · rw [NormalizeName_latin1 U latin1Tables _ (by decide)]; decide

/-- C13 (witness): `GL11Version2x` becomes `gl_11_version_2_x`, in which no
letter is next to a digit. -/
theorem NormalizeName_letter_digit_boundary_witness :
    IsASCII (str "GL11Version2x") ∧
    NormalizeName latin1Tables (str "GL11Version2x") = str "gl_11_version_2_x" ∧
    List.Chain' LetterDigitApart (NormalizeName latin1Tables (str "GL11Version2x")) :=
  ⟨by decide, by decide,
   (NormalizeName_letter_digit_boundary latin1Tables (str "GL11Version2x") (by decide)).2.2.1⟩

/-! ## Lemmas: underscores in the tokens -/

theorem runeClass_underscore (U : UnicodeTables) : runeClass U 0x5F = 4 := by
  simp [runeClass, IsLower, IsUpper, IsDigit, MaxLatin1, inRange]

theorem ToLower_ne_underscore (U : UnicodeTables)
    (hU : ∀ r, MaxLatin1 < r → U.toLower r ≠ 0x5F) {r : Nat} (h : r ≠ 0x5F) :
    ToLower U r ≠ 0x5F := by
  by_cases h255 : r ≤ MaxLatin1
  · unfold ToLower
    rw [Nat.ble_eq_true_of_le h255]
    simp only [MaxASCII, MaxLatin1, inRange, Bool.and_eq_true, Bool.or_eq_true, Nat.ble_eq,
      if_true] at *
    split_ifs <;> omega
  · have hgt : MaxLatin1 < r := Nat.lt_of_not_le h255
    have h127 : ¬ r ≤ MaxASCII := by
      simp only [MaxASCII, MaxLatin1] at *
      omega
    unfold ToLower
    have e1 : Nat.ble r MaxASCII = false := by
      rw [Bool.eq_false_iff]; intro hc; exact h127 (Nat.le_of_ble_eq_true hc)
    have e2 : Nat.ble r MaxLatin1 = false := by
      rw [Bool.eq_false_iff]; intro hc; exact h255 (Nat.le_of_ble_eq_true hc)
    rw [e1, e2]
    exact hU r hgt

theorem WordShape_cases (U : UnicodeTables) {w : List Nat} (hw : WordShape U w) :
    (∀ r ∈ w, runeClass U r ≠ 4) ∨ (∀ r ∈ w, runeClass U r = 4) := by
  rcases hw with hl | ⟨c, hc⟩
  · left
    intro r hr
    rcases hl r hr with e | e <;> rw [e] <;> decide
  · by_cases h4 : c = 4
    · exact Or.inr (fun r hr => by rw [hc r hr, h4])
    · exact Or.inl (fun r hr => by rw [hc r hr]; exact h4)

theorem TrimUnderscore_concat_underscore (w : GoString) (h : 0x5F ∉ w) :
    TrimUnderscore (w ++ [0x5F]) = w := by
  have hu : ∀ r ∈ w, (fun r : Nat => r == 0x5F) r = false := by
    intro r hr
    simp only [beq_eq_false_iff_ne, ne_eq]
    intro e
    exact h (e ▸ hr)
  unfold TrimUnderscore
  rw [trimRightFunc_concat_true _ w 0x5F (by decide), trimRightFunc_of_all_false _ w hu,
    trimLeftFunc_of_all_false _ w hu]

theorem lowerWord_no_underscore (U : UnicodeTables)
    (hU : ∀ r, MaxLatin1 < r → U.toLower r ≠ 0x5F) (w : GoString) (hw : WordShape U w) :
    0x5F ∉ lowerWord U w := by
  rcases WordShape_cases U hw with hn | h4
  · have hw5 : ∀ r ∈ w, r ≠ 0x5F := by
      intro r hr e
      exact hn r hr (e ▸ runeClass_underscore U)
    intro hmem
    unfold lowerWord TrimSpace stringsToLower at hmem
    simp only at hmem
    have h1 := mem_of_mem_trimRightFunc (mem_of_mem_trimLeftFunc hmem)
    obtain ⟨x, hx, hxr⟩ := List.mem_map.mp h1
    have hy : 0x5F ∉ trimRightFunc (fun r => !isAlnumASCII r) (TrimUnderscore w) := by
      intro hc
      exact hw5 _ (mem_of_mem_TrimUnderscore (mem_of_mem_trimRightFunc hc)) rfl
    unfold safeNameREReplace at hx
    rw [TrimUnderscore_concat_underscore _ hy] at hx
    have hxw : x ∈ w := mem_of_mem_TrimUnderscore (mem_of_mem_trimRightFunc hx)
    exact ToLower_ne_underscore U hU (hw5 x hxw) hxr
  · rw [lowerWord_of_not_alnum U w (fun r hr => not_isAlnumASCII_of_class U (h4 r hr))]
    simp

theorem normalizedTokens_no_underscore (U : UnicodeTables)
    (hU : ∀ r, MaxLatin1 < r → U.toLower r ≠ 0x5F) (name : GoString) :
    ∀ t ∈ normalizedTokens U name, t ≠ [] ∧ 0x5F ∉ t := by
  intro t ht
  obtain ⟨hne, w, hw, hlw⟩ := mem_normalizedTokens ht
  exact ⟨hne, hlw ▸ lowerWord_no_underscore U hU w (Split_wordShape U name w hw)⟩

/-- C18: for every input string, the result of `NormalizeName` is the join by
single underscores of non-empty tokens that contain no underscore: it does not
begin with an underscore, does not end with one, and has no two underscores in
a row.  The tables above Latin-1 are any tables whose lower-case mapping never
yields an underscore, as the case mapping of Unicode does not. -/
theorem NormalizeName_single_underscores (U : UnicodeTables)
    (hU : ∀ r, MaxLatin1 < r → U.toLower r ≠ 0x5F) (name : GoString) :
    NormalizeName U name = JoinUnderscore (normalizedTokens U name) ∧
    (∀ t ∈ normalizedTokens U name, t ≠ [] ∧ 0x5F ∉ t) ∧
    (NormalizeName U name).head? ≠ some 0x5F ∧
    (NormalizeName U name).getLast? ≠ some 0x5F ∧
    List.Chain' NoDoubleUnderscore (NormalizeName U name) := by
  have hk := normalizedTokens_no_underscore U hU name
  have hne : ∀ t ∈ normalizedTokens U name, t ≠ [] := fun t ht => (hk t ht).1
  refine ⟨NormalizeName_eq_tokens U name, hk, ?_, ?_, ?_⟩
  · rw [NormalizeName_eq_tokens]
    intro hc
    obtain ⟨t, ht, hx⟩ := mem_head?_JoinUnderscore _ hne 0x5F hc
    exact (hk t ht).2 hx
  · rw [NormalizeName_eq_tokens]
    intro hc
    obtain ⟨t, ht, hx⟩ := mem_getLast?_JoinUnderscore _ hne 0x5F hc
    exact (hk t ht).2 hx
  · rw [NormalizeName_eq_tokens]
    apply JoinUnderscore_chain' NoDoubleUnderscore _ hne
    · intro t ht
      apply chain'_of_forall_mem
      intro a ha b _ hc
      exact (hk t ht).2 (hc.1 ▸ ha)
    · intro t ht x hx
      exact ⟨fun hc => (hk t ht).2 (hc.1 ▸ hx), fun hc => (hk t ht).2 (hc.2 ▸ hx)⟩

/-- C18 (witness): `__Foo__bar_ _9..` becomes `foo_bar_9`. -/
theorem NormalizeName_single_underscores_witness :
    (∀ r, MaxLatin1 < r → latin1Tables.toLower r ≠ 0x5F) ∧
    NormalizeName latin1Tables (str "__Foo__bar_ _9..") = str "foo_bar_9" ∧
    List.Chain' NoDoubleUnderscore (NormalizeName latin1Tables (str "__Foo__bar_ _9..")) :=
  have hU : ∀ r, MaxLatin1 < r → latin1Tables.toLower r ≠ 0x5F := by
    intro r hr e
    have e2 : r = 0x5F := e
    rw [e2] at hr
    exact absurd hr (by decide)
  ⟨hU, by decide,
   (NormalizeName_single_underscores latin1Tables hU (str "__Foo__bar_ _9..")).2.2.2.2⟩

/-! ## Lemmas: merging into keyed entries -/

theorem upsertBy_keys {E K : Type} [DecidableEq K] (keyOf : E → K) (k : K) (fresh : E)
    (update : E → E) (hf : keyOf fresh = k) (hu : ∀ e, keyOf (update e) = keyOf e)
    (l : List E) :
    (upsertBy keyOf k fresh update l).map keyOf
      = if k ∈ l.map keyOf then l.map keyOf else l.map keyOf ++ [k] := by
  induction l with
  | nil => simp [upsertBy, hf]
  | cons e rest ih =>
    unfold upsertBy
    by_cases hk : keyOf e = k
    · rw [if_pos hk, List.map_cons, hu, List.map_cons, if_pos (by rw [hk]; simp)]
    · rw [if_neg hk, List.map_cons, ih, List.map_cons]
      have hiff : k ∈ keyOf e :: rest.map keyOf ↔ k ∈ rest.map keyOf := by
        rw [List.mem_cons]
        constructor
        · rintro (h | h)
          · exact absurd h.symm hk
          · exact h
        · exact Or.inr
      by_cases hm : k ∈ rest.map keyOf
      · rw [if_pos hm, if_pos (hiff.mpr hm)]
      · rw [if_neg hm, if_neg (fun h => hm (hiff.mp h))]
        rfl

theorem upsertBy_mem {E K : Type} [DecidableEq K] (keyOf : E → K) (k : K) (fresh : E)
    (update : E → E) (hf : keyOf fresh = k) (hu : ∀ e, keyOf (update e) = keyOf e)
    (l : List E) (hnd : (l.map keyOf).Nodup) :
    ∀ x ∈ upsertBy keyOf k fresh update l,
      (keyOf x = k ∧ (x = fresh ∨ ∃ e ∈ l, x = update e)) ∨ (keyOf x ≠ k ∧ x ∈ l) := by
  induction l with
  | nil =>
    intro x hx
    simp only [upsertBy, List.mem_singleton] at hx
    exact Or.inl ⟨hx ▸ hf, Or.inl hx⟩
  | cons e rest ih =>
    rw [List.map_cons, List.nodup_cons] at hnd
    intro x hx
    unfold upsertBy at hx
    by_cases hk : keyOf e = k
    · rw [if_pos hk, List.mem_cons] at hx
      rcases hx with hx | hx
      · exact Or.inl ⟨by rw [hx, hu, hk], Or.inr ⟨e, List.mem_cons_self _ _, hx⟩⟩
      · right
        refine ⟨fun hc => hnd.1 ?_, List.mem_cons_of_mem _ hx⟩
        rw [hk, ← hc]
        exact List.mem_map_of_mem keyOf hx
    · rw [if_neg hk, List.mem_cons] at hx
      rcases hx with hx | hx
      · exact Or.inr ⟨hx ▸ hk, hx ▸ List.mem_cons_self _ _⟩
      · rcases ih hnd.2 x hx with ⟨h0, h | ⟨e2, he2, h⟩⟩ | ⟨h1, h2⟩
        · exact Or.inl ⟨h0, Or.inl h⟩
        · exact Or.inl ⟨h0, Or.inr ⟨e2, List.mem_cons_of_mem _ he2, h⟩⟩
        · exact Or.inr ⟨h1, List.mem_cons_of_mem _ h2⟩

/-! ## Lemmas: `AddMetric` -/

theorem AddMetric_filters (s : Store) (now : Nat) (e : Envelope) :
    (AddMetric s now e).deploymentFilter = s.deploymentFilter ∧
    (AddMetric s now e).eventFilter = s.eventFilter := by
  unfold AddMetric
  simp only
  split_ifs
  · exact ⟨rfl, rfl⟩
  · exact ⟨rfl, rfl⟩
  · cases e.payload <;> exact ⟨rfl, rfl⟩

theorem AddMetric_entries (s : Store) (a : Nat × Envelope) (h : accepted s a.2) :
    (AddMetric s a.1 a.2).valueMetrics
      = applyUpsert (fun x => valueKey x.entry) valueOpKey valueFreshOf valueUpdateOf a
          s.valueMetrics ∧
    (AddMetric s a.1 a.2).counterEvents
      = applyUpsert (fun x => counterKey x.entry) counterOpKey counterFreshOf counterUpdateOf a
          s.counterEvents := by
  unfold accepted at h
  unfold AddMetric applyUpsert valueOpKey counterOpKey valueFreshOf valueUpdateOf
    counterFreshOf counterUpdateOf payloadValueUnit payloadDeltaTotal Envelope.name
  simp only [h.1, h.2, Bool.not_true, Bool.false_eq_true, if_false]
  cases a.2.payload <;> exact ⟨rfl, rfl⟩

/-! ## Lemmas: the sorted tag set -/

theorem strLe_total (a : GoString) : ∀ b : GoString, strLe a b = true ∨ strLe b a = true := by
  induction a with
  | nil => intro b; exact Or.inl (by cases b <;> rfl)
  | cons x s ih =>
    intro b
    cases b with
    | nil => exact Or.inr rfl
    | cons y t =>
      simp only [strLe, Nat.blt_eq]
      rcases Nat.lt_trichotomy x y with h | h | h
      · left; rw [if_pos h]
      · rw [h]
        simp only [Nat.lt_irrefl, if_false]
        exact ih t
      · right; rw [if_pos h]

theorem strLe_antisymm (a : GoString) :
    ∀ b : GoString, strLe a b = true → strLe b a = true → a = b := by
  induction a with
  | nil =>
    intro b _ h2
    cases b with
    | nil => rfl
    | cons y t => simp [strLe] at h2
  | cons x s ih =>
    intro b h1 h2
    cases b with
    | nil => simp [strLe] at h1
    | cons y t =>
      simp only [strLe, Nat.blt_eq] at h1 h2
      by_cases hxy : x < y
      · rw [if_neg (Nat.lt_asymm hxy), if_pos hxy] at h2
        exact absurd h2 (by simp)
      · by_cases hyx : y < x
        · rw [if_neg hxy, if_pos hyx] at h1
          exact absurd h1 (by simp)
        · rw [if_neg hxy, if_neg hyx] at h1
          rw [if_neg hyx, if_neg hxy] at h2
          have e : x = y := by omega
          rw [e, ih t h1 h2]

theorem strLe_trans (a : GoString) :
    ∀ b c : GoString, strLe a b = true → strLe b c = true → strLe a c = true := by
  induction a with
  | nil => intro b c _ _; cases c <;> rfl
  | cons x s ih =>
    intro b c h1 h2
    cases b with
    | nil => simp [strLe] at h1
    | cons y t =>
      cases c with
      | nil => simp [strLe] at h2
      | cons z u =>
        simp only [strLe, Nat.blt_eq] at h1 h2 ⊢
        by_cases hxy : x < y
        · by_cases hyz : y < z
          · rw [if_pos (Nat.lt_trans hxy hyz)]
          · by_cases hzy : z < y
            · rw [if_neg hyz, if_pos hzy] at h2
              exact absurd h2 (by simp)
            · have e : y = z := by omega
              rw [if_pos (e ▸ hxy)]
        · by_cases hyx : y < x
          · rw [if_neg hxy, if_pos hyx] at h1
            exact absurd h1 (by simp)
          · have e : x = y := by omega
            rw [if_neg hxy, if_neg hyx] at h1
            by_cases hyz : y < z
            · rw [if_pos (e ▸ hyz)]
            · by_cases hzy : z < y
              · rw [if_neg hyz, if_pos hzy] at h2
                exact absurd h2 (by simp)
              · rw [if_neg hyz, if_neg hzy] at h2
                have e2 : y = z := by omega
                rw [if_neg (by omega), if_neg (by omega)]
                exact ih t u h1 h2

theorem tagLe_total (a b : GoString × GoString) : tagLe a b = true ∨ tagLe b a = true := by
  unfold tagLe
  by_cases h : a.1 = b.1
  · rw [if_pos h, if_pos h.symm]
    exact strLe_total a.2 b.2
  · rw [if_neg h, if_neg (fun e => h e.symm)]
    exact strLe_total a.1 b.1

theorem tagLe_antisymm (a b : GoString × GoString) (h1 : tagLe a b = true)
    (h2 : tagLe b a = true) : a = b := by
  unfold tagLe at h1 h2
  by_cases h : a.1 = b.1
  · rw [if_pos h] at h1
    rw [if_pos h.symm] at h2
    exact Prod.ext h (strLe_antisymm a.2 b.2 h1 h2)
  · rw [if_neg h] at h1
    rw [if_neg (fun e => h e.symm)] at h2
    exact absurd (strLe_antisymm a.1 b.1 h1 h2) h

theorem tagLe_trans (a b c : GoString × GoString) (h1 : tagLe a b = true)
    (h2 : tagLe b c = true) : tagLe a c = true := by
  unfold tagLe at h1 h2 ⊢
  by_cases hab : a.1 = b.1
  · rw [if_pos hab] at h1
    by_cases hbc : b.1 = c.1
    · rw [if_pos hbc] at h2
      rw [if_pos (hab.trans hbc)]
      exact strLe_trans a.2 b.2 c.2 h1 h2
    · rw [if_neg hbc] at h2
      rw [if_neg (fun e => hbc (hab ▸ e)), hab]
      exact h2
  · rw [if_neg hab] at h1
    by_cases hbc : b.1 = c.1
    · rw [if_pos hbc] at h2
      rw [if_neg (fun e => hab (e.trans hbc.symm)), ← hbc]
      exact h1
    · rw [if_neg hbc] at h2
      have h3 := strLe_trans a.1 b.1 c.1 h1 h2
      by_cases hac : a.1 = c.1
      · exfalso
        rw [← hac] at h2
        exact hab (strLe_antisymm a.1 b.1 h1 h2)
      · rw [if_neg hac]
        exact h3

theorem sortTags_eq_insertionSort (tags : List (GoString × GoString)) :
    sortTags tags = List.insertionSort (fun a b => tagLe a b = true) tags := by
  have hins : ∀ (kv : GoString × GoString) (l : List (GoString × GoString)),
      insertTag kv l = List.orderedInsert (fun a b => tagLe a b = true) kv l := by
    intro kv l
    induction l with
    | nil => rfl
    | cons x rest ih =>
      unfold insertTag
      rw [List.orderedInsert, ih]
  unfold sortTags
  induction tags with
  | nil => rfl
  | cons kv rest ih =>
    rw [List.foldr_cons, ih, hins]
    rfl

theorem sortTags_eq_iff (t1 t2 : List (GoString × GoString)) :
    sortTags t1 = sortTags t2 ↔ t1.Perm t2 := by
  haveI : IsTotal (GoString × GoString) (fun a b => tagLe a b = true) := ⟨tagLe_total⟩
  haveI : IsTrans (GoString × GoString) (fun a b => tagLe a b = true) := ⟨tagLe_trans⟩
  haveI : IsAntisymm (GoString × GoString) (fun a b => tagLe a b = true) := ⟨tagLe_antisymm⟩
  rw [sortTags_eq_insertionSort, sortTags_eq_insertionSort]
  constructor
  · intro h
    have p1 := List.perm_insertionSort (fun a b => tagLe a b = true) t1
    have p2 := List.perm_insertionSort (fun a b => tagLe a b = true) t2
    exact p1.symm.trans (h ▸ p2)
  · intro h
    have p1 := List.perm_insertionSort (fun a b => tagLe a b = true) t1
    have p2 := List.perm_insertionSort (fun a b => tagLe a b = true) t2
    exact List.eq_of_perm_of_sorted (p1.trans (h.trans p2.symm))
      (List.sorted_insertionSort _ t1) (List.sorted_insertionSort _ t2)

theorem envelopeKey_eq_iff (e1 e2 : Envelope) :
    envelopeKey e1 = envelopeKey e2 ↔
      e1.kind = e2.kind ∧ sameSeries (envelopeSeries e1) (envelopeSeries e2) := by
  unfold envelopeKey sameSeries envelopeSeries
  rw [CompositeKey.mk.injEq, sortTags_eq_iff]

theorem valueKey_eq_envelopeKey_iff (vm : ValueMetric) (e : Envelope) :
    valueKey vm = envelopeKey e ↔
      e.kind = .value ∧ sameSeries (valueSeries vm) (envelopeSeries e) := by
  unfold valueKey envelopeKey sameSeries valueSeries envelopeSeries
  rw [CompositeKey.mk.injEq, sortTags_eq_iff, eq_comm]

theorem counterKey_eq_envelopeKey_iff (ce : CounterEvent) (e : Envelope) :
    counterKey ce = envelopeKey e ↔
      e.kind = .counter ∧ sameSeries (counterSeries ce) (envelopeSeries e) := by
  unfold counterKey envelopeKey sameSeries counterSeries envelopeSeries
  rw [CompositeKey.mk.injEq, sortTags_eq_iff, eq_comm]

theorem valueKey_eq_iff (vm1 vm2 : ValueMetric) :
    valueKey vm1 = valueKey vm2 ↔ sameSeries (valueSeries vm1) (valueSeries vm2) := by
  unfold valueKey sameSeries valueSeries
  rw [CompositeKey.mk.injEq, sortTags_eq_iff]
  simp

theorem counterKey_eq_iff (ce1 ce2 : CounterEvent) :
    counterKey ce1 = counterKey ce2 ↔ sameSeries (counterSeries ce1) (counterSeries ce2) := by
  unfold counterKey sameSeries counterSeries
  rw [CompositeKey.mk.injEq, sortTags_eq_iff]
  simp

/-! ## Lemmas: adds and sweeps on the entries of a kind -/

theorem upsertBy_exists {E K : Type} [DecidableEq K] (keyOf : E → K) (k : K) (fresh : E)
    (update : E → E) (hf : keyOf fresh = k) (hu : ∀ e, keyOf (update e) = keyOf e)
    (l : List E) :
    ∃ x ∈ upsertBy keyOf k fresh update l,
      keyOf x = k ∧ (x = fresh ∨ ∃ e ∈ l, x = update e) := by
  induction l with
  | nil => exact ⟨fresh, by simp [upsertBy], hf, Or.inl rfl⟩
  | cons e rest ih =>
    unfold upsertBy
    by_cases hk : keyOf e = k
    · rw [if_pos hk]
      exact ⟨update e, List.mem_cons_self _ _, by rw [hu, hk],
        Or.inr ⟨e, List.mem_cons_self _ _, rfl⟩⟩
    · rw [if_neg hk]
      obtain ⟨x, hx, hxk, h⟩ := ih
      refine ⟨x, List.mem_cons_of_mem _ hx, hxk, ?_⟩
      rcases h with h | ⟨e2, he2, h⟩
      · exact Or.inl h
      · exact Or.inr ⟨e2, List.mem_cons_of_mem _ he2, h⟩

theorem upsertBy_mem_of_ne {E K : Type} [DecidableEq K] (keyOf : E → K) (k : K) (fresh : E)
    (update : E → E) (l : List E) (x : E) (hx : x ∈ l) (hk : keyOf x ≠ k) :
    x ∈ upsertBy keyOf k fresh update l := by
  induction l with
  | nil => exact absurd hx (List.not_mem_nil _)
  | cons e rest ih =>
    unfold upsertBy
    rw [List.mem_cons] at hx
    by_cases hke : keyOf e = k
    · rw [if_pos hke]
      rcases hx with hx | hx
      · exact absurd (hx ▸ hke) hk
      · exact List.mem_cons_of_mem _ hx
    · rw [if_neg hke]
      rcases hx with hx | hx
      · exact hx ▸ List.mem_cons_self _ _
      · exact List.mem_cons_of_mem _ (ih hx)

theorem concat_eq_append_cons {α : Type} (ops pre post : List α) (op x : α)
    (h : ops ++ [op] = pre ++ x :: post) :
    (post = [] ∧ pre = ops ∧ x = op) ∨
    (∃ post2, post = post2 ++ [op] ∧ ops = pre ++ x :: post2) := by
  rcases List.eq_nil_or_concat post with hp | ⟨post2, b, hp⟩
  · left
    subst hp
    have h2 : ops ++ [op] = pre ++ [x] := h
    have := List.append_inj' h2 rfl
    exact ⟨rfl, this.1.symm, (List.singleton_inj.mp this.2).symm⟩
  · right
    subst hp
    have h2 : ops ++ [op] = (pre ++ x :: post2) ++ [b] := by
      rw [h]; simp
    have := List.append_inj' h2 rfl
    have hb : op = b := List.singleton_inj.mp this.2
    exact ⟨post2, by rw [hb]; simp, this.1⟩

theorem lastLiveOp_concat_other {K : Type} (opKey : Nat × Envelope → Option K)
    (expired : Nat → Nat → Bool) (ops : List StoreOp) (op : StoreOp) (a : Nat × Envelope)
    (k : K) (h : lastLiveOp opKey expired ops a k)
    (hadd : ∀ t e, op = StoreOp.add t e → opKey (t, e) ≠ some k)
    (hsweep : ∀ now, op = StoreOp.sweep now → expired now a.1 = false) :
    lastLiveOp opKey expired (ops ++ [op]) a k := by
  obtain ⟨pre, post, h1, h2, h3, h4⟩ := h
  refine ⟨pre, post ++ [op], by rw [h1]; simp, h2, ?_, ?_⟩
  · intro t e hm
    rw [List.mem_append, List.mem_singleton] at hm
    rcases hm with hm | hm
    · exact h3 t e hm
    · exact hadd t e hm.symm
  · intro now hm
    rw [List.mem_append, List.mem_singleton] at hm
    rcases hm with hm | hm
    · exact h4 now hm
    · exact hsweep now hm.symm

theorem lastLiveOp_of_concat {K : Type} (opKey : Nat × Envelope → Option K)
    (expired : Nat → Nat → Bool) (ops : List StoreOp) (op : StoreOp) (a : Nat × Envelope)
    (k : K) (h : lastLiveOp opKey expired (ops ++ [op]) a k) :
    (op = StoreOp.add a.1 a.2 ∧ opKey a = some k) ∨
    (lastLiveOp opKey expired ops a k ∧
      (∀ t e, op = StoreOp.add t e → opKey (t, e) ≠ some k) ∧
      (∀ now, op = StoreOp.sweep now → expired now a.1 = false)) := by
  obtain ⟨pre, post, h1, h2, h3, h4⟩ := h
  rcases concat_eq_append_cons ops pre post op _ h1 with ⟨_, _, hx⟩ | ⟨post2, hp, ho⟩
  · exact Or.inl ⟨hx.symm, h2⟩
  · right
    subst hp
    refine ⟨⟨pre, post2, ho, h2, fun t e hm => h3 t e (List.mem_append_left _ hm),
      fun now hm => h4 now (List.mem_append_left _ hm)⟩, ?_, ?_⟩
    · intro t e he
      exact h3 t e (by rw [he]; simp)
    · intro now he
      exact h4 now (by rw [he]; simp)

theorem foldl_stepEntries_spec {E K P : Type} [DecidableEq K] (keyOf : E → K)
    (stamp : E → Nat) (opKey : Nat × Envelope → Option K) (fresh : Nat × Envelope → E)
    (update : Nat × Envelope → E → E) (expired : Nat → Nat → Bool)
    (pay : E → P) (opPay : Nat × Envelope → P)
    (hfk : ∀ a k, opKey a = some k → keyOf (fresh a) = k)
    (huk : ∀ a e, keyOf (update a e) = keyOf e)
    (hfp : ∀ a, pay (fresh a) = opPay a)
    (hup : ∀ a e, pay (update a e) = opPay a)
    (hfs : ∀ a, stamp (fresh a) = a.1)
    (hus : ∀ a e, stamp (update a e) = a.1)
    (ops : List StoreOp) :
    ((ops.foldl (stepEntries keyOf stamp opKey fresh update expired) []).map keyOf).Nodup ∧
    (∀ x ∈ ops.foldl (stepEntries keyOf stamp opKey fresh update expired) [],
      ∃ a, lastLiveOp opKey expired ops a (keyOf x) ∧ pay x = opPay a ∧ stamp x = a.1) ∧
    (∀ a k, lastLiveOp opKey expired ops a k →
      ∃ x ∈ ops.foldl (stepEntries keyOf stamp opKey fresh update expired) [],
        keyOf x = k ∧ stamp x = a.1) := by
  induction ops using List.reverseRecOn with
  | nil =>
    refine ⟨by simp, by simp, ?_⟩
    rintro a k ⟨pre, post, h, _⟩
    exact absurd h (by simp)
  | append_singleton ops op ih =>
    obtain ⟨ih1, ih2, ih3⟩ := ih
    rw [List.foldl_append]
    simp only [List.foldl_cons, List.foldl_nil]
    generalize ops.foldl (stepEntries keyOf stamp opKey fresh update expired) [] = l
      at ih1 ih2 ih3 ⊢
    cases op with
    | sweep now =>
      simp only [stepEntries]
      refine ⟨?_, fun x hx => ?_, fun a k h => ?_⟩
      · exact List.Nodup.sublist (List.Sublist.map keyOf (List.filter_sublist l)) ih1
      · rw [List.mem_filter] at hx
        obtain ⟨a, ha, hp, hs⟩ := ih2 x hx.1
        refine ⟨a, lastLiveOp_concat_other opKey expired ops _ a _ ha ?_ ?_, hp, hs⟩
        · intro t e he
          exact absurd he (by simp)
        · intro now2 he
          have hn : now = now2 := by injection he
          rw [← hn, ← hs]
          simpa using hx.2
      · rcases lastLiveOp_of_concat opKey expired ops _ a k h with ⟨he, _⟩ | ⟨h1, _, h3⟩
        · exact absurd he (by simp)
        · obtain ⟨x, hx, hxk, hxs⟩ := ih3 a k h1
          refine ⟨x, ?_, hxk, hxs⟩
          rw [List.mem_filter]
          refine ⟨hx, ?_⟩
          rw [hxs, h3 now rfl]
          rfl
    | add t e =>
      simp only [stepEntries]
      unfold applyUpsert
      cases hk : opKey (t, e) with
      | none =>
        simp only
        refine ⟨ih1, fun x hx => ?_, fun a k h => ?_⟩
        · obtain ⟨a, ha, hp, hs⟩ := ih2 x hx
          refine ⟨a, lastLiveOp_concat_other opKey expired ops _ a _ ha ?_ ?_, hp, hs⟩
          · intro t2 e2 he
            injection he with h1 h2
            rw [← h1, ← h2, hk]
            simp
          · intro now he
            exact absurd he (by simp)
        · rcases lastLiveOp_of_concat opKey expired ops _ a k h with ⟨he, hak⟩ | ⟨h1, _, _⟩
          · exfalso
            injection he with h1 h2
            have : a = (t, e) := Prod.ext h1.symm h2.symm
            rw [this, hk] at hak
            exact absurd hak (by simp)
          · exact ih3 a k h1
      | some k0 =>
        simp only
        have hkeys := upsertBy_keys keyOf k0 (fresh (t, e)) (update (t, e))
          (hfk (t, e) k0 hk) (huk (t, e)) l
        refine ⟨?_, fun x hx => ?_, fun a k h => ?_⟩
        · rw [hkeys]
          by_cases hm : k0 ∈ l.map keyOf
          · rw [if_pos hm]; exact ih1
          · rw [if_neg hm]
            exact List.Nodup.append ih1 (List.nodup_singleton _)
              (by simpa [List.disjoint_singleton] using hm)
        · rcases upsertBy_mem keyOf k0 (fresh (t, e)) (update (t, e)) (hfk (t, e) k0 hk)
            (huk (t, e)) l ih1 x hx with ⟨hke, h⟩ | ⟨h1, h2⟩
          · refine ⟨(t, e), ⟨ops, [], rfl, by rw [hk, hke], by simp, by simp⟩, ?_, ?_⟩
            · rcases h with h | ⟨e2, _, h⟩
              · rw [h, hfp]
              · rw [h, hup]
            · rcases h with h | ⟨e2, _, h⟩
              · rw [h, hfs]
              · rw [h, hus]
          · obtain ⟨a, ha, hp, hs⟩ := ih2 x h2
            refine ⟨a, lastLiveOp_concat_other opKey expired ops _ a _ ha ?_ ?_, hp, hs⟩
            · intro t2 e2 he
              injection he with h3 h4
              rw [← h3, ← h4, hk]
              intro hc
              exact h1 (Option.some.inj hc).symm
            · intro now he
              exact absurd he (by simp)
        · rcases lastLiveOp_of_concat opKey expired ops _ a k h with ⟨he, hak⟩ | ⟨h1, h2, _⟩
          · injection he with h1 h2
            have hae : a = (t, e) := Prod.ext h1.symm h2.symm
            rw [hae, hk] at hak
            have hkk : k0 = k := Option.some.inj hak
            obtain ⟨x, hx, hxk, h⟩ := upsertBy_exists keyOf k0 (fresh (t, e)) (update (t, e))
              (hfk (t, e) k0 hk) (huk (t, e)) l
            refine ⟨x, hx, hkk ▸ hxk, ?_⟩
            rw [hae]
            rcases h with h | ⟨e2, _, h⟩
            · rw [h, hfs]
            · rw [h, hus]
          · obtain ⟨x, hx, hxk, hxs⟩ := ih3 a k h1
            refine ⟨x, upsertBy_mem_of_ne keyOf k0 _ _ l x hx ?_, hxk, hxs⟩
            rw [hxk]
            intro hc
            exact h2 t e rfl (by rw [hk, hc])

theorem exists_lastOp {K : Type} (opKey : Nat × Envelope → Option K) (k : K)
    (ops : List StoreOp) :
    ∀ t e, StoreOp.add t e ∈ ops → opKey (t, e) = some k →
      ∃ a pre post, ops = pre ++ StoreOp.add a.1 a.2 :: post ∧ opKey a = some k ∧
        (∀ t2 e2, StoreOp.add t2 e2 ∈ post → opKey (t2, e2) ≠ some k) := by
  induction ops with
  | nil => intro t e h; exact absurd h (List.not_mem_nil _)
  | cons op rest ih =>
    intro t e hm hk
    by_cases hex : ∃ t2 e2, StoreOp.add t2 e2 ∈ rest ∧ opKey (t2, e2) = some k
    · obtain ⟨t2, e2, hm2, hk2⟩ := hex
      obtain ⟨a, pre, post, h1, h2, h3⟩ := ih t2 e2 hm2 hk2
      exact ⟨a, op :: pre, post, by rw [h1]; rfl, h2, h3⟩
    · rw [List.mem_cons] at hm
      rcases hm with hm | hm
      · refine ⟨(t, e), [], rest, by rw [hm]; rfl, hk, ?_⟩
        intro t2 e2 hm2 hk2
        exact hex ⟨t2, e2, hm2, hk2⟩
      · exact absurd ⟨t, e, hm, hk⟩ hex

theorem mem_addsOf (ops : List StoreOp) (a : Nat × Envelope) :
    a ∈ addsOf ops ↔ StoreOp.add a.1 a.2 ∈ ops := by
  induction ops with
  | nil => simp [addsOf]
  | cons op rest ih =>
    cases op with
    | add t e =>
      rw [addsOf, List.mem_cons, List.mem_cons, ih]
      constructor
      · rintro (h | h)
        · exact Or.inl (by rw [h])
        · exact Or.inr h
      · rintro (h | h)
        · injection h with h1 h2
          exact Or.inl (Prod.ext h1 h2)
        · exact Or.inr h
    | sweep now =>
      rw [addsOf, List.mem_cons, ih]
      constructor
      · exact Or.inr
      · rintro (h | h)
        · exact absurd h (by simp)
        · exact h

theorem mem_sweepsOf (ops : List StoreOp) (now : Nat) :
    now ∈ sweepsOf ops ↔ StoreOp.sweep now ∈ ops := by
  induction ops with
  | nil => simp [sweepsOf]
  | cons op rest ih =>
    cases op with
    | add t e =>
      rw [sweepsOf, List.mem_cons, ih]
      constructor
      · exact Or.inr
      · rintro (h | h)
        · exact absurd h (by simp)
        · exact h
    | sweep now2 =>
      rw [sweepsOf, List.mem_cons, List.mem_cons, ih]
      constructor
      · rintro (h | h)
        · exact Or.inl (by rw [h])
        · exact Or.inr h
      · rintro (h | h)
        · injection h with h1
          exact Or.inl h1
        · exact Or.inr h

/-! ## Lemmas: the operations of the store -/

theorem applyOp_config (s : Store) (op : StoreOp) :
    (applyOp s op).metricsExpiration = s.metricsExpiration ∧
    (applyOp s op).deploymentFilter = s.deploymentFilter ∧
    (applyOp s op).eventFilter = s.eventFilter := by
  cases op with
  | sweep now => exact ⟨rfl, rfl, rfl⟩
  | add t e =>
    refine ⟨?_, (AddMetric_filters s t e).1, (AddMetric_filters s t e).2⟩
    unfold applyOp AddMetric
    simp only
    split_ifs
    · rfl
    · rfl
    · cases e.payload <;> rfl

theorem accepted_applyOp (s : Store) (op : StoreOp) (e : Envelope) :
    accepted (applyOp s op) e ↔ accepted s e := by
  unfold accepted deploymentEnabled eventEnabled
  rw [(applyOp_config s op).2.1, (applyOp_config s op).2.2]

theorem applyOp_entries (s : Store) (op : StoreOp) (h : ∀ a ∈ addsOf [op], accepted s a.2) :
    (applyOp s op).valueMetrics
      = stepEntries (fun x => valueKey x.entry) (fun x => x.lastUpdate) valueOpKey valueFreshOf
          valueUpdateOf (isExpired s.metricsExpiration) s.valueMetrics op ∧
    (applyOp s op).counterEvents
      = stepEntries (fun x => counterKey x.entry) (fun x => x.lastUpdate) counterOpKey
          counterFreshOf counterUpdateOf (isExpired s.metricsExpiration) s.counterEvents op := by
  cases op with
  | sweep now => exact ⟨rfl, rfl⟩
  | add t e => exact AddMetric_entries s (t, e) (h (t, e) (by simp [addsOf]))

theorem runOps_entries (ops : List StoreOp) :
    ∀ s : Store, (∀ a ∈ addsOf ops, accepted s a.2) →
      (runOps s ops).valueMetrics
        = ops.foldl (stepEntries (fun x => valueKey x.entry) (fun x => x.lastUpdate) valueOpKey
            valueFreshOf valueUpdateOf (isExpired s.metricsExpiration)) s.valueMetrics ∧
      (runOps s ops).counterEvents
        = ops.foldl (stepEntries (fun x => counterKey x.entry) (fun x => x.lastUpdate)
            counterOpKey counterFreshOf counterUpdateOf (isExpired s.metricsExpiration))
            s.counterEvents := by
  induction ops with
  | nil => intro s _; exact ⟨rfl, rfl⟩
  | cons op rest ih =>
    intro s h
    have hop : ∀ a ∈ addsOf [op], accepted s a.2 := by
      intro a ha
      apply h a
      rw [mem_addsOf] at ha ⊢
      rw [List.mem_singleton] at ha
      rw [ha]
      exact List.mem_cons_self _ _
    have hrest : ∀ b ∈ addsOf rest, accepted (applyOp s op) b.2 := by
      intro b hb
      rw [accepted_applyOp]
      apply h b
      rw [mem_addsOf] at hb ⊢
      exact List.mem_cons_of_mem _ hb
    have hstep := applyOp_entries s op hop
    have := ih (applyOp s op) hrest
    unfold runOps at this ⊢
    simp only [List.foldl_cons]
    rw [this.1, this.2, hstep.1, hstep.2, (applyOp_config s op).1]
    exact ⟨rfl, rfl⟩

theorem lastLiveOp_iff_lastLiveAdd (opKey : Nat × Envelope → Option CompositeKey)
    (hop : ∀ a : Nat × Envelope, ∀ k : CompositeKey,
      opKey a = some k ↔ (envelopeKey a.2 = k ∧ opKey a ≠ none))
    (metricsExpiration : Nat) (ops : List StoreOp) (t : Nat) (e : Envelope)
    (hk : opKey (t, e) ≠ none)
    (hkind : ∀ t2 e2, e2.kind = e.kind → opKey (t2, e2) ≠ none) :
    lastLiveOp opKey (isExpired metricsExpiration) ops (t, e) (envelopeKey e)
      ↔ lastLiveAdd metricsExpiration ops t e := by
  unfold lastLiveOp lastLiveAdd
  constructor
  · rintro ⟨pre, post, h1, _, h3, h4⟩
    refine ⟨pre, post, h1, ?_, h4⟩
    rintro t2 e2 hm ⟨hk2, hs⟩
    exact h3 t2 e2 hm ((hop (t2, e2) _).mpr
      ⟨(envelopeKey_eq_iff e2 e).mpr ⟨hk2, hs⟩, hkind t2 e2 hk2⟩)
  · rintro ⟨pre, post, h1, h3, h4⟩
    refine ⟨pre, post, h1, (hop (t, e) _).mpr ⟨rfl, hk⟩, ?_, h4⟩
    intro t2 e2 hm hc
    exact h3 t2 e2 hm ((envelopeKey_eq_iff e2 e).mp ((hop (t2, e2) _).mp hc).1)

theorem valueOpKey_iff (a : Nat × Envelope) (k : CompositeKey) :
    valueOpKey a = some k ↔ (envelopeKey a.2 = k ∧ valueOpKey a ≠ none) := by
  unfold valueOpKey
  cases a.2.payload <;> simp

theorem counterOpKey_iff (a : Nat × Envelope) (k : CompositeKey) :
    counterOpKey a = some k ↔ (envelopeKey a.2 = k ∧ counterOpKey a ≠ none) := by
  unfold counterOpKey
  cases a.2.payload <;> simp

theorem valueOpKey_ne_none (a : Nat × Envelope) : valueOpKey a ≠ none ↔ a.2.kind = .value := by
  unfold valueOpKey Envelope.kind
  cases a.2.payload <;> simp

theorem counterOpKey_ne_none (a : Nat × Envelope) :
    counterOpKey a ≠ none ↔ a.2.kind = .counter := by
  unfold counterOpKey Envelope.kind
  cases a.2.payload <;> simp

theorem valueKey_fresh (a : Nat × Envelope) (k : CompositeKey) (h : valueOpKey a = some k) :
    valueKey (valueFreshOf a).entry = k := by
  unfold valueOpKey at h
  unfold valueFreshOf freshValue valueKey
  cases hp : a.2.payload with
  | value name value unit =>
    rw [hp] at h
    simp only [Option.some.injEq] at h
    rw [← h]
    simp [envelopeKey, Envelope.kind, Envelope.name, hp]
  | counter name delta total => rw [hp] at h; simp at h
  | other => rw [hp] at h; simp at h

theorem counterKey_fresh (a : Nat × Envelope) (k : CompositeKey) (h : counterOpKey a = some k) :
    counterKey (counterFreshOf a).entry = k := by
  unfold counterOpKey at h
  unfold counterFreshOf freshCounter counterKey
  cases hp : a.2.payload with
  | counter name delta total =>
    rw [hp] at h
    simp only [Option.some.injEq] at h
    rw [← h]
    simp [envelopeKey, Envelope.kind, Envelope.name, hp]
  | value name value unit => rw [hp] at h; simp at h
  | other => rw [hp] at h; simp at h

theorem exists_lastLiveOp_of_fresh {K : Type} (opKey : Nat × Envelope → Option K)
    (metricsExpiration : Nat) (ops : List StoreOp)
    (hfresh : ∀ now ∈ sweepsOf ops, ∀ a ∈ addsOf ops, isExpired metricsExpiration now a.1 = false)
    (a : Nat × Envelope) (ha : a ∈ addsOf ops) (k : K) (hk : opKey a = some k) :
    ∃ b, lastLiveOp opKey (isExpired metricsExpiration) ops b k := by
  obtain ⟨b, pre, post, h1, h2, h3⟩ :=
    exists_lastOp opKey k ops a.1 a.2 ((mem_addsOf ops a).mp ha) hk
  refine ⟨b, pre, post, h1, h2, h3, ?_⟩
  intro now hm
  apply hfresh now
  · rw [mem_sweepsOf, h1]
    exact List.mem_append_right _ (List.mem_cons_of_mem _ hm)
  · rw [mem_addsOf, h1]
    exact List.mem_append_right _ (List.mem_cons_self _ _)

/-! ## The store -/

theorem valueMetrics_spec (metricsExpiration : Nat) (ops : List StoreOp) (l : List StoredValue)
    (hl : l = ops.foldl (stepEntries (fun x => valueKey x.entry) (fun x => x.lastUpdate)
      valueOpKey valueFreshOf valueUpdateOf (isExpired metricsExpiration)) []) :
    (l.map (fun x => x.entry)).Pairwise
      (fun a b => ¬ sameSeries (valueSeries a) (valueSeries b)) ∧
    (∀ t e, lastLiveAdd metricsExpiration ops t e → e.kind = .value →
      ∃ vm ∈ l.map (fun x => x.entry), sameSeries (valueSeries vm) (envelopeSeries e)) ∧
    ((∀ now ∈ sweepsOf ops, ∀ a ∈ addsOf ops, isExpired metricsExpiration now a.1 = false) →
      ∀ a ∈ addsOf ops, a.2.kind = .value →
        ∃ vm ∈ l.map (fun x => x.entry), sameSeries (valueSeries vm) (envelopeSeries a.2)) ∧
    (∀ x ∈ l, ∃ t e name, lastLiveAdd metricsExpiration ops t e ∧
      sameSeries (valueSeries x.entry) (envelopeSeries e) ∧
      e.payload = .value name x.entry.Value x.entry.Unit ∧ x.lastUpdate = t) := by
  obtain ⟨h1, h2, h3⟩ := foldl_stepEntries_spec (fun x : StoredValue => valueKey x.entry)
    (fun x => x.lastUpdate) valueOpKey valueFreshOf valueUpdateOf (isExpired metricsExpiration)
    (fun x => (x.entry.Value, x.entry.Unit)) (fun a => payloadValueUnit a.2)
    valueKey_fresh (fun _ _ => rfl) (fun _ => rfl) (fun _ _ => rfl) (fun _ => rfl)
    (fun _ _ => rfl) ops
  rw [← hl] at h1 h2 h3
  have hlive : ∀ t e, e.kind = .value →
      (lastLiveOp valueOpKey (isExpired metricsExpiration) ops (t, e) (envelopeKey e)
        ↔ lastLiveAdd metricsExpiration ops t e) := fun t e hk =>
    lastLiveOp_iff_lastLiveAdd valueOpKey valueOpKey_iff metricsExpiration ops t e
      ((valueOpKey_ne_none (t, e)).mpr hk)
      (fun t2 e2 h2 => (valueOpKey_ne_none (t2, e2)).mpr (h2.trans hk))
  refine ⟨?_, ?_, ?_, ?_⟩
  · rw [List.pairwise_map]
    have := List.pairwise_map.mp h1
    exact this.imp (fun hne hs => hne ((valueKey_eq_iff _ _).mpr hs))
  · intro t e hlast hk
    obtain ⟨x, hx, hxk, _⟩ := h3 (t, e) (envelopeKey e) ((hlive t e hk).mpr hlast)
    exact ⟨x.entry, List.mem_map_of_mem _ hx, ((valueKey_eq_envelopeKey_iff _ _).mp hxk).2⟩
  · intro hfresh a ha hk
    have hkey : valueOpKey a = some (envelopeKey a.2) :=
      (valueOpKey_iff a _).mpr ⟨rfl, (valueOpKey_ne_none a).mpr hk⟩
    obtain ⟨b, hb⟩ := exists_lastLiveOp_of_fresh valueOpKey metricsExpiration ops hfresh a ha
      (envelopeKey a.2) hkey
    obtain ⟨x, hx, hxk, _⟩ := h3 b (envelopeKey a.2) hb
    exact ⟨x.entry, List.mem_map_of_mem _ hx, ((valueKey_eq_envelopeKey_iff _ _).mp hxk).2⟩
  · intro x hx
    obtain ⟨a, ha, hpay, hs⟩ := h2 x hx
    have hak : valueOpKey a = some (valueKey x.entry) := by
      obtain ⟨_, _, _, h, _⟩ := ha
      exact h
    have hek : envelopeKey a.2 = valueKey x.entry := ((valueOpKey_iff a _).mp hak).1
    have hkind : a.2.kind = .value := (valueOpKey_ne_none a).mp ((valueOpKey_iff a _).mp hak).2
    have hser := ((valueKey_eq_envelopeKey_iff x.entry a.2).mp hek.symm).2
    rw [← hek] at ha
    have hlast := (hlive a.1 a.2 hkind).mp ha
    unfold payloadValueUnit at hpay
    unfold Envelope.kind at hkind
    cases hp : a.2.payload with
    | value name value unit =>
      rw [hp] at hpay
      simp only [Prod.mk.injEq] at hpay
      exact ⟨a.1, a.2, name, hlast, hser, by rw [hp, hpay.1, hpay.2], hs⟩
    | counter name delta total => rw [hp] at hkind; simp at hkind
    | other => rw [hp] at hkind; simp at hkind

theorem counterEvents_spec (metricsExpiration : Nat) (ops : List StoreOp)
    (l : List StoredCounter)
    (hl : l = ops.foldl (stepEntries (fun x => counterKey x.entry) (fun x => x.lastUpdate)
      counterOpKey counterFreshOf counterUpdateOf (isExpired metricsExpiration)) []) :
    (l.map (fun x => x.entry)).Pairwise
      (fun a b => ¬ sameSeries (counterSeries a) (counterSeries b)) ∧
    (∀ t e, lastLiveAdd metricsExpiration ops t e → e.kind = .counter →
      ∃ ce ∈ l.map (fun x => x.entry), sameSeries (counterSeries ce) (envelopeSeries e)) ∧
    ((∀ now ∈ sweepsOf ops, ∀ a ∈ addsOf ops, isExpired metricsExpiration now a.1 = false) →
      ∀ a ∈ addsOf ops, a.2.kind = .counter →
        ∃ ce ∈ l.map (fun x => x.entry), sameSeries (counterSeries ce) (envelopeSeries a.2)) ∧
    (∀ x ∈ l, ∃ t e name, lastLiveAdd metricsExpiration ops t e ∧
      sameSeries (counterSeries x.entry) (envelopeSeries e) ∧
      e.payload = .counter name x.entry.Delta x.entry.Total ∧ x.lastUpdate = t) := by
  obtain ⟨h1, h2, h3⟩ := foldl_stepEntries_spec (fun x : StoredCounter => counterKey x.entry)
    (fun x => x.lastUpdate) counterOpKey counterFreshOf counterUpdateOf
    (isExpired metricsExpiration)
    (fun x => (x.entry.Delta, x.entry.Total)) (fun a => payloadDeltaTotal a.2)
    counterKey_fresh (fun _ _ => rfl) (fun _ => rfl) (fun _ _ => rfl) (fun _ => rfl)
    (fun _ _ => rfl) ops
  rw [← hl] at h1 h2 h3
  have hlive : ∀ t e, e.kind = .counter →
      (lastLiveOp counterOpKey (isExpired metricsExpiration) ops (t, e) (envelopeKey e)
        ↔ lastLiveAdd metricsExpiration ops t e) := fun t e hk =>
    lastLiveOp_iff_lastLiveAdd counterOpKey counterOpKey_iff metricsExpiration ops t e
      ((counterOpKey_ne_none (t, e)).mpr hk)
      (fun t2 e2 h2 => (counterOpKey_ne_none (t2, e2)).mpr (h2.trans hk))
  refine ⟨?_, ?_, ?_, ?_⟩
  · rw [List.pairwise_map]
    have := List.pairwise_map.mp h1
    exact this.imp (fun hne hs => hne ((counterKey_eq_iff _ _).mpr hs))
  · intro t e hlast hk
    obtain ⟨x, hx, hxk, _⟩ := h3 (t, e) (envelopeKey e) ((hlive t e hk).mpr hlast)
    exact ⟨x.entry, List.mem_map_of_mem _ hx, ((counterKey_eq_envelopeKey_iff _ _).mp hxk).2⟩
  · intro hfresh a ha hk
    have hkey : counterOpKey a = some (envelopeKey a.2) :=
      (counterOpKey_iff a _).mpr ⟨rfl, (counterOpKey_ne_none a).mpr hk⟩
    obtain ⟨b, hb⟩ := exists_lastLiveOp_of_fresh counterOpKey metricsExpiration ops hfresh a ha
      (envelopeKey a.2) hkey
    obtain ⟨x, hx, hxk, _⟩ := h3 b (envelopeKey a.2) hb
    exact ⟨x.entry, List.mem_map_of_mem _ hx, ((counterKey_eq_envelopeKey_iff _ _).mp hxk).2⟩
  · intro x hx
    obtain ⟨a, ha, hpay, hs⟩ := h2 x hx
    have hak : counterOpKey a = some (counterKey x.entry) := by
      obtain ⟨_, _, _, h, _⟩ := ha
      exact h
    have hek : envelopeKey a.2 = counterKey x.entry := ((counterOpKey_iff a _).mp hak).1
    have hkind : a.2.kind = .counter :=
      (counterOpKey_ne_none a).mp ((counterOpKey_iff a _).mp hak).2
    have hser := ((counterKey_eq_envelopeKey_iff x.entry a.2).mp hek.symm).2
    rw [← hek] at ha
    have hlast := (hlive a.1 a.2 hkind).mp ha
    unfold payloadDeltaTotal at hpay
    unfold Envelope.kind at hkind
    cases hp : a.2.payload with
    | counter name delta total =>
      rw [hp] at hpay
      simp only [Prod.mk.injEq] at hpay
      exact ⟨a.1, a.2, name, hlast, hser, by rw [hp, hpay.1, hpay.2], hs⟩
    | value name value unit => rw [hp] at hkind; simp at hkind
    | other => rw [hp] at hkind; simp at hkind

theorem storeAfter_entries (metricsExpiration : Nat) (deploymentFilter : List GoString)
    (eventFilter : List EventKind) (ops : List StoreOp)
    (hacc : ∀ a ∈ addsOf ops,
      accepted (NewStore metricsExpiration deploymentFilter eventFilter) a.2) :
    (storeAfter metricsExpiration deploymentFilter eventFilter ops).valueMetrics
      = ops.foldl (stepEntries (fun x => valueKey x.entry) (fun x => x.lastUpdate) valueOpKey
          valueFreshOf valueUpdateOf (isExpired metricsExpiration)) [] ∧
    (storeAfter metricsExpiration deploymentFilter eventFilter ops).counterEvents
      = ops.foldl (stepEntries (fun x => counterKey x.entry) (fun x => x.lastUpdate)
          counterOpKey counterFreshOf counterUpdateOf (isExpired metricsExpiration)) [] :=
  runOps_entries ops (NewStore metricsExpiration deploymentFilter eventFilter) hacc

/-- C14: for every sequence of `AddMetric` calls and expiration sweeps on a new
store, the envelopes of the calls accepted by both filters.  The composite key
of an envelope or entry identifies its kind and its series: two keys are equal
exactly when the kinds, origins, metric names, deployments, jobs and indexes
are equal and the tags are the same in any order.  The snapshots
`GetValueMetrics` and `GetCounterMetrics` then hold exactly one entry per
distinct composite key: no two entries of a snapshot have the same series;
every series whose last add no later sweep found expired has an entry, and
where no sweep finds an add expired (no sweep at all, an expiration duration
of zero, or every add young enough), every added value or counter envelope has
an entry of its series; and every stored entry has the series of an added
envelope of its kind that is the last one added for that series and that no
later sweep found expired, and carries the value and unit, or the delta and
total, of that envelope, and the time of that add as its last update. -/
theorem store_last_write_wins (metricsExpiration : Nat) (deploymentFilter : List GoString)
    (eventFilter : List EventKind) (ops : List StoreOp)
    (hacc : ∀ a ∈ addsOf ops,
      accepted (NewStore metricsExpiration deploymentFilter eventFilter) a.2) :
    (∀ e1 e2 : Envelope, envelopeKey e1 = envelopeKey e2 ↔
      e1.kind = e2.kind ∧ sameSeries (envelopeSeries e1) (envelopeSeries e2)) ∧
    (∀ (vm : ValueMetric) (e : Envelope), valueKey vm = envelopeKey e ↔
      e.kind = .value ∧ sameSeries (valueSeries vm) (envelopeSeries e)) ∧
    (∀ (ce : CounterEvent) (e : Envelope), counterKey ce = envelopeKey e ↔
      e.kind = .counter ∧ sameSeries (counterSeries ce) (envelopeSeries e)) ∧
    (GetValueMetrics (storeAfter metricsExpiration deploymentFilter eventFilter ops)).Pairwise
      (fun a b => ¬ sameSeries (valueSeries a) (valueSeries b)) ∧
    (GetCounterMetrics (storeAfter metricsExpiration deploymentFilter eventFilter ops)).Pairwise
      (fun a b => ¬ sameSeries (counterSeries a) (counterSeries b)) ∧
    (∀ t e, lastLiveAdd metricsExpiration ops t e → e.kind = .value →
      ∃ vm ∈ GetValueMetrics (storeAfter metricsExpiration deploymentFilter eventFilter ops),
        sameSeries (valueSeries vm) (envelopeSeries e)) ∧
    (∀ t e, lastLiveAdd metricsExpiration ops t e → e.kind = .counter →
      ∃ ce ∈ GetCounterMetrics (storeAfter metricsExpiration deploymentFilter eventFilter ops),
        sameSeries (counterSeries ce) (envelopeSeries e)) ∧
    ((∀ now ∈ sweepsOf ops, ∀ a ∈ addsOf ops, isExpired metricsExpiration now a.1 = false) →
      (∀ a ∈ addsOf ops, a.2.kind = .value →
        ∃ vm ∈ GetValueMetrics (storeAfter metricsExpiration deploymentFilter eventFilter ops),
          sameSeries (valueSeries vm) (envelopeSeries a.2)) ∧
      (∀ a ∈ addsOf ops, a.2.kind = .counter →
        ∃ ce ∈ GetCounterMetrics (storeAfter metricsExpiration deploymentFilter eventFilter ops),
          sameSeries (counterSeries ce) (envelopeSeries a.2))) ∧
    (∀ x ∈ (storeAfter metricsExpiration deploymentFilter eventFilter ops).valueMetrics,
      ∃ t e name, lastLiveAdd metricsExpiration ops t e ∧
        sameSeries (valueSeries x.entry) (envelopeSeries e) ∧
        e.payload = .value name x.entry.Value x.entry.Unit ∧ x.lastUpdate = t) ∧
    (∀ x ∈ (storeAfter metricsExpiration deploymentFilter eventFilter ops).counterEvents,
      ∃ t e name, lastLiveAdd metricsExpiration ops t e ∧
        sameSeries (counterSeries x.entry) (envelopeSeries e) ∧
        e.payload = .counter name x.entry.Delta x.entry.Total ∧ x.lastUpdate = t) := by
  obtain ⟨hv, hc⟩ := storeAfter_entries metricsExpiration deploymentFilter eventFilter ops hacc
  obtain ⟨v1, v2, v3, v4⟩ := valueMetrics_spec metricsExpiration ops _ hv
  obtain ⟨c1, c2, c3, c4⟩ := counterEvents_spec metricsExpiration ops _ hc
  exact ⟨envelopeKey_eq_iff, valueKey_eq_envelopeKey_iff, counterKey_eq_envelopeKey_iff,
    v1, c1, v2, c2, fun hfresh => ⟨v3 hfresh, c3 hfresh⟩, v4, c4⟩

/-- C14 (witness): with an expiration duration of 10, two value envelopes with
the same two tags in different orders and differing values, a counter envelope
between them, a value envelope with one tag, and a sweep at the time 13.  The
two orders are one series and leave one value entry, with the value and unit
of the later envelope and the time 3; the envelope with one tag is another
series and has its own entry; the counter entry, last updated at the time 2,
has expired. -/
theorem store_last_write_wins_witness :
    (∀ a ∈ addsOf testOps, accepted (NewStore 10 [] []) a.2) ∧
    testEnvelopeTwoTags.Tags ≠ testEnvelopeTwoTagsLater.Tags ∧
    sameSeries (envelopeSeries testEnvelopeTwoTags) (envelopeSeries testEnvelopeTwoTagsLater) ∧
    ¬ sameSeries (envelopeSeries testEnvelope1) (envelopeSeries testEnvelopeTwoTags) ∧
    (storeAfter 10 [] [] testOps).valueMetrics.map
        (fun x => (x.entry.Tags.length, x.entry.Value, x.entry.Unit, x.lastUpdate))
      = [(2, 0x402E000000000000, str "mb", 3), (1, 0x409F400000000000, str "kb", 4)] ∧
    GetCounterMetrics (storeAfter 10 [] [] testOps) = [] ∧
    (GetCounterMetrics (storeAfter 10 [] [] (testOps.take 4))).map
        (fun ce => (ce.Delta, ce.Total)) = [(5, 1000)] ∧
    (GetValueMetrics (storeAfter 10 [] [] testOps)).Pairwise
      (fun a b => ¬ sameSeries (valueSeries a) (valueSeries b)) ∧
    (∀ x ∈ (storeAfter 10 [] [] testOps).valueMetrics,
      ∃ t e name, lastLiveAdd 10 testOps t e ∧
        sameSeries (valueSeries x.entry) (envelopeSeries e) ∧
        e.payload = .value name x.entry.Value x.entry.Unit ∧ x.lastUpdate = t) :=
  ⟨by decide, by decide,
   ((envelopeKey_eq_iff testEnvelopeTwoTags testEnvelopeTwoTagsLater).mp (by decide)).2,
   fun h => absurd ((envelopeKey_eq_iff testEnvelope1 testEnvelopeTwoTags).mpr ⟨rfl, h⟩)
     (by decide),
   by decide, by decide, by decide,
   (store_last_write_wins 10 [] [] testOps (by decide)).2.2.2.1,
   (store_last_write_wins 10 [] [] testOps (by decide)).2.2.2.2.2.2.2.2.1⟩

/-- C15: `FlushCounterEvents` leaves no counter entry and leaves the value
entries, the filters and the diagnostics as they are; `FlushValueMetrics`
leaves no value entry and leaves the counter entries, the filters and the
diagnostics as they are; after a flush the collector of that kind sends no
metric. -/
theorem flush_kind_scoped {M : Type} (U : UnicodeTables)
    (NewConstMetric : Desc → Nat → List GoString → Option M) (c : ValueMetricsCollector)
    (totalMetric deltaMetric : CounterEvent → Option M) (s : Store) :
    GetCounterMetrics (FlushCounterEvents s) = [] ∧
    (FlushCounterEvents s).valueMetrics = s.valueMetrics ∧
    GetValueMetrics (FlushCounterEvents s) = GetValueMetrics s ∧
    GetValueMetrics (FlushValueMetrics s) = [] ∧
    (FlushValueMetrics s).counterEvents = s.counterEvents ∧
    GetCounterMetrics (FlushValueMetrics s) = GetCounterMetrics s ∧
    GetInternalMetrics (FlushCounterEvents s) = GetInternalMetrics s ∧
    GetInternalMetrics (FlushValueMetrics s) = GetInternalMetrics s ∧
    Collect U NewConstMetric c (GetValueMetrics (FlushValueMetrics s)) [] = [] ∧
    CounterCollect totalMetric deltaMetric (GetCounterMetrics (FlushCounterEvents s)) [] = [] :=
  ⟨rfl, rfl, rfl, rfl, rfl, rfl, rfl, rfl, rfl, rfl⟩

/-! ## The nozzle: backoff -/

theorem runBackoff_concat (cfg : RetryConfig) (st : BackoffState)
    (pre : List ConnectionOutcome) (o : ConnectionOutcome) :
    runBackoff cfg st (pre ++ [o]) = nextBackoff cfg (runBackoff cfg st pre) o := by
  unfold runBackoff
  rw [List.foldl_append]
  rfl

theorem runBackoff_bounds (cfg : RetryConfig) (h : cfg.minRetryDelay ≤ cfg.maxRetryDelay)
    (pre : List ConnectionOutcome) :
    cfg.minRetryDelay ≤ (runBackoff cfg (initialBackoff cfg) pre).backoffDelay ∧
    (runBackoff cfg (initialBackoff cfg) pre).backoffDelay ≤ cfg.maxRetryDelay := by
  induction pre using List.reverseRecOn with
  | nil => exact ⟨Nat.le_refl _, h⟩
  | append_singleton pre o ih =>
    rw [runBackoff_concat]
    cases o with
    | failure =>
      simp only [nextBackoff]
      omega
    | streamed => exact ⟨Nat.le_refl _, h⟩

theorem backoffDelays_failures (cfg : RetryConfig) (n : Nat) :
    ∀ st : BackoffState, st.backoffDelay ≤ cfg.maxRetryDelay →
      backoffDelays cfg st (List.replicate n .failure)
        = (List.range n).map (fun k => min (st.backoffDelay * 2 ^ k) cfg.maxRetryDelay) := by
  induction n with
  | zero => intro st _; rfl
  | succ n ih =>
    intro st hst
    rw [List.replicate_succ, List.range_succ_eq_map, List.map_cons, List.map_map]
    simp only [backoffDelays]
    rw [ih (nextBackoff cfg st .failure) (by simp only [nextBackoff]; omega)]
    congr 1
    · simp only [pow_zero, Nat.mul_one]
      omega
    · apply List.map_congr_left
      intro k _
      simp only [nextBackoff, Function.comp_apply]
      have hpow : 1 ≤ 2 ^ k := Nat.one_le_two_pow
      have e : st.backoffDelay * 2 ^ (k + 1) = 2 * st.backoffDelay * 2 ^ k := by
        rw [pow_succ]; ring
      rw [e]
      by_cases h2 : 2 * st.backoffDelay ≤ cfg.maxRetryDelay
      · rw [Nat.min_eq_left h2]
      · have h3 : cfg.maxRetryDelay ≤ 2 * st.backoffDelay := by omega
        rw [Nat.min_eq_right h3]
        have h4 : cfg.maxRetryDelay ≤ cfg.maxRetryDelay * 2 ^ k :=
          Nat.le_mul_of_pos_right _ hpow
        have h5 : cfg.maxRetryDelay ≤ 2 * st.backoffDelay * 2 ^ k :=
          Nat.le_trans h3 (Nat.le_mul_of_pos_right _ hpow)
        rw [Nat.min_eq_right h4, Nat.min_eq_right h5]

/-- C16: for every minimum and maximum delay with minimum <= maximum and
every sequence of connection outcomes: the backoff delay always lies between
the minimum and the maximum; it is the minimum at the start and after every
successful streaming period; each further failure doubles it, capped at the
maximum, so it never decreases over consecutive failures; the delays of `n`
consecutive failures after a start or a successful streaming period are
`min(minimum * 2^k, maximum)` for `k < n`. -/
theorem backoff_sequence (cfg : RetryConfig) (h : cfg.minRetryDelay ≤ cfg.maxRetryDelay) :
    (initialBackoff cfg).backoffDelay = cfg.minRetryDelay ∧
    (∀ pre : List ConnectionOutcome,
      cfg.minRetryDelay ≤ (runBackoff cfg (initialBackoff cfg) pre).backoffDelay ∧
      (runBackoff cfg (initialBackoff cfg) pre).backoffDelay ≤ cfg.maxRetryDelay ∧
      (runBackoff cfg (initialBackoff cfg) (pre ++ [.failure])).backoffDelay
        = min (2 * (runBackoff cfg (initialBackoff cfg) pre).backoffDelay) cfg.maxRetryDelay ∧
      (runBackoff cfg (initialBackoff cfg) pre).backoffDelay
        ≤ (runBackoff cfg (initialBackoff cfg) (pre ++ [.failure])).backoffDelay ∧
      (runBackoff cfg (initialBackoff cfg) (pre ++ [.streamed])).backoffDelay
        = cfg.minRetryDelay ∧
      (runBackoff cfg (initialBackoff cfg) (pre ++ [.streamed])).retryAttempt = 0) ∧
    (∀ outcomes : List ConnectionOutcome,
      ∀ d ∈ backoffDelays cfg (initialBackoff cfg) outcomes,
        cfg.minRetryDelay ≤ d ∧ d ≤ cfg.maxRetryDelay) ∧
    (∀ (pre : List ConnectionOutcome) (n : Nat),
      backoffDelays cfg (runBackoff cfg (initialBackoff cfg) (pre ++ [.streamed]))
          (List.replicate n .failure)
        = (List.range n).map (fun k => min (cfg.minRetryDelay * 2 ^ k) cfg.maxRetryDelay)) ∧
    (∀ n : Nat,
      backoffDelays cfg (initialBackoff cfg) (List.replicate n .failure)
        = (List.range n).map (fun k => min (cfg.minRetryDelay * 2 ^ k) cfg.maxRetryDelay)) ∧
    (∀ n : Nat, List.Chain' (fun a b => a ≤ b)
      (backoffDelays cfg (initialBackoff cfg) (List.replicate n .failure))) := by
  refine ⟨rfl, fun pre => ?_, ?_, fun pre n => ?_, fun n => ?_, fun n => ?_⟩
  · have hb := runBackoff_bounds cfg h pre
    refine ⟨hb.1, hb.2, ?_, ?_, ?_, ?_⟩
    · rw [runBackoff_concat]; rfl
    · rw [runBackoff_concat]
      simp only [nextBackoff]
      omega
    · rw [runBackoff_concat]; rfl
    · rw [runBackoff_concat]; rfl
  · have key : ∀ (outcomes : List ConnectionOutcome) (st : BackoffState),
        cfg.minRetryDelay ≤ st.backoffDelay → st.backoffDelay ≤ cfg.maxRetryDelay →
        ∀ d ∈ backoffDelays cfg st outcomes, cfg.minRetryDelay ≤ d ∧ d ≤ cfg.maxRetryDelay := by
      intro outcomes
      induction outcomes with
      | nil => intro st _ _ d hd; simp [backoffDelays] at hd
      | cons o rest ih =>
        intro st h1 h2 d hd
        cases o with
        | failure =>
          simp only [backoffDelays, List.mem_cons] at hd
          rcases hd with hd | hd
          · rw [hd]; exact ⟨h1, h2⟩
          · exact ih (nextBackoff cfg st .failure) (by simp only [nextBackoff]; omega)
              (by simp only [nextBackoff]; omega) d hd
        | streamed =>
          simp only [backoffDelays] at hd
          exact ih (nextBackoff cfg st .streamed) (Nat.le_refl _) h d hd
    exact fun outcomes => key outcomes (initialBackoff cfg) (Nat.le_refl _) h
  · rw [runBackoff_concat]
    exact backoffDelays_failures cfg n (initialBackoff cfg) h
  · exact backoffDelays_failures cfg n (initialBackoff cfg) h
  · rw [backoffDelays_failures cfg n (initialBackoff cfg) h]
    have hmono : ∀ k, min ((initialBackoff cfg).backoffDelay * 2 ^ k) cfg.maxRetryDelay
        ≤ min ((initialBackoff cfg).backoffDelay * 2 ^ (k + 1)) cfg.maxRetryDelay := by
      intro k
      have : (initialBackoff cfg).backoffDelay * 2 ^ k
          ≤ (initialBackoff cfg).backoffDelay * 2 ^ (k + 1) :=
        Nat.mul_le_mul_left _ (Nat.pow_le_pow_right (by decide) (Nat.le_succ k))
      omega
    induction n with
    | zero => exact List.chain'_nil
    | succ m ihm =>
      rw [List.range_succ, List.map_append]
      refine List.Chain'.append ihm (List.chain'_singleton _) ?_
      intro x hx y hy
      simp only [List.map_cons, List.map_nil, List.head?_cons, Option.mem_def,
        Option.some.injEq] at hy
      cases m with
      | zero => simp at hx
      | succ j =>
        rw [List.range_succ, List.map_append, List.map_cons, List.map_nil,
          List.getLast?_append_of_ne_nil _ (by simp)] at hx
        simp only [List.getLast?_singleton, Option.mem_def, Option.some.injEq] at hx
        rw [← hx, ← hy]
        exact hmono j

/-- C16 (witness): with a minimum of 1000 and a maximum of 60000, eight
consecutive failures wait 1000, 2000, 4000, 8000, 16000, 32000, 60000, 60000,
and the failure after a successful streaming period waits 1000 again. -/
theorem backoff_sequence_witness :
    testRetryConfig.minRetryDelay ≤ testRetryConfig.maxRetryDelay ∧
    backoffDelays testRetryConfig (initialBackoff testRetryConfig)
        (List.replicate 8 .failure ++ [.streamed, .failure])
      = [1000, 2000, 4000, 8000, 16000, 32000, 60000, 60000, 1000] ∧
    ∀ d ∈ backoffDelays testRetryConfig (initialBackoff testRetryConfig)
        (List.replicate 8 .failure ++ [.streamed, .failure]),
      testRetryConfig.minRetryDelay ≤ d ∧ d ≤ testRetryConfig.maxRetryDelay :=
  ⟨by decide, by decide,
   (backoff_sequence testRetryConfig (by decide)).2.2.1
     (List.replicate 8 .failure ++ [.streamed, .failure])⟩

/-! ## The nozzle: the slow-consumer alert -/

theorem AddMetric_alert (s : Store) (now : Nat) (e : Envelope) :
    (AddMetric s now e).internalMetrics.SlowConsumerAlert
      = s.internalMetrics.SlowConsumerAlert := by
  unfold AddMetric
  simp only
  split_ifs
  · rfl
  · rfl
  · cases e.payload <;> rfl

theorem handleEvent_alert (s : Store) (ev : NozzleEvent) :
    (handleEvent s ev).internalMetrics.SlowConsumerAlert
      = (s.internalMetrics.SlowConsumerAlert || isBackpressureSignal ev) := by
  cases ev with
  | envelope now e =>
    simp only [handleEvent, isBackpressureSignal]
    by_cases h : isDroppedMessages e = true
    · rw [if_pos h, h]; simp [AlertSlowConsumerError]
    · rw [if_neg h, AddMetric_alert]
      simp [h]
  | closed code =>
    simp only [handleEvent, isBackpressureSignal]
    by_cases h : code = ClosePolicyViolation
    · rw [if_pos h]; simp [AlertSlowConsumerError, h]
    · rw [if_neg h]; simp [h]
  | idleTimeout => simp [handleEvent, isBackpressureSignal]
  | connectFailed => simp [handleEvent, isBackpressureSignal]

theorem foldl_handleEvent_alert (events : List NozzleEvent) :
    ∀ s : Store, (events.foldl handleEvent s).internalMetrics.SlowConsumerAlert
      = (s.internalMetrics.SlowConsumerAlert || events.any isBackpressureSignal) := by
  induction events with
  | nil => intro s; simp
  | cons ev rest ih =>
    intro s
    rw [List.foldl_cons, ih, handleEvent_alert, List.any_cons, Bool.or_assoc]

/-- C17: after any sequence of events the slow-consumer alert is set exactly
when it was set before or one of the events is a closure with the
policy-violation code or a counter envelope named
`TruncatingBuffer.DroppedMessages`; a closure with any other code (the
invalid-frame-payload code for one), an idle timeout, a failed connect and any
other envelope do not set it; once set it stays set under every later event,
every `AddMetric` and both flushes. -/
theorem slow_consumer_alert (s : Store) :
    (∀ events : List NozzleEvent,
      (GetInternalMetrics (events.foldl handleEvent s)).SlowConsumerAlert
        = ((GetInternalMetrics s).SlowConsumerAlert || events.any isBackpressureSignal)) ∧
    (GetInternalMetrics (handleEvent s (.closed ClosePolicyViolation))).SlowConsumerAlert
      = true ∧
    (∀ (now : Nat) (e : Envelope) (name : GoString) (delta total : Nat),
      e.payload = .counter name delta total → name = str "TruncatingBuffer.DroppedMessages" →
      (GetInternalMetrics (handleEvent s (.envelope now e))).SlowConsumerAlert = true) ∧
    (∀ code : Nat, code ≠ ClosePolicyViolation →
      (GetInternalMetrics (handleEvent s (.closed code))).SlowConsumerAlert
        = (GetInternalMetrics s).SlowConsumerAlert) ∧
    (GetInternalMetrics (handleEvent s (.closed CloseInvalidFramePayloadData))).SlowConsumerAlert
      = (GetInternalMetrics s).SlowConsumerAlert ∧
    (∀ ev : NozzleEvent, isBackpressureSignal ev = false →
      (GetInternalMetrics (handleEvent s ev)).SlowConsumerAlert
        = (GetInternalMetrics s).SlowConsumerAlert) ∧
    ((GetInternalMetrics s).SlowConsumerAlert = true →
      (∀ events : List NozzleEvent,
        (GetInternalMetrics (events.foldl handleEvent s)).SlowConsumerAlert = true) ∧
      (∀ (now : Nat) (e : Envelope),
        (GetInternalMetrics (AddMetric s now e)).SlowConsumerAlert = true) ∧
      (GetInternalMetrics (FlushCounterEvents s)).SlowConsumerAlert = true ∧
      (GetInternalMetrics (FlushValueMetrics s)).SlowConsumerAlert = true) := by
  unfold GetInternalMetrics
  refine ⟨fun events => foldl_handleEvent_alert events s, ?_, ?_, ?_, ?_, ?_, ?_⟩
  · rw [handleEvent_alert]; simp [isBackpressureSignal]
  · intro now e name delta total hp hn
    rw [handleEvent_alert]
    have : isDroppedMessages e = true := by
      unfold isDroppedMessages
      rw [hp, hn]
      exact decide_eq_true rfl
    simp [isBackpressureSignal, this]
  · intro code hc
    rw [handleEvent_alert]
    simp [isBackpressureSignal, hc]
  · rw [handleEvent_alert]
    have : isBackpressureSignal (.closed CloseInvalidFramePayloadData) = false := by decide
    rw [this]; simp
  · intro ev hev
    rw [handleEvent_alert, hev]; simp
  · intro hs
    refine ⟨fun events => ?_, fun now e => ?_, hs, hs⟩
    · rw [foldl_handleEvent_alert, hs]; rfl
    · rw [AddMetric_alert]; exact hs

/-- C17 (witness): from a new store, the dropped-messages counter envelope of
the test sets the alert, a closure with the policy-violation code sets it, a
closure with the invalid-frame-payload code does not, and after the alert is
set later events leave it set. -/
theorem slow_consumer_alert_witness :
    (GetInternalMetrics (NewStore 0 [] [])).SlowConsumerAlert = false ∧
    (GetInternalMetrics (handleEvent (NewStore 0 [] []) (.envelope 1 slowConsumerError))).SlowConsumerAlert
      = true ∧
    (GetInternalMetrics (handleEvent (NewStore 0 [] []) (.closed 1008))).SlowConsumerAlert = true ∧
    (GetInternalMetrics (handleEvent (NewStore 0 [] []) (.closed 1007))).SlowConsumerAlert = false ∧
    (GetInternalMetrics ([.envelope 1 testEnvelope1, .closed 1008, .idleTimeout,
        .envelope 2 testEnvelope1Later, .closed 1007].foldl handleEvent
          (NewStore 0 [] []))).SlowConsumerAlert = true :=
  ⟨by decide, by decide, by decide, by decide,
   ((slow_consumer_alert (NewStore 0 [] [])).1 _).trans (by decide)⟩

/-! ## The label lists: collisions and the order of the tags -/

theorem collectLabels_latin1 (U V : UnicodeTables) (vm : ValueMetric)
    (h : ∀ kv ∈ vm.Tags, IsLatin1 kv.1) : collectLabels U vm = collectLabels V vm := by
  have hmap : (keptTags vm).map (fun kv => NormalizeName U kv.1)
      = (keptTags vm).map (fun kv => NormalizeName V kv.1) := by
    apply List.map_congr_left
    intro kv hkv
    unfold keptTags at hkv
    exact NormalizeName_latin1 U V kv.1 (h kv (List.mem_filter.mp hkv).1)
  rw [collectLabels_eq, collectLabels_eq, hmap]

/-- C21: the special case of the `unit` tag does not remove every collision
between a tag and a fixed label: the entry whose only tag has the key `origin`,
and the entry with a non-empty payload unit and a tag `unit`, have pairwise
distinct tag keys and a label-name list that contains a name twice (`origin`,
respectively `unit`). -/
theorem collectLabels_collision_remains (U : UnicodeTables) :
    ((originTagMetric.Tags.map Prod.fst).Nodup ∧
      (collectLabels U originTagMetric).1.count (str "origin") = 2 ∧
      ¬ (collectLabels U originTagMetric).1.Nodup) ∧
    ((unitPayloadAndTag.Tags.map Prod.fst).Nodup ∧ unitPayloadAndTag.Unit ≠ [] ∧
      (collectLabels U unitPayloadAndTag).1.count (str "unit") = 2 ∧
      ¬ (collectLabels U unitPayloadAndTag).1.Nodup) ∧
    (∃ vm : ValueMetric, (vm.Tags.map Prod.fst).Nodup ∧ ¬ (collectLabels U vm).1.Nodup) := by
  have h1 : collectLabels U originTagMetric = collectLabels latin1Tables originTagMetric :=
    collectLabels_latin1 U latin1Tables originTagMetric (by decide)
  have h2 : collectLabels U unitPayloadAndTag = collectLabels latin1Tables unitPayloadAndTag :=
    collectLabels_latin1 U latin1Tables unitPayloadAndTag (by decide)
  rw [h1, h2]
  refine ⟨by decide, by decide, originTagMetric, by decide, ?_⟩
  rw [h1]
  decide

theorem unitLabelValue_of_absorbed (unit : GoString) (tags : List (GoString × GoString))
    (p : GoString × GoString → Bool) (hp : ∀ kv, p kv = true → kv.1 = str "unit")
    (hnd : (tags.map Prod.fst).Nodup) (kv0 : GoString × GoString) (h0 : kv0 ∈ tags)
    (hp0 : p kv0 = true) :
    tags.foldl (fun u kv => if p kv then kv.2 else u) unit = kv0.2 := by
  apply foldl_absorbed_eq p kv0.2 tags
  · intro kv hkv hpk
    have e1 : kv.1 = str "unit" := hp kv hpk
    have e0 : kv0.1 = str "unit" := hp kv0 hp0
    have m1 : (str "unit", kv.2) ∈ tags := by rw [← e1]; exact hkv
    have m0 : (str "unit", kv0.2) ∈ tags := by rw [← e0]; exact h0
    exact value_eq_of_nodup_keys hnd m0 m1
  · exact Or.inr ⟨kv0, h0, hp0⟩

/-- C24: for every value metric with pairwise distinct tag keys and every
other order of its tags, the two runs of the loop build the same six leading
label names and the same six leading label values (the unit value among them),
and trailing (label name, label value) pairs that are permutations of one
another. -/
theorem collectLabels_tag_order (U : UnicodeTables) (vm : ValueMetric)
    (tags2 : List (GoString × GoString)) (hperm : vm.Tags.Perm tags2)
    (hkeys : (vm.Tags.map Prod.fst).Nodup) :
    (collectLabels U { vm with Tags := tags2 }).1.take 6 = (collectLabels U vm).1.take 6 ∧
    (collectLabels U { vm with Tags := tags2 }).2.take 6 = (collectLabels U vm).2.take 6 ∧
    (collectLabels U { vm with Tags := tags2 }).2[5]? = (collectLabels U vm).2[5]? ∧
    (((collectLabels U { vm with Tags := tags2 }).1.drop 6).zip
        ((collectLabels U { vm with Tags := tags2 }).2.drop 6)).Perm
      (((collectLabels U vm).1.drop 6).zip ((collectLabels U vm).2.drop 6)) := by
  have hkeys2 : (tags2.map Prod.fst).Nodup := (hperm.map Prod.fst).nodup_iff.mp hkeys
  have hp : ∀ kv, absorbed vm kv = true → kv.1 = str "unit" := by
    intro kv h
    unfold absorbed at h
    exact (of_decide_eq_true h).1
  have hunit : unitLabelValue { vm with Tags := tags2 } = unitLabelValue vm := by
    show tags2.foldl (fun u kv => if absorbed vm kv then kv.2 else u) vm.Unit
      = vm.Tags.foldl (fun u kv => if absorbed vm kv then kv.2 else u) vm.Unit
    by_cases hex : ∃ kv ∈ vm.Tags, absorbed vm kv = true
    · obtain ⟨kv0, h0, hp0⟩ := hex
      rw [unitLabelValue_of_absorbed vm.Unit vm.Tags (absorbed vm) hp hkeys kv0 h0 hp0,
        unitLabelValue_of_absorbed vm.Unit tags2 (absorbed vm) hp hkeys2 kv0
          (hperm.mem_iff.mp h0) hp0]
    · have hnone : ∀ kv ∈ vm.Tags, absorbed vm kv = false := by
        intro kv hkv
        rw [Bool.eq_false_iff]
        exact fun hc => hex ⟨kv, hkv, hc⟩
      rw [foldl_absorbed_none (absorbed vm) vm.Tags hnone,
        foldl_absorbed_none (absorbed vm) tags2
          (fun kv hkv => hnone kv (hperm.mem_iff.mpr hkv))]
  have hkept : (keptTags { vm with Tags := tags2 }).Perm (keptTags vm) := by
    show (tags2.filter (fun kv => !absorbed vm kv)).Perm
      (vm.Tags.filter (fun kv => !absorbed vm kv))
    exact (hperm.filter _).symm
  have hd1 : ∀ x : ValueMetric, (collectLabels U x).1.drop 6
      = (keptTags x).map (fun kv => NormalizeName U kv.1) := by
    intro x; rw [collectLabels_eq]; exact List.drop_left' rfl
  have hd2 : ∀ x : ValueMetric, (collectLabels U x).2.drop 6 = (keptTags x).map Prod.snd := by
    intro x; rw [collectLabels_eq]; exact List.drop_left' rfl
  have ht1 : ∀ x : ValueMetric, (collectLabels U x).1.take 6 = constLabels0 := by
    intro x; rw [collectLabels_eq]; exact List.take_left' rfl
  have ht2 : ∀ x : ValueMetric, (collectLabels U x).2.take 6
      = [x.Origin, x.Deployment, x.Job, x.Index, x.IP, unitLabelValue x] := by
    intro x; rw [collectLabels_eq]; exact List.take_left' rfl
  have h5 : ∀ x : ValueMetric, (collectLabels U x).2[5]? = some (unitLabelValue x) := by
    intro x; rw [collectLabels_eq]; simp
  refine ⟨?_, ?_, ?_, ?_⟩
  · rw [ht1, ht1]
  · rw [ht2, ht2, hunit]
  · rw [h5, h5, hunit]
  · rw [hd1, hd2, hd1, hd2, List.zip_map', List.zip_map']
    exact hkept.map _

/-- C24 (witness): the entry with an empty payload unit and the tags `tag1`,
`unit`, `zone`, and the same tags in the order `unit`, `zone`, `tag1`: both
runs give the unit value `ms`. -/
theorem collectLabels_tag_order_witness :
    unitTagOnly.Tags.Perm unitTagOnlyReordered ∧ (unitTagOnly.Tags.map Prod.fst).Nodup ∧
    (collectLabels latin1Tables { unitTagOnly with Tags := unitTagOnlyReordered }).2[5]?
      = some (str "ms") ∧
    (collectLabels latin1Tables { unitTagOnly with Tags := unitTagOnlyReordered }).2[5]?
      = (collectLabels latin1Tables unitTagOnly).2[5]? :=
  have hperm : unitTagOnly.Tags.Perm unitTagOnlyReordered := by decide
  ⟨hperm, by decide, by decide,
   (collectLabels_tag_order latin1Tables unitTagOnly unitTagOnlyReordered hperm
      (by decide)).2.2.1⟩

/-! ## Lemmas: `Split` keeps the text -/

theorem runeClass_ne_zero (U : UnicodeTables) (r : Nat) : runeClass U r ≠ 0 := by
  unfold runeClass
  split_ifs <;> decide

theorem splitStep_flatten (U : UnicodeTables) (st : List (List Nat) × Nat) (r : Nat)
    (h : st.1 = [] → st.2 = 0) :
    (splitStep U st r).1.flatten = st.1.flatten ++ [r] ∧ (splitStep U st r).1 ≠ [] := by
  unfold splitStep
  simp only
  split
  · rename_i hc
    rcases List.eq_nil_or_concat st.1 with hnil | ⟨init, w, hw⟩
    · exact absurd (hc.trans (h hnil)) (runeClass_ne_zero U r)
    · rw [List.concat_eq_append] at hw
      rw [hw, appendToLast_concat]
      simp
  · simp

theorem foldl_splitStep_flatten (U : UnicodeTables) (src : GoString) :
    ∀ st : List (List Nat) × Nat, (st.1 = [] → st.2 = 0) →
      (src.foldl (splitStep U) st).1.flatten = st.1.flatten ++ src := by
  induction src with
  | nil => intro st _; simp
  | cons r rest ih =>
    intro st h
    have hs := splitStep_flatten U st r h
    rw [List.foldl_cons, ih (splitStep U st r) (fun hc => absurd hc hs.2), hs.1]
    simp

theorem splitFields_flatten (U : UnicodeTables) (src : GoString) :
    (splitFields U src).flatten = src := by
  unfold splitFields
  rw [foldl_splitStep_flatten U src ([], 0) (fun _ => rfl)]
  rfl

theorem dropLast_append_getLastD {w : List Nat} (h : w ≠ []) :
    w.dropLast ++ [w.getLastD 0] = w := by
  rw [List.getLastD_eq_getLast?, List.getLast?_eq_getLast w h]
  exact List.dropLast_append_getLast h

theorem fixFrom_flatten (U : UnicodeTables) (rest : List (List Nat)) :
    ∀ cur : List Nat, (fixFrom U cur rest).flatten = cur ++ rest.flatten := by
  induction rest with
  | nil => intro cur; simp [fixFrom]
  | cons w2 rest ih =>
    intro cur
    unfold fixFrom
    split
    · rename_i hcond
      rw [Bool.and_eq_true] at hcond
      have hne := ne_nil_of_IsUpper_headD U hcond.1
      rw [List.flatten_cons, ih, List.flatten_cons]
      conv_rhs => rw [← dropLast_append_getLastD hne]
      simp
    · rw [List.flatten_cons, ih, List.flatten_cons]

theorem flatten_filter_nonempty (L : List (List Nat)) :
    (L.filter (fun s => decide (0 < s.length))).flatten = L.flatten := by
  induction L with
  | nil => rfl
  | cons w t ih =>
    cases w with
    | nil => simpa [List.filter_cons] using ih
    | cons a l => simp [List.filter_cons, ih]

theorem Split_flatten (U : UnicodeTables) (src : GoString) : (Split U src).flatten = src := by
  unfold Split
  rw [flatten_filter_nonempty]
  have h := splitFields_flatten U src
  cases hf : splitFields U src with
  | nil => rw [hf] at h; rw [← h]; rfl
  | cons a t =>
    rw [hf] at h
    simp only [fixUpperLower]
    rw [fixFrom_flatten, ← h]
    rfl

/-! ## Lemmas: the letters and digits of the result -/

theorem ToLower_eq_asciiLower (U : UnicodeTables) {r : Nat} (h : isAlnumASCII r = true) :
    ToLower U r = asciiLower r := by
  simp only [isAlnumASCII, asciiLower, ToLower, MaxASCII, MaxLatin1, inRange,
    Bool.and_eq_true, Bool.or_eq_true, Nat.ble_eq] at *
  split_ifs <;> omega

theorem lowerWord_eq_filter_map (U : UnicodeTables) (w : GoString)
    (h : (∀ r ∈ w, isAlnumASCII r = true) ∨ (∀ r ∈ w, isAlnumASCII r = false)) :
    lowerWord U w = (w.filter isAlnumASCII).map asciiLower := by
  rcases h with ha | hn
  · rw [lowerWord_of_alnum U w ha, List.filter_eq_self.mpr ha]
    exact List.map_congr_left (fun r hr => ToLower_eq_asciiLower U (ha r hr))
  · rw [lowerWord_of_not_alnum U w hn, List.filter_eq_nil_iff.mpr (fun r hr => by simp [hn r hr])]
    rfl

theorem flatten_map_filter_map (p : Nat → Bool) (g : Nat → Nat) (L : List (List Nat)) :
    (L.map (fun w => (w.filter p).map g)).flatten = (L.flatten.filter p).map g := by
  induction L with
  | nil => rfl
  | cons w t ih => simp [ih]

theorem flatten_filter_ne_nil_eq (L : List GoString) :
    (L.filter (fun w => decide (w ≠ []))).flatten = L.flatten := by
  induction L with
  | nil => rfl
  | cons w t ih =>
    cases w with
    | nil =>
      rw [List.filter_cons, if_neg (by simp), ih]
      rfl
    | cons a l =>
      rw [List.filter_cons, if_pos (by simp), List.flatten_cons, ih, List.flatten_cons]

theorem normalizedTokens_flatten (U : UnicodeTables) (name : GoString)
    (h : ∀ r ∈ name, runeClass U r ≠ 4 → r ≤ MaxASCII) :
    (normalizedTokens U name).flatten = (name.filter isAlnumASCII).map asciiLower := by
  unfold normalizedTokens
  rw [flatten_filter_ne_nil_eq,
    List.map_congr_left (fun w hw => lowerWord_eq_filter_map U w (Split_word_cases U name h w hw)),
    flatten_map_filter_map, Split_flatten]

theorem filter_underscore_JoinUnderscore (ts : List GoString) (h : ∀ t ∈ ts, 0x5F ∉ t) :
    (JoinUnderscore ts).filter (fun r => r != 0x5F) = ts.flatten := by
  have hfix : ∀ t : GoString, 0x5F ∉ t → t.filter (fun r => r != 0x5F) = t := by
    intro t ht
    apply List.filter_eq_self.mpr
    intro r hr
    simp only [bne_iff_ne, ne_eq]
    intro e
    exact ht (e ▸ hr)
  induction ts with
  | nil => rfl
  | cons w ws ih =>
    cases ws with
    | nil => simpa [JoinUnderscore] using hfix w (h w (List.mem_cons_self _ _))
    | cons w2 t =>
      rw [JoinUnderscore_cons_cons, List.filter_append, List.filter_cons,
        hfix w (h w (List.mem_cons_self _ _)),
        ih (fun u hu => h u (List.mem_cons_of_mem _ hu))]
      simp

theorem IsASCII_class (U : UnicodeTables) {name : GoString} (h : IsASCII name) :
    ∀ r ∈ name, runeClass U r ≠ 4 → r ≤ MaxASCII :=
  fun r hr _ => h r hr

theorem normalizedTokens_ascii_no_underscore (U : UnicodeTables) (name : GoString)
    (h : IsASCII name) : ∀ t ∈ normalizedTokens U name, t ≠ [] ∧ 0x5F ∉ t := by
  intro t ht
  obtain ⟨hne, hk⟩ := normalizedTokens_kinds U name h t ht
  refine ⟨hne, fun hmem => ?_⟩
  rcases hk with hl | hd
  · exact absurd (hl _ hmem) (by decide)
  · exact absurd (hd _ hmem) (by decide)

/-- C22: for every string of ASCII characters, deleting all underscores from
`NormalizeName(s)` gives `s` with every character that is no letter or digit
deleted and every letter in lower case; and `NormalizeName(s)` is empty exactly
when `s` contains no letter or digit. -/
theorem NormalizeName_keeps_alphanumerics (U : UnicodeTables) (s : GoString) (h : IsASCII s) :
    (NormalizeName U s).filter (fun r => r != 0x5F)
      = (s.filter isAlnumASCII).map asciiLower ∧
    (NormalizeName U s = [] ↔ ∀ r ∈ s, isAlnumASCII r = false) := by
  have htok := normalizedTokens_ascii_no_underscore U s h
  have hmain : (NormalizeName U s).filter (fun r => r != 0x5F)
      = (s.filter isAlnumASCII).map asciiLower := by
    rw [NormalizeName_eq_tokens, filter_underscore_JoinUnderscore _ (fun t ht => (htok t ht).2),
      normalizedTokens_flatten U s (IsASCII_class U h)]
  refine ⟨hmain, ?_, ?_⟩
  · intro he
    rw [he] at hmain
    have hnil : s.filter isAlnumASCII = [] := by
      have := hmain.symm
      simpa using this
    intro r hr
    rw [Bool.eq_false_iff]
    exact fun hc => (List.filter_eq_nil_iff.mp hnil) r hr hc
  · intro hno
    rw [NormalizeName_eq_tokens]
    cases htk : normalizedTokens U s with
    | nil => rfl
    | cons t ts =>
      exfalso
      have ht : t ∈ normalizedTokens U s := by rw [htk]; exact List.mem_cons_self _ _
      obtain ⟨hne, w, hw, hlw⟩ := mem_normalizedTokens ht
      have hwn : ∀ r ∈ w, isAlnumASCII r = false :=
        fun r hr => hno r (Split_allRunes U (fun x => x ∈ s) s (fun x hx => hx) w hw r hr)
      rw [lowerWord_of_not_alnum U w hwn] at hlw
      exact hne hlw.symm

/-- C22 (witness): `NormalizeName` of `/p.fake/CounterEvent2` without its
underscores is `pfakecounterevent2`, and `NormalizeName` of `/.-_ ` is empty. -/
theorem NormalizeName_keeps_alphanumerics_witness :
    IsASCII (str "/p.fake/CounterEvent2") ∧
    (NormalizeName latin1Tables (str "/p.fake/CounterEvent2")).filter (fun r => r != 0x5F)
      = str "pfakecounterevent2" ∧
    IsASCII (str "/.-_ ") ∧ NormalizeName latin1Tables (str "/.-_ ") = [] :=
  ⟨by decide,
   ((NormalizeName_keeps_alphanumerics latin1Tables (str "/p.fake/CounterEvent2")
      (by decide)).1).trans (by decide),
   by decide,
   (NormalizeName_keeps_alphanumerics latin1Tables (str "/.-_ ") (by decide)).2.mpr
     (by decide)⟩

/-! ## Lemmas: `Split` on a join of tokens -/

theorem foldl_splitStep_same (U : UnicodeTables) (c : Nat) (init : List (List Nat))
    (t : List Nat) (ht : ∀ r ∈ t, runeClass U r = c) :
    ∀ w0 : List Nat,
      t.foldl (splitStep U) (init ++ [w0], c) = (init ++ [w0 ++ t], c) := by
  induction t with
  | nil => intro w0; simp
  | cons r rest ih =>
    intro w0
    have hr : runeClass U r = c := ht r (List.mem_cons_self _ _)
    have hstep : splitStep U (init ++ [w0], c) r = (init ++ [w0 ++ [r]], c) := by
      unfold splitStep
      simp only [hr, if_true]
      rw [appendToLast_concat]
    rw [List.foldl_cons, hstep, ih (fun x hx => ht x (List.mem_cons_of_mem _ hx))]
    simp

theorem foldl_splitStep_new (U : UnicodeTables) (c : Nat) (st : List (List Nat) × Nat)
    (w : List Nat) (hne : w ≠ []) (hw : ∀ r ∈ w, runeClass U r = c) (hc : c ≠ st.2) :
    w.foldl (splitStep U) st = (st.1 ++ [w], c) := by
  cases w with
  | nil => exact absurd rfl hne
  | cons r t =>
    have hr : runeClass U r = c := hw r (List.mem_cons_self _ _)
    have hstep : splitStep U st r = (st.1 ++ [[r]], c) := by
      unfold splitStep
      simp only [hr, if_neg hc]
    rw [List.foldl_cons, hstep,
      foldl_splitStep_same U c st.1 t (fun x hx => hw x (List.mem_cons_of_mem _ hx)) [r]]
    rfl

theorem joinRuns_cons_cons (w w2 : GoString) (ws : List GoString) :
    joinRuns (w :: w2 :: ws) = w :: [0x5F] :: joinRuns (w2 :: ws) := rfl

theorem foldl_splitStep_JoinUnderscore (U : UnicodeTables) (ts : List GoString)
    (htok : ∀ t ∈ ts, t ≠ [] ∧
      ((∀ r ∈ t, runeClass U r = 1) ∨ (∀ r ∈ t, runeClass U r = 3))) :
    ∀ st : List (List Nat) × Nat, (st.2 = 0 ∨ st.2 = 4) →
      ((JoinUnderscore ts).foldl (splitStep U) st).1 = st.1 ++ joinRuns ts := by
  have hone : ∀ t ∈ ts, ∀ st : List (List Nat) × Nat, (st.2 = 0 ∨ st.2 = 4) →
      ∃ c, (c = 1 ∨ c = 3) ∧ t.foldl (splitStep U) st = (st.1 ++ [t], c) := by
    intro t ht st hst
    obtain ⟨hne, h1 | h3⟩ := htok t ht
    · exact ⟨1, Or.inl rfl, foldl_splitStep_new U 1 st t hne h1 (by omega)⟩
    · exact ⟨3, Or.inr rfl, foldl_splitStep_new U 3 st t hne h3 (by omega)⟩
  induction ts with
  | nil => intro st _; simp [JoinUnderscore, joinRuns]
  | cons w ws ih =>
    intro st hst
    obtain ⟨c, hc, hw⟩ := hone w (List.mem_cons_self _ _) st hst
    cases ws with
    | nil =>
      show (w.foldl (splitStep U) st).1 = st.1 ++ [w]
      rw [hw]
    | cons w2 t =>
      rw [JoinUnderscore_cons_cons, List.foldl_append, hw, List.foldl_cons]
      have hu : splitStep U (st.1 ++ [w], c) 0x5F = (st.1 ++ [w] ++ [[0x5F]], 4) := by
        unfold splitStep
        simp only [runeClass_underscore]
        rw [if_neg (by omega)]
      rw [hu, ih (fun u hu => htok u (List.mem_cons_of_mem _ hu))
        (fun u hu => hone u (List.mem_cons_of_mem _ hu)) _ (Or.inr rfl), joinRuns_cons_cons]
      simp

theorem fixFrom_no_upper (U : UnicodeTables) (rest : List (List Nat)) :
    ∀ cur : List Nat, IsUpper U (cur.headD 0) = false →
      (∀ w ∈ rest, IsUpper U (w.headD 0) = false) → fixFrom U cur rest = cur :: rest := by
  induction rest with
  | nil => intro cur _ _; rfl
  | cons w2 rest ih =>
    intro cur hcur hrest
    unfold fixFrom
    rw [hcur]
    simp only [Bool.false_and, Bool.false_eq_true, if_false]
    rw [ih w2 (hrest w2 (List.mem_cons_self _ _))
      (fun w hw => hrest w (List.mem_cons_of_mem _ hw))]

theorem mem_joinRuns {ts : List GoString} {w : List Nat} (h : w ∈ joinRuns ts) :
    w = [0x5F] ∨ w ∈ ts := by
  induction ts with
  | nil => simp [joinRuns] at h
  | cons t rest ih =>
    cases rest with
    | nil =>
      simp only [joinRuns, List.mem_singleton] at h
      exact Or.inr (h ▸ List.mem_cons_self _ _)
    | cons t2 r =>
      rw [joinRuns_cons_cons, List.mem_cons, List.mem_cons] at h
      rcases h with h | h | h
      · exact Or.inr (h ▸ List.mem_cons_self _ _)
      · exact Or.inl h
      · rcases ih h with h1 | h1
        · exact Or.inl h1
        · exact Or.inr (List.mem_cons_of_mem _ h1)

theorem runeClass_of_lower_ascii (U : UnicodeTables) {r : Nat}
    (h : inRange 0x61 0x7A r = true) : runeClass U r = 1 ∧ IsUpper U r = false := by
  have h255 : r ≤ MaxLatin1 := by
    simp only [inRange, Bool.and_eq_true, Nat.ble_eq, MaxLatin1] at *
    omega
  have hl : IsLower U r = true := by
    unfold IsLower
    rw [Nat.ble_eq_true_of_le h255, if_pos rfl, h]
    rfl
  refine ⟨runeClass_of_IsLower U hl, ?_⟩
  unfold IsUpper
  rw [Nat.ble_eq_true_of_le h255, if_pos rfl, Bool.eq_false_iff]
  simp only [inRange, Bool.and_eq_true, Bool.or_eq_true, Nat.ble_eq, ne_eq] at *
  omega

theorem runeClass_of_digit_ascii (U : UnicodeTables) {r : Nat}
    (h : isDigitASCII r = true) : runeClass U r = 3 ∧ IsUpper U r = false := by
  have h255 : r ≤ MaxLatin1 := by
    simp only [isDigitASCII, inRange, Bool.and_eq_true, Nat.ble_eq, MaxLatin1] at *
    omega
  have hu : IsUpper U r = false := by
    unfold IsUpper
    rw [Nat.ble_eq_true_of_le h255, if_pos rfl, Bool.eq_false_iff]
    simp only [isDigitASCII, inRange, Bool.and_eq_true, Bool.or_eq_true, Nat.ble_eq,
      ne_eq] at *
    omega
  have hl : IsLower U r = false := by
    unfold IsLower
    rw [Nat.ble_eq_true_of_le h255, if_pos rfl, Bool.eq_false_iff]
    simp only [isDigitASCII, inRange, Bool.and_eq_true, Bool.or_eq_true, Nat.ble_eq,
      beq_iff_eq, ne_eq] at *
    omega
  have hd : IsDigit U r = true := by
    unfold IsDigit
    rw [Nat.ble_eq_true_of_le h255, if_pos rfl]
    exact h
  refine ⟨?_, hu⟩
  unfold runeClass
  simp [hl, hu, hd]

theorem ToLower_of_lower_ascii (U : UnicodeTables) {r : Nat}
    (h : inRange 0x61 0x7A r = true) : ToLower U r = r := by
  simp only [ToLower, MaxASCII, MaxLatin1, inRange, Bool.and_eq_true, Bool.or_eq_true,
    Nat.ble_eq] at *
  split_ifs <;> omega

theorem token_facts (U : UnicodeTables) (t : GoString)
    (h : (∀ r ∈ t, inRange 0x61 0x7A r = true) ∨ (∀ r ∈ t, isDigitASCII r = true)) :
    ((∀ r ∈ t, runeClass U r = 1) ∨ (∀ r ∈ t, runeClass U r = 3)) ∧
    (∀ r ∈ t, IsUpper U r = false) ∧ lowerWord U t = t := by
  rcases h with hl | hd
  · refine ⟨Or.inl (fun r hr => (runeClass_of_lower_ascii U (hl r hr)).1),
      fun r hr => (runeClass_of_lower_ascii U (hl r hr)).2, ?_⟩
    have ha : ∀ r ∈ t, isAlnumASCII r = true := by
      intro r hr
      have := hl r hr
      simp only [isAlnumASCII, inRange, Bool.and_eq_true, Bool.or_eq_true, Nat.ble_eq] at *
      omega
    rw [lowerWord_of_alnum U t ha]
    conv_rhs => rw [← List.map_id t]
    exact List.map_congr_left (fun r hr => ToLower_of_lower_ascii U (hl r hr))
  · refine ⟨Or.inr (fun r hr => (runeClass_of_digit_ascii U (hd r hr)).1),
      fun r hr => (runeClass_of_digit_ascii U (hd r hr)).2, ?_⟩
    rw [lowerWord_of_alnum U t (fun r hr => isAlnumASCII_of_digit (hd r hr))]
    conv_rhs => rw [← List.map_id t]
    exact List.map_congr_left (fun r hr => ToLower_of_digit U (hd r hr))

theorem IsUpper_underscore (U : UnicodeTables) : IsUpper U 0x5F = false := by
  unfold IsUpper
  rw [Nat.ble_eq_true_of_le (by decide : 0x5F ≤ MaxLatin1), if_pos rfl]
  decide

theorem lowerWord_underscore (U : UnicodeTables) : lowerWord U [0x5F] = [] :=
  lowerWord_of_not_alnum U [0x5F] (fun r hr => by
    rw [List.mem_singleton] at hr
    rw [hr]
    decide)

theorem Split_JoinUnderscore (U : UnicodeTables) (ts : List GoString)
    (htok : ∀ t ∈ ts, t ≠ [] ∧
      ((∀ r ∈ t, inRange 0x61 0x7A r = true) ∨ (∀ r ∈ t, isDigitASCII r = true))) :
    Split U (JoinUnderscore ts) = joinRuns ts := by
  have hfields : splitFields U (JoinUnderscore ts) = joinRuns ts := by
    unfold splitFields
    rw [foldl_splitStep_JoinUnderscore U ts
      (fun t ht => ⟨(htok t ht).1, (token_facts U t (htok t ht).2).1⟩) ([], 0) (Or.inl rfl)]
    rfl
  have hrun : ∀ w ∈ joinRuns ts, w ≠ [] ∧ IsUpper U (w.headD 0) = false := by
    intro w hw
    rcases mem_joinRuns hw with h | h
    · rw [h]
      exact ⟨by simp, IsUpper_underscore U⟩
    · have hne := (htok w h).1
      exact ⟨hne, (token_facts U w (htok w h).2).2.1 _ (headD_mem hne)⟩
  unfold Split
  rw [hfields]
  have hfix : fixUpperLower U (joinRuns ts) = joinRuns ts := by
    cases hj : joinRuns ts with
    | nil => rfl
    | cons a l =>
      rw [hj] at hrun
      exact fixFrom_no_upper U l a (hrun a (List.mem_cons_self _ _)).2
        (fun w hw => (hrun w (List.mem_cons_of_mem _ hw)).2)
  rw [hfix]
  apply List.filter_eq_self.mpr
  intro w hw
  exact decide_eq_true (List.length_pos.mpr (hrun w hw).1)

theorem normalizedTokens_JoinUnderscore (U : UnicodeTables) (ts : List GoString)
    (htok : ∀ t ∈ ts, t ≠ [] ∧
      ((∀ r ∈ t, inRange 0x61 0x7A r = true) ∨ (∀ r ∈ t, isDigitASCII r = true))) :
    normalizedTokens U (JoinUnderscore ts) = ts := by
  unfold normalizedTokens
  rw [Split_JoinUnderscore U ts htok]
  induction ts with
  | nil => rfl
  | cons t rest ih =>
    have ht := htok t (List.mem_cons_self _ _)
    have hlw := (token_facts U t ht.2).2.2
    cases rest with
    | nil =>
      simp only [joinRuns, List.map_cons, List.map_nil, hlw]
      rw [List.filter_cons, if_pos (decide_eq_true ht.1)]
      rfl
    | cons t2 r =>
      rw [joinRuns_cons_cons, List.map_cons, List.map_cons, hlw, lowerWord_underscore,
        List.filter_cons, if_pos (decide_eq_true ht.1), List.filter_cons,
        if_neg (by simp), ih (fun u hu => htok u (List.mem_cons_of_mem _ hu))]

/-- C23: `NormalizeName` is idempotent on ASCII input: for every string `s` of
ASCII characters, `NormalizeName(NormalizeName(s)) = NormalizeName(s)`. -/
theorem NormalizeName_idempotent (U : UnicodeTables) (s : GoString) (h : IsASCII s) :
    NormalizeName U (NormalizeName U s) = NormalizeName U s := by
  have htok := normalizedTokens_kinds U s h
  rw [NormalizeName_eq_tokens U s, NormalizeName_eq_tokens U (JoinUnderscore _),
    normalizedTokens_JoinUnderscore U (normalizedTokens U s) htok]

/-- C23 (witness): `NormalizeName` of `/p.fake/CounterEvent2` is
`p_fake_counter_event_2`, and `NormalizeName` of that is the same. -/
theorem NormalizeName_idempotent_witness :
    IsASCII (str "/p.fake/CounterEvent2") ∧
    NormalizeName latin1Tables (str "/p.fake/CounterEvent2") = str "p_fake_counter_event_2" ∧
    NormalizeName latin1Tables (str "p_fake_counter_event_2") = str "p_fake_counter_event_2" ∧
    NormalizeName latin1Tables (NormalizeName latin1Tables (str "/p.fake/CounterEvent2"))
      = NormalizeName latin1Tables (str "/p.fake/CounterEvent2") :=
  ⟨by decide, by decide, by decide,
   NormalizeName_idempotent latin1Tables (str "/p.fake/CounterEvent2") (by decide)⟩

end Firehose
